import Mathlib

/-!
# Verification of the MP-Gadget domain-decomposition and force-tree subsystem

Shallow embedding of the domain decomposition (`domain.c`) and the
gravitational oct-tree construction (`forcetree.c`) of MP-Gadget.

Modelling conventions:
* C `double`/`float` values are modelled by `ℚ` (exact rational arithmetic
  standing in for IEEE floating point, which the specification treats "to
  floating-point tolerance").
* C `int`/`int64_t` loop counters and array indices are modelled by `ℕ`
  where they are provably non-negative in every reachable state, and by `ℤ`
  where the code uses negative sentinel values (`-1`).
* `endrun(...)` (fatal termination of the whole run) is modelled by the
  `Except`-style error of a sum type, or by a dedicated error constructor.
* Arrays are modelled by `List`s or by functions out of `ℕ`/`Fin n`.
* `while` loops are modelled by structural recursion on an explicit
  decreasing measure, or by a fuel parameter when the C loop's termination
  is itself not locally evident; the theorems then either prove fuel
  adequacy or take the normal exit as a hypothesis.
-/

namespace MPGadget

/-! ## Particle data (subset of `struct particle_data` used by domain.c) -/

/-- The fields of `struct particle_data` that the domain-exchange and
garbage-collection code manipulates.  `ID` is the 64-bit particle ID,
`Generation` the spawn generation counter, `PI` the index into the
black-hole auxiliary array, `Typ` renders the source field `Type` (a Lean keyword), the species
(0 = gas, 5 = black hole). -/
structure ParticleData where
  Typ : ℕ
  ID : ℕ
  Generation : ℕ
  Mass : ℚ
  PI : ℕ
  OnAnotherDomain : Bool
  WillExport : Bool
  deriving Repr, DecidableEq, Inhabited

/-! ## C10: `domain_fork_particle`

The source (domain.c, `domain_fork_particle`): aborts with `endrun(8888)`
when `NumPart >= All.MaxPart`; otherwise appends a copy of the parent at
index `child = NumPart` (incrementing `NumPart`), increments the parent's
`Generation` — an `unsigned char` (allvars.h), so the `++` wraps modulo
`2^8` — sets the child's ID to
`(parent.ID & 0x00ffffffffffffff) + (g << 56)` with `g` the incremented
generation held in a `uint64_t`, and zeroes the child's mass. -/

/-- State acted on by `domain_fork_particle`: the live particle array
(`P[0..NumPart)`, so `NumPart = P.length`) and the ceiling `All.MaxPart`. -/
structure ForkState where
  P : List ParticleData
  MaxPart : ℕ
  deriving Repr, DecidableEq

/-- `(parent.ID & 0x00ffffffffffffffL) + (g << 56L)` on `uint64_t`:
the low 56 bits of the parent ID plus the generation shifted into the top
8 bits, the shift wrapping modulo 2^64. -/
def forkChildID (parentID g : ℕ) : ℕ :=
  parentID % 2 ^ 56 + (g * 2 ^ 56) % 2 ^ 64

/-- `domain_fork_particle` (domain.c).  Returns the new state and the
child index on success; `Except.error` models `endrun(8888, ...)` when
`NumPart >= All.MaxPart`.  Only the fields embedded in `ParticleData` are
tracked; the time-bin linked list and `Nextnode` splice of the source
touch no field this development mentions. -/
def domain_fork_particle (s : ForkState) (parent : ℕ) : Except Unit (ForkState × ℕ) :=
  if s.P.length ≥ s.MaxPart then
    .error ()   -- endrun(8888, "... no space left ...")
  else
    let child := s.P.length
    let par := s.P.getD parent default
    let par' := { par with Generation := (par.Generation + 1) % 2 ^ 8 }
    let g := par'.Generation
    let childPart := { par' with ID := forkChildID par.ID g, Mass := 0 }
    .ok ({ s with P := (s.P.set parent par') ++ [childPart] }, child)

lemma forkChildID_mod (pid g : ℕ) :
    forkChildID pid g % 2 ^ 56 = pid % 2 ^ 56 ∧
    forkChildID pid g / 2 ^ 56 = g % 2 ^ 8 ∧
    forkChildID pid g < 2 ^ 64 := by
  unfold forkChildID
  have h : (g * 2 ^ 56) % 2 ^ 64 = (g % 2 ^ 8) * 2 ^ 56 := by
    have h64 : (2 : ℕ) ^ 64 = 2 ^ 8 * 2 ^ 56 := by norm_num
    rw [h64, Nat.mul_mod_mul_right]
  rw [h]
  omega

/-- C10: for every parent particle with `NumPart < All.MaxPart`,
`domain_fork_particle` increments the parent's 8-bit `Generation`
counter (the `unsigned char` `++` wraps modulo 2^8), appends exactly
one child (so `NumPart` grows by one) whose 64-bit ID keeps the low 56
bits of the parent's ID and carries the incremented generation value in
its high 8 bits, and whose mass is zero; with `NumPart ≥ All.MaxPart`
the spawn is instead fatal. -/
theorem fork_particle_spec (s : ForkState) (parent : ℕ)
    (hlt : s.P.length < s.MaxPart) (hp : parent < s.P.length) :
    ∃ s' child, domain_fork_particle s parent = .ok (s', child) ∧
      child = s.P.length ∧
      s'.P.length = s.P.length + 1 ∧
      (s'.P.getD parent default).Generation
        = ((s.P.getD parent default).Generation + 1) % 2 ^ 8 ∧
      (s'.P.getD child default).ID % 2 ^ 56 = (s.P.getD parent default).ID % 2 ^ 56 ∧
      (s'.P.getD child default).ID / 2 ^ 56
        = ((s.P.getD parent default).Generation + 1) % 2 ^ 8 ∧
      (s'.P.getD child default).ID < 2 ^ 64 ∧
      (s'.P.getD child default).Mass = 0 ∧
      (∀ s₂ : ForkState, s₂.P.length ≥ s₂.MaxPart →
        domain_fork_particle s₂ parent = .error ()) := by
  have hnot : ¬ s.P.length ≥ s.MaxPart := not_le.mpr hlt
  simp only [domain_fork_particle, if_neg hnot]
  refine ⟨_, _, rfl, rfl, by simp, ?_, ?_, ?_, ?_, ?_, ?_⟩
  · rw [List.getD_eq_getElem _ _ (by simpa using Nat.lt_succ_of_lt hp)]
    rw [List.getElem_append_left (by simpa using hp)]
    rw [List.getElem_set_self (by simpa using hp)]
  · rw [List.getD_eq_getElem _ _ (by simp)]
    rw [List.getElem_append_right (by simp)]
    simp only [List.length_set, Nat.sub_self, List.getElem_cons_zero]
    exact (forkChildID_mod _ _).1
  · rw [List.getD_eq_getElem _ _ (by simp)]
    rw [List.getElem_append_right (by simp)]
    simp only [List.length_set, Nat.sub_self, List.getElem_cons_zero]
    rw [(forkChildID_mod _ _).2.1]
    exact Nat.mod_mod_of_dvd _ dvd_rfl
  · rw [List.getD_eq_getElem _ _ (by simp)]
    rw [List.getElem_append_right (by simp)]
    simp only [List.length_set, Nat.sub_self, List.getElem_cons_zero]
    exact (forkChildID_mod _ _).2.2
  · rw [List.getD_eq_getElem _ _ (by simp)]
    rw [List.getElem_append_right (by simp)]
    simp
  · intro s₂ h
    simp [domain_fork_particle, h]

/-- Witness for C10 at a concrete state: one particle with ID
`0x0100000000000007` (generation 1 in the high bits, 7 in the low bits),
generation 1, mass 3; after forking, the parent's generation is 2, the
child's ID is `0x0200000000000007` and its mass is 0. -/
theorem fork_particle_spec_witness :
    (let s : ForkState :=
      { P := [{ Typ := 0, ID := 2 ^ 56 + 7, Generation := 1, Mass := 3,
                PI := 0, OnAnotherDomain := false, WillExport := false }],
        MaxPart := 4 }
     ∃ s' child, domain_fork_particle s 0 = .ok (s', child) ∧
      child = s.P.length ∧
      s'.P.length = s.P.length + 1 ∧
      (s'.P.getD 0 default).Generation
        = ((s.P.getD 0 default).Generation + 1) % 2 ^ 8 ∧
      (s'.P.getD child default).ID % 2 ^ 56 = (s.P.getD 0 default).ID % 2 ^ 56 ∧
      (s'.P.getD child default).ID / 2 ^ 56
        = ((s.P.getD 0 default).Generation + 1) % 2 ^ 8 ∧
      (s'.P.getD child default).ID < 2 ^ 64 ∧
      (s'.P.getD child default).Mass = 0 ∧
      (∀ s₂ : ForkState, s₂.P.length ≥ s₂.MaxPart →
        domain_fork_particle s₂ 0 = .error ())) :=
  fork_particle_spec _ 0 (by norm_num) (by norm_num)

/-! ## C9: `domain_add_cost`

The source (domain.c, `domain_add_cost`): given a refined node `noA` of
the local top-level tree and an inserted `count`/`cost`, computes
`countB = count / 8`, `countA = count - 7 * countB`, `cost = cost / 8`,
and adds `countA`/`cost` to daughter 0 and `countB`/`cost` to daughters
1..7, recursing with the daughter's share into every refined daughter.
`count` is an `int64_t` (here `ℤ`; the counts the code handles are
non-negative, where C truncating division and Lean's division agree) and
`cost` a `double` (here `ℚ`). -/

/-- The locally refined top-level tree (`struct local_topnode_data`), with
the arena's `Daughter` links rendered as an inductive tree: a `leaf`
(`Daughter == -1`) or a `node` with the list of its daughter subtrees
(always 8 of them in every tree the code builds).  Each constructor
carries the node's `Count` and `Cost`. -/
inductive TopTree where
  | leaf : ℤ → ℚ → TopTree
  | node : ℤ → ℚ → List TopTree → TopTree

/-- `Count` field of a top-level tree node. -/
def TopTree.Count : TopTree → ℤ
  | .leaf c _ => c
  | .node c _ _ => c

/-- `Cost` field of a top-level tree node. -/
def TopTree.Cost : TopTree → ℚ
  | .leaf _ w => w
  | .node _ w _ => w

/-- The daughter list of a node (`topNodes[no].Daughter + 0 .. + 7`);
empty for a leaf. -/
def TopTree.daughters : TopTree → List TopTree
  | .leaf _ _ => []
  | .node _ _ ds => ds

mutual
/-- The body of one iteration of the `for(i = 0; i < 8; i++)` loop of
`domain_add_cost`: daughter `sub` receives its share added to its own
`Count`/`Cost`, and, if refined, the same split is applied to its own
daughters (`if(treeA[sub].Daughter >= 0) domain_add_cost(treeA, sub, count, cost)`). -/
def addToDaughter : TopTree → ℤ → ℚ → TopTree
  | .leaf c w, ci, wi => .leaf (c + ci) (w + wi)
  | .node c w ds, ci, wi => .node (c + ci) (w + wi) (domain_add_cost_go ds 0 ci wi)

/-- The `for(i = 0; i < 8; i++)` loop of `domain_add_cost`: daughter 0
receives `count - 7 * (count / 8)`, every later daughter `count / 8`;
each daughter receives cost `cost / 8`. -/
def domain_add_cost_go : List TopTree → ℕ → ℤ → ℚ → List TopTree
  | [], _, _, _ => []
  | d :: rest, i, count, cost =>
    addToDaughter d (if i = 0 then count - 7 * (count / 8) else count / 8) (cost / 8) ::
      domain_add_cost_go rest (i + 1) count cost
end

/-- `domain_add_cost(treeA, noA, count, cost)` (domain.c): distributes the
inserted `count`/`cost` over the 8 daughters of the refined node `noA`.
The node's own fields are untouched (the caller updated them before the
call); the source is only invoked on refined nodes, so the `leaf` branch
is never reached. -/
def domain_add_cost (t : TopTree) (count : ℤ) (cost : ℚ) : TopTree :=
  match t with
  | .leaf c w => .leaf c w
  | .node c w ds => .node c w (domain_add_cost_go ds 0 count cost)

/-- Every refined node of the tree has exactly 8 daughters, as the arena
construction (`topNodes[i].Daughter = NTopnodes; NTopnodes += 8`)
guarantees. -/
inductive EightWide : TopTree → Prop
  | leaf (c : ℤ) (w : ℚ) : EightWide (.leaf c w)
  | node (c : ℤ) (w : ℚ) (ds : List TopTree) :
      ds.length = 8 → (∀ d ∈ ds, EightWide d) → EightWide (.node c w ds)

/-- Level-wise conservation between an old and a new tree of the same
shape: at every refined node, the daughters' `Count` (resp. `Cost`)
increments sum exactly to the increment of the node itself. -/
inductive ConservedDelta : TopTree → TopTree → Prop
  | leaf (c c' : ℤ) (w w' : ℚ) : ConservedDelta (.leaf c w) (.leaf c' w')
  | node (c c' : ℤ) (w w' : ℚ) (ds ds' : List TopTree) :
      List.Forall₂ ConservedDelta ds ds' →
      ((ds'.map TopTree.Count).sum - (ds.map TopTree.Count).sum = c' - c) →
      ((ds'.map TopTree.Cost).sum - (ds.map TopTree.Cost).sum = w' - w) →
      ConservedDelta (.node c w ds) (.node c' w' ds')

lemma addToDaughter_Count (d : TopTree) (ci : ℤ) (wi : ℚ) :
    (addToDaughter d ci wi).Count = d.Count + ci := by
  cases d <;> rfl

lemma addToDaughter_Cost (d : TopTree) (ci : ℤ) (wi : ℚ) :
    (addToDaughter d ci wi).Cost = d.Cost + wi := by
  cases d <;> rfl

/-- Count increment of the daughters `1..7` handled by the loop tail:
each receives `count / 8`. -/
lemma domain_add_cost_go_sum_Count_tail :
    ∀ (ds : List TopTree) (i : ℕ) (count : ℤ) (cost : ℚ), i ≠ 0 →
    ((domain_add_cost_go ds i count cost).map TopTree.Count).sum
      = (ds.map TopTree.Count).sum + (ds.length : ℤ) * (count / 8) := by
  intro ds
  induction ds with
  | nil => intro i count cost _; simp [domain_add_cost_go]
  | cons d rest ih =>
    intro i count cost hi
    simp only [domain_add_cost_go, List.map_cons, List.sum_cons, addToDaughter_Count,
      List.length_cons]
    rw [if_neg hi, ih (i + 1) count cost (by omega)]
    push_cast
    ring

/-- Count increment of the whole daughter list: daughter 0 absorbs the
remainder `count - 7 * (count / 8)`, the remaining daughters receive
`count / 8` each. -/
lemma domain_add_cost_go_sum_Count :
    ∀ (d : TopTree) (rest : List TopTree) (count : ℤ) (cost : ℚ),
    ((domain_add_cost_go (d :: rest) 0 count cost).map TopTree.Count).sum
      = ((d :: rest).map TopTree.Count).sum
        + (count - 7 * (count / 8)) + (rest.length : ℤ) * (count / 8) := by
  intro d rest count cost
  simp only [domain_add_cost_go, List.map_cons, List.sum_cons, addToDaughter_Count]
  rw [if_pos trivial, domain_add_cost_go_sum_Count_tail rest 1 count cost (by omega)]
  ring

/-- Cost increment of the whole daughter list: each daughter receives
exactly `cost / 8`. -/
lemma domain_add_cost_go_sum_Cost :
    ∀ (ds : List TopTree) (i : ℕ) (count : ℤ) (cost : ℚ),
    ((domain_add_cost_go ds i count cost).map TopTree.Cost).sum
      = (ds.map TopTree.Cost).sum + ds.length * (cost / 8) := by
  intro ds
  induction ds with
  | nil => intro i count cost; simp [domain_add_cost_go]
  | cons d rest ih =>
    intro i count cost
    simp only [domain_add_cost_go, List.map_cons, List.sum_cons, addToDaughter_Cost, ih,
      List.length_cons]
    push_cast
    ring

mutual
/-- One daughter update of `domain_add_cost` conserves count and cost at
every level below it. -/
lemma conservedDelta_addToDaughter (d : TopTree) (ci : ℤ) (wi : ℚ)
    (hw : EightWide d) : ConservedDelta d (addToDaughter d ci wi) := by
  cases d with
  | leaf c w => exact ConservedDelta.leaf _ _ _ _
  | node c w ds =>
    cases hw with
    | node _ _ _ hlen hmem =>
      refine ConservedDelta.node _ _ _ _ _ _
        (conservedDelta_go ds 0 ci wi hmem) ?_ ?_
      · obtain ⟨d, rest, rfl⟩ : ∃ d rest, ds = d :: rest := by
          cases ds with
          | nil => simp at hlen
          | cons d rest => exact ⟨d, rest, rfl⟩
        rw [domain_add_cost_go_sum_Count]
        have hrest : rest.length = 7 := by simpa using hlen
        rw [hrest]
        push_cast
        ring
      · rw [domain_add_cost_go_sum_Cost, hlen]
        push_cast
        ring

/-- The daughter loop of `domain_add_cost` relates old and new daughters
pointwise by `ConservedDelta`. -/
lemma conservedDelta_go (ds : List TopTree) (i : ℕ) (count : ℤ) (cost : ℚ)
    (hmem : ∀ d ∈ ds, EightWide d) :
    List.Forall₂ ConservedDelta ds (domain_add_cost_go ds i count cost) := by
  cases ds with
  | nil => exact List.Forall₂.nil
  | cons d rest =>
    exact List.Forall₂.cons
      (conservedDelta_addToDaughter d _ _ (hmem d (by simp)))
      (conservedDelta_go rest (i + 1) count cost (fun x hx => hmem x (by simp [hx])))
end

/-- C9: `domain_add_cost` on a refined node with 8 (recursively 8-wide)
daughters leaves the node's own fields alone, increases the daughters'
total `Count` by exactly the inserted `count` and their total `Cost` by
exactly the inserted `cost` (daughter 0 absorbing the remainder
`count - 7*(count/8)`), and does so again recursively at every refined
subtree, for every integer `count` — including counts not divisible
by 8 — and every rational `cost`. -/
theorem domain_add_cost_conserves (c : ℤ) (w : ℚ) (ds : List TopTree)
    (count : ℤ) (cost : ℚ)
    (hlen : ds.length = 8) (hmem : ∀ d ∈ ds, EightWide d) :
    (domain_add_cost (.node c w ds) count cost).Count = c ∧
    (domain_add_cost (.node c w ds) count cost).Cost = w ∧
    (((domain_add_cost (.node c w ds) count cost).daughters.map TopTree.Count).sum
      = (ds.map TopTree.Count).sum + count) ∧
    (((domain_add_cost (.node c w ds) count cost).daughters.map TopTree.Cost).sum
      = (ds.map TopTree.Cost).sum + cost) ∧
    List.Forall₂ ConservedDelta ds (domain_add_cost (.node c w ds) count cost).daughters := by
  refine ⟨rfl, rfl, ?_, ?_, ?_⟩
  · show ((domain_add_cost_go ds 0 count cost).map TopTree.Count).sum = _
    obtain ⟨d, rest, rfl⟩ : ∃ d rest, ds = d :: rest := by
      cases ds with
      | nil => simp at hlen
      | cons d rest => exact ⟨d, rest, rfl⟩
    rw [domain_add_cost_go_sum_Count]
    have hrest : rest.length = 7 := by simpa using hlen
    rw [hrest]
    push_cast
    ring
  · show ((domain_add_cost_go ds 0 count cost).map TopTree.Cost).sum = _
    rw [domain_add_cost_go_sum_Cost, hlen]
    push_cast
    ring
  · exact conservedDelta_go ds 0 count cost hmem

/-- Witness for C9: a concrete 8-wide node holding counts `1..8`
(sum 36) and unit costs, with inserted count 10 (not divisible by 8) and
cost 3. -/
theorem domain_add_cost_conserves_witness :
    (let ds : List TopTree :=
      [.leaf 1 1, .leaf 2 1, .leaf 3 1, .leaf 4 1,
       .leaf 5 1, .leaf 6 1, .leaf 7 1, .leaf 8 1]
     (domain_add_cost (.node 36 8 ds) 10 3).Count = 36 ∧
     (domain_add_cost (.node 36 8 ds) 10 3).Cost = 8 ∧
     (((domain_add_cost (.node 36 8 ds) 10 3).daughters.map TopTree.Count).sum
       = (ds.map TopTree.Count).sum + 10) ∧
     (((domain_add_cost (.node 36 8 ds) 10 3).daughters.map TopTree.Cost).sum
       = (ds.map TopTree.Cost).sum + 3) ∧
     List.Forall₂ ConservedDelta ds (domain_add_cost (.node 36 8 ds) 10 3).daughters) :=
  domain_add_cost_conserves 36 8 _ 10 3 rfl
    (by intro d hd; fin_cases hd <;> exact EightWide.leaf _ _)

/-! ## C1: `domain_findSplit_work_balanced` / `domain_findSplit_load_balanced`

The two functions (domain.c) are textually identical up to the leaf
metric (`domainWork`, a `float` array, vs `domainCount`, an `int` array);
both are rendered through the common core `findSplit_go`.  The segment
pair `(DomainStartList[i], DomainEndList[i])` of the source's two output
arrays is the `i`-th entry of the returned list. -/

/-- The inner `while` loop of the split: keep absorbing the next leaf
while the running metric is below the running average target, and force
the very last segment (`i == ncpu - 1`) to reach leaf `ndomain - 1`;
never absorb so much that fewer leaves than segments remain
(`if((ndomain - end) > (ncpu - i)) end++; else break;`).  The loop runs
at most `ndomain` times; the `fuel` parameter dominates that bound in
every use below. -/
def findSplit_while (w : ℕ → ℚ) (ncpu ndomain i : ℕ)
    (workavg workavg_before work_before : ℚ) :
    ℕ → ℕ → ℚ → ℕ × ℚ
  | 0, e, work => (e, work)
  | fuel + 1, e, work =>
    if (work + work_before < workavg + workavg_before)
        ∨ (i = ncpu - 1 ∧ e < ndomain - 1) then
      if (ndomain : ℤ) - e > (ncpu : ℤ) - i then
        findSplit_while w ncpu ndomain i workavg workavg_before work_before
          fuel (e + 1) (work + w (e + 1))
      else (e, work)
    else (e, work)

/-- The outer `for(i = 0; i < ncpu; i++)` loop: `r` counts the remaining
iterations (`i = ncpu - r`); each iteration opens a segment at `start`,
runs the inner loop starting with `work = domainWork[start]`, emits
`(DomainStartList[i], DomainEndList[i]) = (start, end)`, and advances
`work_before`, `workavg_before` and `start = end + 1`. -/
def findSplit_go (w : ℕ → ℚ) (ncpu ndomain : ℕ) (workavg : ℚ) :
    ℕ → ℕ → ℚ → ℚ → List (ℕ × ℕ)
  | 0, _, _, _ => []
  | r + 1, start, work_before, workavg_before =>
    let i := ncpu - (r + 1)
    let p := findSplit_while w ncpu ndomain i workavg workavg_before work_before
      (ndomain + 1) start (w start)
    (start, p.1) ::
      findSplit_go w ncpu ndomain workavg r (p.1 + 1) (work_before + p.2)
        (workavg_before + workavg)

/-- `domain_findSplit_work_balanced(ncpu, ndomain)` (domain.c): greedy 1-D
split of the leaf metric `domainWork[0..ndomain)` into `ncpu` contiguous
segments, steering each segment's accumulated work towards
`workavg = (total work) / ncpu`. -/
def domain_findSplit_work_balanced (domainWork : ℕ → ℚ) (ncpu ndomain : ℕ) :
    List (ℕ × ℕ) :=
  let work := ((List.range ndomain).map domainWork).sum
  findSplit_go domainWork ncpu ndomain (work / ncpu) ncpu 0 0 0

/-- `domain_findSplit_load_balanced(ncpu, ndomain)` (domain.c): the same
greedy split applied to the integer particle counts `domainCount`
(accumulated in a C `double`, hence the cast into `ℚ`). -/
def domain_findSplit_load_balanced (domainCount : ℕ → ℤ) (ncpu ndomain : ℕ) :
    List (ℕ × ℕ) :=
  let load := ((List.range ndomain).map (fun n => (domainCount n : ℚ))).sum
  findSplit_go (fun n => (domainCount n : ℚ)) ncpu ndomain (load / ncpu) ncpu 0 0 0

/-- `contigFrom a L`: the segments of `L` are contiguous, non-empty and
start exactly at leaf `a` (`DomainStartList[i+1] = DomainEndList[i] + 1`). -/
def contigFrom : ℕ → List (ℕ × ℕ) → Prop
  | _, [] => True
  | a, (s, e) :: rest => s = a ∧ a ≤ e ∧ contigFrom (e + 1) rest

instance (a : ℕ) (L : List (ℕ × ℕ)) : Decidable (contigFrom a L) := by
  induction L generalizing a with
  | nil => exact .isTrue trivial
  | cons p rest ih =>
    obtain ⟨s, e⟩ := p
    exact @instDecidableAnd _ _ _ (@instDecidableAnd _ _ _ (ih (e + 1)))

/-- The `DomainEndList` entry of the last segment. -/
def lastSegEnd (L : List (ℕ × ℕ)) : ℕ :=
  (L.getLast?.getD (0, 0)).2

/-- Number of segments of `L` containing leaf `d`. -/
def segCount (L : List (ℕ × ℕ)) (d : ℕ) : ℕ :=
  L.countP (fun s => decide (s.1 ≤ d ∧ d ≤ s.2))

lemma lastSegEnd_cons (x : ℕ × ℕ) (L : List (ℕ × ℕ)) (h : L ≠ []) :
    lastSegEnd (x :: L) = lastSegEnd L := by
  cases L with
  | nil => exact absurd rfl h
  | cons y rest => rw [lastSegEnd, lastSegEnd, List.getLast?_cons_cons]

/-- Leaves strictly before the chain's first leaf belong to no segment. -/
lemma contigFrom_count_lt (L : List (ℕ × ℕ)) :
    ∀ a, contigFrom a L → ∀ d, d < a → segCount L d = 0 := by
  induction L with
  | nil => intro a _ d _; rfl
  | cons p rest ih =>
    obtain ⟨s, e⟩ := p
    intro a hc d hd
    obtain ⟨hs, hae, hrest⟩ := hc
    have h1 : ¬ (s ≤ d ∧ d ≤ e) := fun h => by omega
    have h2 : segCount rest d = 0 := ih (e + 1) hrest d (by omega)
    simp [segCount, List.countP_cons, h1] at h2 ⊢
    exact h2

/-- Leaves between the chain's first leaf and its last end belong to
exactly one segment. -/
lemma contigFrom_count_mem (L : List (ℕ × ℕ)) :
    ∀ a, contigFrom a L → L ≠ [] →
    ∀ d, a ≤ d → d ≤ lastSegEnd L → segCount L d = 1 := by
  induction L with
  | nil => intro a _ h; exact absurd rfl h
  | cons p rest ih =>
    obtain ⟨s, e⟩ := p
    intro a hc _ d had hdl
    obtain ⟨hs, hae, hrest⟩ := hc
    by_cases hde : d ≤ e
    · have h1 : s ≤ d ∧ d ≤ e := ⟨by omega, hde⟩
      have h2 : segCount rest d = 0 := contigFrom_count_lt rest (e + 1) hrest d (by omega)
      simp [segCount, List.countP_cons, h1] at h2 ⊢
      exact h2
    · have hne : rest ≠ [] := by
        intro h
        subst h
        simp [lastSegEnd] at hdl
        omega
      have h1 : ¬ (s ≤ d ∧ d ≤ e) := fun h => by omega
      have h2 : segCount rest d = 1 := by
        refine ih (e + 1) hrest hne d (by omega) ?_
        rwa [lastSegEnd_cons _ _ hne] at hdl
      simp [segCount, List.countP_cons, h1] at h2 ⊢
      exact h2

/-- Inner-loop invariant: the end leaf never advances past the point
where fewer unassigned leaves than remaining segments would be left, and
the final segment is driven all the way to leaf `ndomain - 1`. -/
lemma findSplit_while_spec (w : ℕ → ℚ) (ncpu ndomain i : ℕ)
    (workavg workavg_before work_before : ℚ) :
    ∀ fuel e work, i < ncpu → ndomain ≤ fuel + e →
    ((ncpu : ℤ) - i ≤ (ndomain : ℤ) - e) →
    (e ≤ (findSplit_while w ncpu ndomain i workavg workavg_before work_before fuel e work).1 ∧
     ((ncpu : ℤ) - i ≤ (ndomain : ℤ) -
       (findSplit_while w ncpu ndomain i workavg workavg_before work_before fuel e work).1) ∧
     (i = ncpu - 1 →
       (findSplit_while w ncpu ndomain i workavg workavg_before work_before fuel e work).1
         = ndomain - 1)) := by
  intro fuel
  induction fuel with
  | zero =>
    intro e work hi hf hinv
    exfalso
    omega
  | succ fuel ih =>
    intro e work hi hf hinv
    rw [findSplit_while]
    by_cases hcond : (work + work_before < workavg + workavg_before)
        ∨ (i = ncpu - 1 ∧ e < ndomain - 1)
    · rw [if_pos hcond]
      by_cases hguard : (ndomain : ℤ) - e > (ncpu : ℤ) - i
      · rw [if_pos hguard]
        have := ih (e + 1) (work + w (e + 1)) hi (by omega) (by push_cast; omega)
        refine ⟨by omega, this.2.1, this.2.2⟩
      · rw [if_neg hguard]
        exact ⟨le_rfl, hinv, fun hlast => by omega⟩
    · rw [if_neg hcond]
      refine ⟨le_rfl, hinv, fun hlast => ?_⟩
      rw [not_or] at hcond
      have := hcond.2
      omega

/-- Outer-loop invariant: with `r` segments still to emit and at least
`r` unassigned leaves, the loop emits exactly `r` contiguous non-empty
segments starting at `start`, the last of which ends at `ndomain - 1`. -/
lemma findSplit_go_spec (w : ℕ → ℚ) (ncpu ndomain : ℕ) (workavg : ℚ) :
    ∀ (r start : ℕ) (work_before workavg_before : ℚ), 0 < r → r ≤ ncpu →
    ((r : ℤ) ≤ (ndomain : ℤ) - start) →
    ((findSplit_go w ncpu ndomain workavg r start work_before workavg_before).length = r ∧
     contigFrom start (findSplit_go w ncpu ndomain workavg r start work_before workavg_before) ∧
     lastSegEnd (findSplit_go w ncpu ndomain workavg r start work_before workavg_before)
       = ndomain - 1) := by
  intro r
  induction r with
  | zero => intro start _ _ h; omega
  | succ r ih =>
    intro start work_before workavg_before _ hle hinv
    have hi : ncpu - (r + 1) < ncpu := by omega
    have hw := findSplit_while_spec w ncpu ndomain (ncpu - (r + 1)) workavg
      workavg_before work_before (ndomain + 1) start (w start) hi (by omega)
      (by omega)
    rw [findSplit_go]
    set p := findSplit_while w ncpu ndomain (ncpu - (r + 1)) workavg
      workavg_before work_before (ndomain + 1) start (w start) with hp
    obtain ⟨hse, hinv', hlast⟩ := hw
    rcases Nat.eq_zero_or_pos r with hr0 | hrpos
    · subst hr0
      refine ⟨rfl, ⟨rfl, ?_, trivial⟩, ?_⟩
      · exact hse
      · show lastSegEnd [(start, p.1)] = ndomain - 1
        show p.1 = ndomain - 1
        exact hlast (by omega)
    · have hihr := ih (p.1 + 1) (work_before + p.2) (workavg_before + workavg)
        hrpos (by omega) (by push_cast at hinv' ⊢; omega)
      have hne : findSplit_go w ncpu ndomain workavg r (p.1 + 1)
          (work_before + p.2) (workavg_before + workavg) ≠ [] := by
        intro h
        rw [h] at hihr
        simp at hihr
        omega
      refine ⟨by simpa using hihr.1, ⟨rfl, hse, hihr.2.1⟩, ?_⟩
      rw [lastSegEnd_cons _ _ hne]
      exact hihr.2.2

/-- Core partition property shared by both split flavours. -/
lemma findSplit_go_partition (w : ℕ → ℚ) (ncpu ndomain : ℕ) (workavg : ℚ)
    (h1 : 0 < ncpu) (h2 : ncpu ≤ ndomain) :
    ((findSplit_go w ncpu ndomain workavg ncpu 0 0 0).length = ncpu ∧
     contigFrom 0 (findSplit_go w ncpu ndomain workavg ncpu 0 0 0) ∧
     lastSegEnd (findSplit_go w ncpu ndomain workavg ncpu 0 0 0) = ndomain - 1 ∧
     ∀ d < ndomain, segCount (findSplit_go w ncpu ndomain workavg ncpu 0 0 0) d = 1) := by
  have h := findSplit_go_spec w ncpu ndomain workavg ncpu 0 0 0 h1 le_rfl (by push_cast; omega)
  refine ⟨h.1, h.2.1, h.2.2, fun d hd => ?_⟩
  refine contigFrom_count_mem _ 0 h.2.1 ?_ d (Nat.zero_le d) ?_
  · intro hnil
    rw [hnil] at h
    simp at h
    omega
  · rw [h.2.2]
    omega

/-- C1: for every leaf metric and every requested segment count
`0 < ncpu ≤ ndomain`, both `domain_findSplit_work_balanced` and
`domain_findSplit_load_balanced` produce exactly `ncpu` segments
`(DomainStartList[i], DomainEndList[i])` that are non-empty and
contiguous (`DomainStartList[i+1] = DomainEndList[i] + 1`), start at
leaf 0 and end at leaf `ndomain - 1`; hence every top-level leaf
`d < ndomain` lies in exactly one segment. -/
theorem findSplit_partition (domainWork : ℕ → ℚ) (domainCount : ℕ → ℤ)
    (ncpu ndomain : ℕ) (h1 : 0 < ncpu) (h2 : ncpu ≤ ndomain) :
    ((domain_findSplit_work_balanced domainWork ncpu ndomain).length = ncpu ∧
     contigFrom 0 (domain_findSplit_work_balanced domainWork ncpu ndomain) ∧
     lastSegEnd (domain_findSplit_work_balanced domainWork ncpu ndomain) = ndomain - 1 ∧
     (∀ d < ndomain, segCount (domain_findSplit_work_balanced domainWork ncpu ndomain) d = 1)) ∧
    ((domain_findSplit_load_balanced domainCount ncpu ndomain).length = ncpu ∧
     contigFrom 0 (domain_findSplit_load_balanced domainCount ncpu ndomain) ∧
     lastSegEnd (domain_findSplit_load_balanced domainCount ncpu ndomain) = ndomain - 1 ∧
     (∀ d < ndomain, segCount (domain_findSplit_load_balanced domainCount ncpu ndomain) d = 1)) :=
  ⟨findSplit_go_partition _ ncpu ndomain _ h1 h2,
   findSplit_go_partition _ ncpu ndomain _ h1 h2⟩

/-- Witness for C1: 5 leaves with work `1,1,4,1,1` and counts
`2,1,1,1,3`, split into 2 segments. -/
theorem findSplit_partition_witness :
    (0 < 2 ∧ 2 ≤ 5) ∧
    (((domain_findSplit_work_balanced (fun n => [1, 1, 4, 1, 1].getD n 0) 2 5).length = 2 ∧
     contigFrom 0 (domain_findSplit_work_balanced (fun n => [1, 1, 4, 1, 1].getD n 0) 2 5) ∧
     lastSegEnd (domain_findSplit_work_balanced (fun n => [1, 1, 4, 1, 1].getD n 0) 2 5) = 4 ∧
     (∀ d < 5, segCount (domain_findSplit_work_balanced (fun n => [1, 1, 4, 1, 1].getD n 0) 2 5) d = 1)) ∧
    ((domain_findSplit_load_balanced (fun n => [2, 1, 1, 1, 3].getD n 0) 2 5).length = 2 ∧
     contigFrom 0 (domain_findSplit_load_balanced (fun n => [2, 1, 1, 1, 3].getD n 0) 2 5) ∧
     lastSegEnd (domain_findSplit_load_balanced (fun n => [2, 1, 1, 1, 3].getD n 0) 2 5) = 4 ∧
     (∀ d < 5, segCount (domain_findSplit_load_balanced (fun n => [2, 1, 1, 1, 3].getD n 0) 2 5) d = 1))) :=
  ⟨⟨by norm_num, by norm_num⟩,
   findSplit_partition _ _ 2 5 (by norm_num) (by norm_num)⟩

/-! ## C6: `domain_decompose` memory-bound retry logic

`domain_decompose` (domain.c) first splits work-balanced and assigns
(`mode = 1`), then checks the memory bound; on failure it retries exactly
once with the particle-count-balanced split (`mode = 0`); if the check
still fails it calls `endrun(0, "No domain decomposition that stays
within memory bounds is possible.")`, otherwise it proceeds to
`domain_exchange` with the last computed assignment.

The folding pass `domain_assign_load_or_work_balanced` is embedded in
full; the C `qsort` (unstable, comparator on one key) is rendered by a
stable insertion sort — the two may emit tied entries in different
orders, which no theorem below depends on. -/

/-- Parameters of one decomposition: task count, over-decomposition
factor, leaf count, the three per-leaf metrics, and the two per-process
ceilings `maxLoad = All.MaxPart * REDUC_FAC`,
`maxLoadsph = All.MaxPartSph * REDUC_FAC`. -/
structure DecomposeEnv where
  NTask : ℕ
  ODF : ℕ
  NTopleaves : ℕ
  domainWork : ℕ → ℚ
  domainCount : ℕ → ℤ
  domainCountSph : ℕ → ℤ
  maxLoad : ℤ
  maxLoadsph : ℤ

/-- Sum of a per-leaf metric over one segment
(`for(i = DomainStartList[..]; i <= DomainEndList[..]; i++)`). -/
def segMetric (f : ℕ → ℤ) (seg : ℕ × ℕ) : ℤ :=
  ((List.range (seg.2 + 1 - seg.1)).map (fun k => f (seg.1 + k))).sum

/-- Rational-valued segment metric (C accumulates into a `double`). -/
def segMetricQ (f : ℕ → ℚ) (seg : ℕ × ℕ) : ℚ :=
  ((List.range (seg.2 + 1 - seg.1)).map (fun k => f (seg.1 + k))).sum

/-- One folding round of `domain_assign_load_or_work_balanced`: compute
each bucket's load, sort `(load, origin)` pairs ascending by load, send
the `i`-th lightest and the `i`-th heaviest bucket both to new bucket
`i`, and relabel every segment.  `tasks` maps segment slot to current
bucket. -/
def assign_round (mode : ℕ) (env : DecomposeEnv) (segs : List (ℕ × ℕ))
    (ndomains : ℕ) (tasks : List ℕ) : List ℕ :=
  let load : ℕ → ℚ := fun i =>
    (((segs.zip tasks).filter (fun st => st.2 = i)).map
      (fun st => if mode = 1 then ((segMetric env.domainCount st.1 : ℤ) : ℚ)
                 else segMetricQ env.domainWork st.1)).sum
  let pairs := ((List.range ndomains).map (fun i => (load i, i))).insertionSort
    (fun a b => a.1 ≤ b.1)
  let target : ℕ → ℕ :=
    (List.range (ndomains / 2)).foldl
      (fun t i =>
        Function.update
          (Function.update t (pairs.getD i (0, 0)).2 i)
          (pairs.getD (ndomains - 1 - i) (0, 0)).2 i)
      (fun _ => 0)
  tasks.map target

/-- The `while(ndomains > NTask)` folding loop; `ndomains` halves each
round, so any `fuel ≥ ndomains` dominates the iteration count. -/
def assign_fold (mode : ℕ) (env : DecomposeEnv) (segs : List (ℕ × ℕ)) :
    (fuel ndomains : ℕ) → (tasks : List ℕ) → List ℕ
  | 0, _, tasks => tasks
  | fuel + 1, ndomains, tasks =>
    if ndomains > env.NTask then
      assign_fold mode env segs fuel (ndomains / 2)
        (assign_round mode env segs ndomains tasks)
    else tasks

/-- `domain_assign_load_or_work_balanced(mode)` (domain.c): fold the
over-decomposed segment list down to one bucket per task and emit the
records `(task, start, end)` sorted by task (the order in which the
source rewrites `DomainStartList`/`DomainEndList`). -/
def domain_assign_load_or_work_balanced (mode : ℕ) (env : DecomposeEnv)
    (segs : List (ℕ × ℕ)) : List (ℕ × ℕ × ℕ) :=
  let tasks := assign_fold mode env segs (env.ODF * env.NTask)
    (env.ODF * env.NTask) (List.range (env.ODF * env.NTask))
  ((segs.zip tasks).map (fun st => (st.2, st.1.1, st.1.2))).insertionSort
    (fun a b => a.1 ≤ b.1)

/-- Particle load of task `ta`: its `ODF` consecutive segments'
`domainCount` sums (`domain_check_memory_bound`, first loop). -/
def taskLoad (env : DecomposeEnv) (assign : List (ℕ × ℕ × ℕ)) (ta : ℕ) : ℤ :=
  ((List.range env.ODF).map (fun m =>
    segMetric env.domainCount (assign.getD (ta * env.ODF + m) (0, 0, 0)).2)).sum

/-- SPH load of task `ta` (`domainCountSph` sums). -/
def taskLoadSph (env : DecomposeEnv) (assign : List (ℕ × ℕ × ℕ)) (ta : ℕ) : ℤ :=
  ((List.range env.ODF).map (fun m =>
    segMetricQ (fun i => ((env.domainCountSph i : ℤ) : ℚ))
      (assign.getD (ta * env.ODF + m) (0, 0, 0)).2)).sum.num

/-- `max_load` accumulated over all tasks starting from 0. -/
def maxTaskLoad (env : DecomposeEnv) (assign : List (ℕ × ℕ × ℕ)) : ℤ :=
  ((List.range env.NTask).map (taskLoad env assign)).foldl max 0

/-- `max_sphload` accumulated over all tasks starting from 0. -/
def maxTaskLoadSph (env : DecomposeEnv) (assign : List (ℕ × ℕ × ℕ)) : ℤ :=
  ((List.range env.NTask).map (taskLoadSph env assign)).foldl max 0

/-- `domain_check_memory_bound` (domain.c): returns 1 when the maximal
particle load exceeds `maxLoad` or the maximal SPH load exceeds
`maxLoadsph`, 0 otherwise (the work sums are only reported, never
checked). -/
def domain_check_memory_bound (env : DecomposeEnv)
    (assign : List (ℕ × ℕ × ℕ)) : ℕ :=
  if maxTaskLoad env assign > env.maxLoad then 1
  else if maxTaskLoadSph env assign > env.maxLoadsph then 1
  else 0

/-- The work-balanced assignment tried first by `domain_decompose`. -/
def decompose_work_assign (env : DecomposeEnv) : List (ℕ × ℕ × ℕ) :=
  domain_assign_load_or_work_balanced 1 env
    (domain_findSplit_work_balanced env.domainWork (env.ODF * env.NTask) env.NTopleaves)

/-- The count-balanced assignment tried on retry. -/
def decompose_load_assign (env : DecomposeEnv) : List (ℕ × ℕ × ℕ) :=
  domain_assign_load_or_work_balanced 0 env
    (domain_findSplit_load_balanced env.domainCount (env.ODF * env.NTask) env.NTopleaves)

/-- The memory-bound branch structure of `domain_decompose` (domain.c,
after `domain_determineTopTree` succeeds): work-balanced split and
assignment, memory check, a single count-balanced retry on failure,
`endrun(0, ...)` (here `.error ()`) when the retry also fails, otherwise
the surviving assignment is handed to `domain_exchange`. -/
def domain_decompose (env : DecomposeEnv) : Except Unit (List (ℕ × ℕ × ℕ)) :=
  let a1 := decompose_work_assign env
  let status := domain_check_memory_bound env a1
  if status ≠ 0 then
    let a2 := decompose_load_assign env
    let status2 := domain_check_memory_bound env a2
    if status2 ≠ 0 then
      .error ()    -- endrun(0, "No domain decomposition ... is possible.")
    else
      .ok a2
  else
    .ok a1

/-- C6: if the work-balanced partition gives some process a particle
load above `maxLoad` or an SPH load above `maxLoadsph`,
`domain_decompose` retries exactly once with the particle-count-balanced
split; if the count-balanced assignment still exceeds a ceiling the run
terminates fatally, and otherwise the decomposition proceeds (to the
exchange) with the last computed assignment. -/
theorem domain_decompose_retry (env : DecomposeEnv) :
    (¬(maxTaskLoad env (decompose_work_assign env) > env.maxLoad ∨
       maxTaskLoadSph env (decompose_work_assign env) > env.maxLoadsph) →
      domain_decompose env = .ok (decompose_work_assign env)) ∧
    ((maxTaskLoad env (decompose_work_assign env) > env.maxLoad ∨
      maxTaskLoadSph env (decompose_work_assign env) > env.maxLoadsph) →
     ¬(maxTaskLoad env (decompose_load_assign env) > env.maxLoad ∨
       maxTaskLoadSph env (decompose_load_assign env) > env.maxLoadsph) →
      domain_decompose env = .ok (decompose_load_assign env)) ∧
    ((maxTaskLoad env (decompose_work_assign env) > env.maxLoad ∨
      maxTaskLoadSph env (decompose_work_assign env) > env.maxLoadsph) →
     (maxTaskLoad env (decompose_load_assign env) > env.maxLoad ∨
      maxTaskLoadSph env (decompose_load_assign env) > env.maxLoadsph) →
      domain_decompose env = .error ()) := by
  have hcheck : ∀ a, (domain_check_memory_bound env a ≠ 0 ↔
      (maxTaskLoad env a > env.maxLoad ∨ maxTaskLoadSph env a > env.maxLoadsph)) := by
    intro a
    unfold domain_check_memory_bound
    by_cases h1 : maxTaskLoad env a > env.maxLoad
    · simp [h1]
    · by_cases h2 : maxTaskLoadSph env a > env.maxLoadsph <;> simp [h1, h2]
  refine ⟨fun h => ?_, fun h1 h2 => ?_, fun h1 h2 => ?_⟩
  · have : ¬ (domain_check_memory_bound env (decompose_work_assign env) ≠ 0) :=
      fun hc => h ((hcheck _).mp hc)
    unfold domain_decompose
    simp only [if_neg this]
  · have hA : domain_check_memory_bound env (decompose_work_assign env) ≠ 0 :=
      (hcheck _).mpr h1
    have hB : ¬ (domain_check_memory_bound env (decompose_load_assign env) ≠ 0) :=
      fun hc => h2 ((hcheck _).mp hc)
    unfold domain_decompose
    simp only [if_pos hA, if_neg hB]
  · have hA : domain_check_memory_bound env (decompose_work_assign env) ≠ 0 :=
      (hcheck _).mpr h1
    have hB : domain_check_memory_bound env (decompose_load_assign env) ≠ 0 :=
      (hcheck _).mpr h2
    unfold domain_decompose
    simp only [if_pos hA, if_pos hB]

/-- Witness for C6: 2 tasks, over-decomposition factor 1, 2 leaves with
one particle each and generous ceilings — the work-balanced assignment
passes the check and is used directly. -/
theorem domain_decompose_retry_witness :
    (let env : DecomposeEnv :=
      { NTask := 2, ODF := 1, NTopleaves := 2,
        domainWork := fun _ => 1, domainCount := fun _ => 1,
        domainCountSph := fun _ => 1, maxLoad := 100, maxLoadsph := 100 }
     ¬(maxTaskLoad env (decompose_work_assign env) > env.maxLoad ∨
       maxTaskLoadSph env (decompose_work_assign env) > env.maxLoadsph) ∧
      domain_decompose env = .ok (decompose_work_assign env)) := by
  have hev : ¬(maxTaskLoad
        { NTask := 2, ODF := 1, NTopleaves := 2,
          domainWork := fun _ => 1, domainCount := fun _ => 1,
          domainCountSph := fun _ => 1, maxLoad := 100, maxLoadsph := 100 }
        (decompose_work_assign
          { NTask := 2, ODF := 1, NTopleaves := 2,
            domainWork := fun _ => 1, domainCount := fun _ => 1,
            domainCountSph := fun _ => 1, maxLoad := 100, maxLoadsph := 100 }) > 100 ∨
      maxTaskLoadSph
        { NTask := 2, ODF := 1, NTopleaves := 2,
          domainWork := fun _ => 1, domainCount := fun _ => 1,
          domainCountSph := fun _ => 1, maxLoad := 100, maxLoadsph := 100 }
        (decompose_work_assign
          { NTask := 2, ODF := 1, NTopleaves := 2,
            domainWork := fun _ => 1, domainCount := fun _ => 1,
            domainCountSph := fun _ => 1, maxLoad := 100, maxLoadsph := 100 }) > 100) := by
    norm_num [maxTaskLoad, maxTaskLoadSph, taskLoad, taskLoadSph,
      decompose_work_assign, domain_assign_load_or_work_balanced,
      assign_fold, assign_round, domain_findSplit_work_balanced,
      findSplit_go, findSplit_while, segMetric, segMetricQ,
      List.insertionSort, List.orderedInsert, List.range_succ,
      Function.update]
  exact ⟨hev, (domain_decompose_retry _).1 hev⟩

/-! ## C8: `force_treebuild` node-storage retry

`force_treebuild_single` (forcetree.c) checks, after creating each new
internal node, whether `numnodes >= MaxNodes`; if so, it either aborts
the run (`endrun(1, ...)`, when `All.TreeAllocFactor > 5.0`) or frees the
scratch list and returns the sentinel `-1`.  The driver
`force_treebuild` takes the minimum of `Numnodestree` over all tasks
and, while it is `-1`, frees the tree, multiplies `All.TreeAllocFactor`
by 1.15, reallocates and rebuilds from scratch. -/

/-- Outcome of the node-storage check inside the particle-insertion loop
of `force_treebuild_single` (forcetree.c, "maximum number %d of
tree-nodes reached"). -/
inductive BuildStep where
  | keepGoing   -- numnodes < MaxNodes: insertion continues
  | fatal       -- endrun(1, "serious problem occured, snapshot saved.")
  | sentinel    -- return -1
  deriving Repr, DecidableEq

/-- The `if((numnodes) >= MaxNodes)` block of `force_treebuild_single`:
exhausted node storage is fatal once `All.TreeAllocFactor > 5.0` and the
retryable sentinel `-1` otherwise. -/
def force_treebuild_single_nodecheck (numnodes MaxNodes : ℕ)
    (TreeAllocFactor : ℚ) : BuildStep :=
  if numnodes ≥ MaxNodes then
    if TreeAllocFactor > 5 then .fatal
    else .sentinel
  else .keepGoing

/-- The `do { ... } while(flag == -1)` loop of `force_treebuild`
(forcetree.c), over an abstract per-factor build outcome `b` standing
for `force_treebuild_single` followed by the `MPI_Allreduce(..., MPI_MIN,
...)` of `Numnodestree` (`.error` = some task hit `endrun` inside the
build; `.ok n` = the reduced flag).  On the sentinel the factor grows by
1.15 and the build restarts; `none` reports exhausted fuel, which the
adequacy theorem below rules out. -/
def force_treebuild_loop (b : ℚ → Except Unit ℤ) :
    ℕ → ℚ → Option (Except Unit (ℤ × ℚ))
  | 0, _ => none
  | fuel + 1, f =>
    match b f with
    | .error _ => some (.error ())
    | .ok n =>
      if n = -1 then force_treebuild_loop b fuel (f * (115 / 100))
      else some (.ok (n, f))

/-- Bernoulli step: `(1 + 3/20)^k` dominates `1 + k * (3/20)`. -/
lemma pow_115_ge (k : ℕ) : 1 + (k : ℚ) * (3 / 20) ≤ (115 / 100) ^ k := by
  have h : ((115 : ℚ) / 100) = 1 + 3 / 20 := by norm_num
  rw [h]
  exact one_add_mul_le_pow (by norm_num) k

/-- Fuel adequacy kernel: once the factor has provably outgrown 5 after
`fuel` retries, the loop cannot run out of fuel. -/
lemma force_treebuild_loop_adequate (b : ℚ → Except Unit ℤ)
    (hb : ∀ f, b f = .ok (-1) → f ≤ 5) :
    ∀ (fuel : ℕ) (f : ℚ), 0 < f → 5 < f * (115 / 100) ^ fuel →
    force_treebuild_loop b (fuel + 1) f ≠ none := by
  intro fuel
  induction fuel with
  | zero =>
    intro f hf hbig
    simp only [pow_zero, mul_one] at hbig
    rw [force_treebuild_loop]
    cases hbf : b f with
    | error e => simp
    | ok n =>
      have hn : ¬ n = -1 := by
        intro h
        subst h
        exact absurd (hb f hbf) (by linarith)
      simp [hn]
  | succ fuel ih =>
    intro f hf hbig
    rw [force_treebuild_loop]
    cases hbf : b f with
    | error e => simp
    | ok n =>
      by_cases hn : n = -1
      · simp only [hn, if_pos rfl]
        refine ih (f * (115 / 100)) (by positivity) ?_
        calc (5 : ℚ) < f * (115 / 100) ^ (fuel + 1) := hbig
        _ = f * (115 / 100) * (115 / 100) ^ fuel := by ring
      · simp [hn]

/-- C8: (i) inside a build, reaching `MaxNodes` nodes is fatal when
`TreeAllocFactor > 5.0` and otherwise yields the sentinel `-1` (and the
build continues when storage remains); (ii) each sentinel makes the
driver retry the whole build with the factor grown by exactly 1.15; and
(iii) provided the build respects (i) — it only returns the sentinel
while the factor is at most 5 — the retry loop is bounded: for every
positive starting factor some finite number of growth attempts suffices
for the driver to deliver a verdict (success or fatal abort). -/
theorem force_treebuild_retry (b : ℚ → Except Unit ℤ)
    (hb : ∀ f, b f = .ok (-1) → f ≤ 5) :
    (∀ numnodes MaxNodes f, numnodes ≥ MaxNodes →
      (5 < f → force_treebuild_single_nodecheck numnodes MaxNodes f = .fatal) ∧
      (f ≤ 5 → force_treebuild_single_nodecheck numnodes MaxNodes f = .sentinel)) ∧
    (∀ numnodes MaxNodes f, numnodes < MaxNodes →
      force_treebuild_single_nodecheck numnodes MaxNodes f = .keepGoing) ∧
    (∀ fuel f, b f = .ok (-1) →
      force_treebuild_loop b (fuel + 1) f
        = force_treebuild_loop b fuel (f * (115 / 100))) ∧
    (∀ f, 0 < f → ∃ fuel, force_treebuild_loop b fuel f ≠ none) := by
  refine ⟨?_, ?_, ?_, ?_⟩
  · intro n M f hge
    constructor
    · intro h5
      rw [force_treebuild_single_nodecheck, if_pos hge, if_pos h5]
    · intro h5
      rw [force_treebuild_single_nodecheck, if_pos hge, if_neg (by linarith)]
  · intro n M f hlt
    rw [force_treebuild_single_nodecheck, if_neg (by omega)]
  · intro fuel f hbf
    rw [force_treebuild_loop, hbf]
    simp
  · intro f hf
    obtain ⟨k, hk⟩ := exists_nat_gt ((5 / f) * (20 / 3))
    refine ⟨k + 1, force_treebuild_loop_adequate b hb k f hf ?_⟩
    have h1 : 1 + (k : ℚ) * (3 / 20) ≤ (115 / 100) ^ k := pow_115_ge k
    have h2 : 5 / f < (k : ℚ) * (3 / 20) := by
      have h := mul_lt_mul_of_pos_right hk (show (0 : ℚ) < 3 / 20 by norm_num)
      calc 5 / f = 5 / f * (20 / 3) * (3 / 20) := by ring
      _ < (k : ℚ) * (3 / 20) := h
    have h3 : 5 / f < (115 / 100 : ℚ) ^ k := by linarith
    calc (5 : ℚ) = f * (5 / f) := by field_simp
    _ < f * (115 / 100) ^ k := by
        exact mul_lt_mul_of_pos_left h3 hf

/-- Witness for C8: a build model that returns the sentinel exactly while
the factor is at most 5 and succeeds above; starting from factor 1 the
loop terminates within some finite fuel, and a sentinel at factor 1
multiplies the factor by 1.15. -/
theorem force_treebuild_retry_witness :
    (let b : ℚ → Except Unit ℤ := fun f => if f ≤ 5 then .ok (-1) else .ok 42
     (∀ f, b f = .ok (-1) → f ≤ 5) ∧
     ((∀ numnodes MaxNodes f, numnodes ≥ MaxNodes →
        (5 < f → force_treebuild_single_nodecheck numnodes MaxNodes f = .fatal) ∧
        (f ≤ 5 → force_treebuild_single_nodecheck numnodes MaxNodes f = .sentinel)) ∧
      (∀ numnodes MaxNodes f, numnodes < MaxNodes →
        force_treebuild_single_nodecheck numnodes MaxNodes f = .keepGoing) ∧
      (∀ fuel f, b f = .ok (-1) →
        force_treebuild_loop b (fuel + 1) f
          = force_treebuild_loop b fuel (f * (115 / 100))) ∧
      (∀ f, 0 < f → ∃ fuel, force_treebuild_loop b fuel f ≠ none))) := by
  have hb : ∀ f : ℚ, (if f ≤ 5 then (.ok (-1) : Except Unit ℤ) else .ok 42) = .ok (-1) → f ≤ 5 := by
    intro f h
    by_cases h5 : f ≤ 5
    · exact h5
    · rw [if_neg h5] at h
      exact absurd h (by simp)
  exact ⟨hb, force_treebuild_retry _ hb⟩

/-! ## C2: exchange conservation (`domain_countToGo` / `domain_exchange_once`)

`domain_countToGo` fills `toGo[target]` with the number of flagged local
particles bound for each other task and calls
`MPI_Alltoall(toGo, 1, MPI_INT, toGet, ...)`, whose library semantics
deliver `toGet` as the transpose of the distributed `toGo` matrix.
`domain_exchange_once` then removes every particle with
`OnAnotherDomain && WillExport` from the local array (swap-removal loop
at its heart), appends the received particles and adjusts
`NumPart += count_get`. -/

/-- `P[n].OnAnotherDomain && P[n].WillExport`, the condition under which
`domain_exchange_once` exports (and removes) particle `n`. -/
def exportFlagged (p : ParticleData) : Bool := p.OnAnotherDomain && p.WillExport

/-- The packing/swap-removal loop of `domain_exchange_once` (domain.c,
`for(n = 0; n < NumPart; n++)`): an exported gas particle (`Type == 0`)
is replaced by the last gas particle, whose slot is filled with the last
particle overall (keeping gas in the prefix `[0, N_sph)`), and both
`NumPart` and `N_sph` shrink; any other exported particle is replaced by
the last particle; the slot is then re-examined (`n--`).  Returns the
surviving array and the new `N_sph`.  (The source also copies the
departing particle into the send buffer, which does not change the local
array.) -/
def exchange_pack (ps : List ParticleData) (nsph n : ℕ) :
    List ParticleData × ℕ :=
  if h : n < ps.length then
    if exportFlagged (ps.get ⟨n, h⟩) then
      if (ps.get ⟨n, h⟩).Typ = 0 then
        exchange_pack
          (((ps.set n (ps.getD (nsph - 1) default)).set (nsph - 1)
            ((ps.set n (ps.getD (nsph - 1) default)).getD (ps.length - 1) default)).dropLast)
          (nsph - 1) n
      else
        exchange_pack ((ps.set n (ps.getD (ps.length - 1) default)).dropLast) nsph n
    else exchange_pack ps nsph (n + 1)
  else (ps, nsph)
  termination_by ps.length - n
  decreasing_by
  · simp only [List.length_dropLast, List.length_set]; omega
  · simp only [List.length_dropLast, List.length_set]; omega
  · omega

/-- `countP` under a single in-range `set`, in cancellation-free form. -/
lemma countP_set_add (p : ParticleData → Bool) :
    ∀ (l : List ParticleData) (i : ℕ) (x : ParticleData), i < l.length →
    (l.set i x).countP p + (if p (l.getD i default) then 1 else 0)
      = l.countP p + (if p x then 1 else 0) := by
  intro l
  induction l with
  | nil => intro i x h; exact absurd h (by simp)
  | cons a t ih =>
    intro i x h
    cases i with
    | zero =>
      simp only [List.set_cons_zero, List.countP_cons, List.getD_cons_zero]
      omega
    | succ i =>
      simp only [List.set_cons_succ, List.countP_cons, List.getD_cons_succ]
      have := ih i x (by simpa using h)
      omega

/-- `countP` of `dropLast`, in cancellation-free form. -/
lemma countP_dropLast_add (p : ParticleData → Bool) (l : List ParticleData)
    (h : l ≠ []) :
    l.dropLast.countP p + (if p (l.getD (l.length - 1) default) then 1 else 0)
      = l.countP p := by
  conv_rhs => rw [← List.dropLast_append_getLast h]
  rw [List.countP_append]
  have hl : l.getD (l.length - 1) default = l.getLast h := by
    rw [List.getLast_eq_getElem, List.getD_eq_getElem]
  rw [hl]
  simp [List.countP_cons]

/-- `getD` after `set` at the written slot. -/
lemma getD_set_self (l : List ParticleData) (i : ℕ) (x : ParticleData)
    (h : i < l.length) : (l.set i x).getD i default = x := by
  rw [List.getD_eq_getElem _ _ (by simpa using h)]
  exact List.getElem_set_self (by simpa using h)

/-- `getD` after `set` at a different slot. -/
lemma getD_set_ne (l : List ParticleData) (i j : ℕ) (x : ParticleData)
    (hne : i ≠ j) : (l.set i x).getD j default = l.getD j default := by
  by_cases hj : j < l.length
  · rw [List.getD_eq_getElem _ _ (by simpa using hj),
      List.getD_eq_getElem _ _ hj]
    exact List.getElem_set_ne hne _
  · rw [List.getD_eq_default _ _ (by simpa using hj),
      List.getD_eq_default _ _ (by omega)]

/-- `getD` of `dropLast` below the cut. -/
lemma getD_dropLast (l : List ParticleData) (i : ℕ) (h : i < l.length - 1) :
    l.dropLast.getD i default = l.getD i default := by
  rw [List.getD_eq_getElem _ _ (by simp; omega),
    List.getD_eq_getElem _ _ (by omega)]
  exact List.getElem_dropLast l i (by simp; omega)

/-- The swap-removal loop removes exactly the flagged particles: the
surviving array length plus the flagged count equals the original
length.  `hpref`: slots before `n` hold no flagged particle (they have
already been examined); `hpack`: gas particles occupy exactly the prefix
`[0, nsph)`. -/
lemma exchange_pack_length (ps : List ParticleData) (nsph n : ℕ)
    (hpref : ∀ i, i < ps.length → i < n → exportFlagged (ps.getD i default) = false)
    (hpack : ∀ i, i < ps.length → ((ps.getD i default).Typ = 0 ↔ i < nsph))
    (hn : nsph ≤ ps.length) :
    (exchange_pack ps nsph n).1.length + ps.countP exportFlagged = ps.length := by
  by_cases h : n < ps.length
  · have hgetn : ps.get ⟨n, h⟩ = ps.getD n default := by
      rw [List.getD_eq_getElem _ _ h]; rfl
    by_cases hf : exportFlagged (ps.get ⟨n, h⟩)
    · by_cases ht : (ps.get ⟨n, h⟩).Typ = 0
      · -- gas branch: positions n and nsph-1 rewritten, last slot dropped
        have heq : exchange_pack ps nsph n
            = exchange_pack
              (((ps.set n (ps.getD (nsph - 1) default)).set (nsph - 1)
                ((ps.set n (ps.getD (nsph - 1) default)).getD (ps.length - 1) default)).dropLast)
              (nsph - 1) n := by
          rw [exchange_pack, dif_pos h, if_pos hf, if_pos ht]
        rw [heq]
        rw [hgetn] at hf ht
        have hnsph : n < nsph := (hpack n h).mp ht
        set y := ps.getD (nsph - 1) default with hy
        set ps1 := ps.set n y with hps1
        have hlen1 : ps1.length = ps.length := by simp [hps1]
        set z := ps1.getD (ps.length - 1) default with hz
        set ps2 := ps1.set (nsph - 1) z with hps2
        have hlen2 : ps2.length = ps.length := by simp [hps2, hps1]
        have hne2 : ps2 ≠ [] := by
          intro hcon
          rw [hcon] at hlen2
          simp at hlen2
          omega
        have hget1 : ∀ i, ps1.getD i default
            = if i = n then y else ps.getD i default := by
          intro i
          by_cases hc : i = n
          · rw [if_pos hc, hc, hps1, getD_set_self _ _ _ h]
          · rw [if_neg hc, hps1, getD_set_ne _ _ _ _ (fun hcc => hc hcc.symm)]
        have hget2 : ∀ i, ps2.getD i default
            = if i = nsph - 1 then z
              else if i = n then y else ps.getD i default := by
          intro i
          by_cases hc : i = nsph - 1
          · rw [if_pos hc, hc, hps2, getD_set_self _ _ _ (by omega)]
          · rw [if_neg hc, hps2, getD_set_ne _ _ _ _ (fun hcc => hc hcc.symm), hget1]
        have hzval : z = if ps.length - 1 = n then y
            else ps.getD (ps.length - 1) default := by
          rw [hz, hget1]
        have hlastv : ps2.getD (ps2.length - 1) default = z := by
          rw [hlen2, hget2]
          by_cases hc : ps.length - 1 = nsph - 1
          · rw [if_pos hc]
          · rw [if_neg hc, hzval]
        have hmid1 : ps1.getD (nsph - 1) default = y := by
          rw [hget1]
          by_cases hc : nsph - 1 = n
          · rw [if_pos hc]
          · rw [if_neg hc, hy]
        have hA := countP_dropLast_add exportFlagged ps2 hne2
        have hB := countP_set_add exportFlagged ps1 (nsph - 1) z (by omega)
        have hC := countP_set_add exportFlagged ps n y h
        rw [hlastv] at hA
        rw [hmid1, ← hps2] at hB
        rw [← hps1, hf] at hC
        norm_num at hC
        have hcount : ps2.dropLast.countP exportFlagged + 1
            = ps.countP exportFlagged := by omega
        have hlen' : ps2.dropLast.length = ps.length - 1 := by
          simp [hlen2]
        have hdrop : ∀ i, i < ps.length - 1 →
            ps2.dropLast.getD i default = ps2.getD i default := by
          intro i hi
          exact getD_dropLast ps2 i (by omega)
        have hpref' : ∀ i, i < ps2.dropLast.length → i < n →
            exportFlagged (ps2.dropLast.getD i default) = false := by
          intro i hi hin
          rw [hdrop i (by omega), hget2, if_neg (by omega), if_neg (by omega)]
          exact hpref i (by omega) hin
        have hpack' : ∀ i, i < ps2.dropLast.length →
            ((ps2.dropLast.getD i default).Typ = 0 ↔ i < nsph - 1) := by
          intro i hi
          rw [hlen'] at hi
          rw [hdrop i hi, hget2]
          by_cases hc1 : i = nsph - 1
          · rw [if_pos hc1, hzval]
            by_cases hcn : ps.length - 1 = n
            · -- n = len-1 < nsph ≤ len forces nsph = len, so i = len-1, against i < len-1
              exfalso
              omega
            · rw [if_neg hcn]
              constructor
              · intro h0
                have := (hpack (ps.length - 1) (by omega)).mp h0
                omega
              · intro hcc
                omega
          · rw [if_neg hc1]
            by_cases hc2 : i = n
            · rw [if_pos hc2, hy]
              have h0 : (ps.getD (nsph - 1) default).Typ = 0 :=
                (hpack (nsph - 1) (by omega)).mpr (by omega)
              constructor
              · intro _
                omega
              · intro _
                exact h0
            · rw [if_neg hc2, hpack i (by omega)]
              omega
        have hrec := exchange_pack_length ps2.dropLast (nsph - 1) n hpref' hpack'
          (by omega)
        omega
      · -- non-gas branch: position n replaced by the last particle, last slot dropped
        have heq : exchange_pack ps nsph n
            = exchange_pack ((ps.set n (ps.getD (ps.length - 1) default)).dropLast)
                nsph n := by
          rw [exchange_pack, dif_pos h, if_pos hf, if_neg ht]
        rw [heq]
        rw [hgetn] at hf
        rw [hgetn] at ht
        have hnot : ¬ n < nsph := fun hc => ht ((hpack n h).mpr hc)
        set z := ps.getD (ps.length - 1) default with hz
        set ps1 := ps.set n z with hps1
        have hlen1 : ps1.length = ps.length := by simp [hps1]
        have hne1 : ps1 ≠ [] := by
          intro hcon
          rw [hcon] at hlen1
          simp at hlen1
          omega
        have hget1 : ∀ i, ps1.getD i default
            = if i = n then z else ps.getD i default := by
          intro i
          by_cases hc : i = n
          · rw [if_pos hc, hc, hps1, getD_set_self _ _ _ h]
          · rw [if_neg hc, hps1, getD_set_ne _ _ _ _ (fun hcc => hc hcc.symm)]
        have hlastv : ps1.getD (ps1.length - 1) default = z := by
          rw [hlen1, hget1]
          by_cases hc : ps.length - 1 = n
          · rw [if_pos hc]
          · rw [if_neg hc, hz]
        have hA := countP_dropLast_add exportFlagged ps1 hne1
        have hC := countP_set_add exportFlagged ps n z h
        rw [hlastv] at hA
        rw [← hps1, hf] at hC
        norm_num at hC
        have hcount : ps1.dropLast.countP exportFlagged + 1
            = ps.countP exportFlagged := by omega
        have hdrop : ∀ i, i < ps.length - 1 →
            ps1.dropLast.getD i default = ps1.getD i default := by
          intro i hi
          exact getD_dropLast ps1 i (by omega)
        have hlen1' : ps1.dropLast.length = ps.length - 1 := by
          simp [hlen1]
        have hpref' : ∀ i, i < ps1.dropLast.length → i < n →
            exportFlagged (ps1.dropLast.getD i default) = false := by
          intro i hi hin
          rw [hlen1'] at hi
          rw [hdrop i hi, hget1, if_neg (by omega)]
          exact hpref i (by omega) hin
        have hpack' : ∀ i, i < ps1.dropLast.length →
            ((ps1.dropLast.getD i default).Typ = 0 ↔ i < nsph) := by
          intro i hi
          rw [hlen1'] at hi
          rw [hdrop i hi, hget1]
          by_cases hc : i = n
          · rw [if_pos hc, hz]
            constructor
            · intro h0
              have := (hpack (ps.length - 1) (by omega)).mp h0
              -- last particle gas would force nsph = len, then n < nsph: contradiction
              omega
            · intro hcc
              omega
          · rw [if_neg hc]
            exact hpack i (by omega)
        have hrec := exchange_pack_length ps1.dropLast nsph n hpref' hpack'
          (by rw [hlen1']; omega)
        omega
    · have heq : exchange_pack ps nsph n = exchange_pack ps nsph (n + 1) := by
        rw [exchange_pack, dif_pos h, if_neg hf]
      rw [heq]
      rw [hgetn] at hf
      have hpref' : ∀ i, i < ps.length → i < n + 1 →
          exportFlagged (ps.getD i default) = false := by
        intro i hi hin
        by_cases hc : i = n
        · subst hc
          simpa using hf
        · exact hpref i hi (by omega)
      exact exchange_pack_length ps nsph (n + 1) hpref' hpack hn
  · have heq : exchange_pack ps nsph n = (ps, nsph) := by
      rw [exchange_pack, dif_neg h]
    rw [heq]
    have hzero : ps.countP exportFlagged = 0 := by
      rw [List.countP_eq_zero]
      intro a ha
      obtain ⟨i, hi, hia⟩ := List.mem_iff_getElem.mp ha
      have hgd : ps.getD i default = a := by
        rw [List.getD_eq_getElem _ _ hi, hia]
      have := hpref i hi (by omega)
      rw [hgd] at this
      simp [this]
    simp [hzero]
  termination_by ps.length - n
  decreasing_by
  · simp only [List.length_dropLast, List.length_set]; omega
  · simp only [List.length_dropLast, List.length_set]; omega
  · omega

/-- Modelled from the MPI library semantics the source relies on:
`MPI_Alltoall(toGo, 1, MPI_INT, toGet, 1, MPI_INT, MPI_COMM_WORLD)`
(domain.c, `domain_countToGo`) delivers to each task `a`, in slot `b`,
the value task `b` placed in its slot `a`: the transpose of the
distributed matrix. -/
def mpi_alltoall {T : ℕ} (m : Fin T → Fin T → ℕ) : Fin T → Fin T → ℕ :=
  fun a b => m b a

/-- `toGo[target]` on task `a`: how many of its flagged particles are
bound for task `target` (`domain_countToGo` counts exactly the particles
it flags `WillExport`; `domain_exchange_once` asserts, via `abort()`,
that the packed counts agree with these). -/
def toGo {T : ℕ} (ps : Fin T → List ParticleData)
    (layout : ParticleData → Fin T) (a b : Fin T) : ℕ :=
  (ps a).countP (fun p => exportFlagged p && decide (layout p = b))

/-- `toGet` as produced by the `MPI_Alltoall` of `domain_countToGo`. -/
def toGet {T : ℕ} (ps : Fin T → List ParticleData)
    (layout : ParticleData → Fin T) (a b : Fin T) : ℕ :=
  mpi_alltoall (toGo ps layout) a b

/-- `NumPart` of task `a` after `domain_exchange_once`: the survivors of
the swap-removal loop plus `count_get = Σ toGet` appended by the
receives (`NumPart += count_get`). -/
def exchange_once_NumPart {T : ℕ} (ps : Fin T → List ParticleData)
    (nsph : Fin T → ℕ) (layout : ParticleData → Fin T) (a : Fin T) : ℕ :=
  (exchange_pack (ps a) (nsph a) 0).1.length + ∑ b, toGet ps layout a b

/-- Each flagged particle is counted in exactly one `toGo` slot, so the
row sum of `toGo` is the flagged count. -/
lemma sum_toGo_eq_countP {T : ℕ} (layout : ParticleData → Fin T) :
    ∀ l : List ParticleData,
    (∑ b : Fin T, l.countP (fun p => exportFlagged p && decide (layout p = b)))
      = l.countP exportFlagged := by
  intro l
  induction l with
  | nil => simp
  | cons p rest ih =>
    simp only [List.countP_cons]
    rw [Finset.sum_add_distrib, ih]
    by_cases hf : exportFlagged p
    · have : ∀ b : Fin T,
          (if (exportFlagged p && decide (layout p = b)) = true then 1 else 0)
            = if layout p = b then 1 else 0 := by
        intro b
        by_cases hb : layout p = b <;> simp [hf, hb]
      rw [Finset.sum_congr rfl (fun b _ => this b)]
      simp [hf, Finset.sum_ite_eq]
    · have : ∀ b : Fin T,
          (if (exportFlagged p && decide (layout p = b)) = true then 1 else 0) = 0 := by
        intro b
        simp [hf]
      rw [Finset.sum_congr rfl (fun b _ => this b)]
      simp [hf]

/-- C2: `toGet` is the transpose of `toGo` across the processes, so the
two have equal global sums, and one `domain_exchange_once` changes each
task's `NumPart` by exactly (received − sent); summed over tasks the
total particle count is invariant.  `hpack`: each task's gas particles
occupy the prefix `[0, N_sph)`, as `domain_exchange_once` maintains. -/
theorem exchange_once_conservation (T : ℕ) (ps : Fin T → List ParticleData)
    (nsph : Fin T → ℕ) (layout : ParticleData → Fin T)
    (hpack : ∀ a i, i < (ps a).length →
      (((ps a).getD i default).Typ = 0 ↔ i < nsph a))
    (hsph : ∀ a, nsph a ≤ (ps a).length) :
    (∀ a b, toGet ps layout a b = toGo ps layout b a) ∧
    ((∑ a, ∑ b, toGet ps layout a b) = (∑ a, ∑ b, toGo ps layout a b)) ∧
    (∀ a, exchange_once_NumPart ps nsph layout a + (∑ b, toGo ps layout a b)
        = (ps a).length + (∑ b, toGet ps layout a b)) ∧
    ((∑ a, exchange_once_NumPart ps nsph layout a) = ∑ a, (ps a).length) := by
  have htrans : ∀ a b, toGet ps layout a b = toGo ps layout b a := fun a b => rfl
  have hsum : (∑ a, ∑ b, toGet ps layout a b) = (∑ a, ∑ b, toGo ps layout a b) := by
    rw [Finset.sum_comm]
    rfl
  have hper : ∀ a, exchange_once_NumPart ps nsph layout a + (∑ b, toGo ps layout a b)
      = (ps a).length + (∑ b, toGet ps layout a b) := by
    intro a
    have hlen := exchange_pack_length (ps a) (nsph a) 0
      (fun i _ hi0 => absurd hi0 (by omega)) (hpack a) (hsph a)
    have hrow : (∑ b, toGo ps layout a b) = (ps a).countP exportFlagged :=
      sum_toGo_eq_countP layout (ps a)
    rw [exchange_once_NumPart, hrow]
    omega
  refine ⟨htrans, hsum, hper, ?_⟩
  have hall : (∑ a, (exchange_once_NumPart ps nsph layout a + ∑ b, toGo ps layout a b))
      = ∑ a, ((ps a).length + ∑ b, toGet ps layout a b) :=
    Finset.sum_congr rfl (fun a _ => hper a)
  rw [Finset.sum_add_distrib, Finset.sum_add_distrib, hsum] at hall
  exact Nat.add_right_cancel hall

/-- Witness for C2: two tasks; task 0 holds two gas particles, one
flagged for task 1; task 1 holds one non-gas particle flagged for
task 0. -/
theorem exchange_once_conservation_witness :
    (let gas0 : ParticleData :=
      { Typ := 0, ID := 1, Generation := 0, Mass := 1, PI := 0,
        OnAnotherDomain := false, WillExport := false }
     let gas1 : ParticleData :=
      { Typ := 0, ID := 2, Generation := 0, Mass := 1, PI := 0,
        OnAnotherDomain := true, WillExport := true }
     let dm0 : ParticleData :=
      { Typ := 1, ID := 3, Generation := 0, Mass := 1, PI := 0,
        OnAnotherDomain := true, WillExport := true }
     let ps : Fin 2 → List ParticleData := fun a => if a = 0 then [gas0, gas1] else [dm0]
     let nsph : Fin 2 → ℕ := fun a => if a = 0 then 2 else 0
     let layout : ParticleData → Fin 2 := fun p => if p.ID = 2 then 1 else 0
     (∀ a b, toGet ps layout a b = toGo ps layout b a) ∧
     ((∑ a, ∑ b, toGet ps layout a b) = (∑ a, ∑ b, toGo ps layout a b)) ∧
     (∀ a, exchange_once_NumPart ps nsph layout a + (∑ b, toGo ps layout a b)
         = (ps a).length + (∑ b, toGet ps layout a b)) ∧
     ((∑ a, exchange_once_NumPart ps nsph layout a) = ∑ a, (ps a).length)) := by
  refine exchange_once_conservation 2 _ _ _ ?_ ?_
  · decide
  · decide

/-! ## C4: `force_update_node_recursive` moment consistency

forcetree.c computes each internal node's multipole moments bottom-up:
the recursion visits the 8 `suns` slots in order, recurses into each
occupied slot, and accumulates mass, mass-weighted position/velocity,
`hmax`, `vmax` and `divVmax`; index convention: `0 .. MaxPart-1` are
particles, `MaxPart .. MaxPart+MaxNodes-1` internal nodes, larger
indices pseudo particles (which contribute nothing at build time,
their mass still being zero).  After the loop the weighted sums are
divided by the mass, or, for an empty (massless) node, `s` is set to the
node's geometric centre and `vs` to zero.

The embedding threads a moment map `ℤ → NodeMoment` through the
traversal exactly as the source threads the `Nodes`/`Extnodes` arrays;
the flat next-node linkage (`last`, `Nextnode`, `Father`) and the
softening/multiple-particle bit-flags are produced by the same traversal
but touch no moment field and are not modelled.  The C `while`-free
recursion terminates because every internal daughter has a strictly
larger node index than its parent (nodes are allocated in creation
order, parents before daughters); the `fuel` parameter makes that
measure explicit. -/

/-- The particle fields read by the moment pass (`P[p]` resp `SPHP(p)`).
`Typ` renders the source field `Type`. -/
structure GravParticle where
  Mass : ℚ
  Pos : Fin 3 → ℚ
  Vel : Fin 3 → ℚ
  Hsml : ℚ
  DivVel : ℚ
  Typ : ℕ

/-- The geometric fields of `struct NODE` read by the moment pass, plus
the 8 daughter slots `u.suns` (indices, `-1` = empty). -/
structure GNode where
  center : Fin 3 → ℚ
  len : ℚ
  suns : Fin 8 → ℤ

/-- The moment fields written by the pass (`u.d.mass`, `u.d.s`,
`Extnodes.vs/hmax/vmax/divVmax`).  During accumulation `s`/`vs` hold the
still-undivided weighted sums, as in the source's local variables. -/
structure NodeMoment where
  mass : ℚ
  s : Fin 3 → ℚ
  vs : Fin 3 → ℚ
  hmax : ℚ
  vmax : ℚ
  divVmax : ℚ

/-- The zero accumulator (`mass = 0; s[0..2] = 0; ... divVmax = 0`). -/
def mzero : NodeMoment :=
  { mass := 0, s := fun _ => 0, vs := fun _ => 0, hmax := 0, vmax := 0, divVmax := 0 }

/-- Accumulation of one contribution (`mass += ..; s[k] += ..;
if(.. > hmax) hmax = ..`). -/
def maddMoment (a b : NodeMoment) : NodeMoment :=
  { mass := a.mass + b.mass,
    s := fun k => a.s k + b.s k,
    vs := fun k => a.vs k + b.vs k,
    hmax := max a.hmax b.hmax,
    vmax := max a.vmax b.vmax,
    divVmax := max a.divVmax b.divVmax }

/-- The force-tree arena: index bounds and the node/particle stores. -/
structure ForceTreeCtx where
  MaxPart : ℕ
  MaxNodes : ℕ
  Nodes : ℤ → GNode
  P : ℕ → GravParticle

/-- `no` addresses a single particle (`no < All.MaxPart`). -/
def ForceTreeCtx.isPart (ctx : ForceTreeCtx) (p : ℤ) : Prop :=
  0 ≤ p ∧ p < (ctx.MaxPart : ℤ)

/-- `no` addresses an internal node
(`no >= All.MaxPart && no < All.MaxPart + MaxNodes`). -/
def ForceTreeCtx.isNode (ctx : ForceTreeCtx) (p : ℤ) : Prop :=
  (ctx.MaxPart : ℤ) ≤ p ∧ p < (ctx.MaxPart : ℤ) + ctx.MaxNodes

instance (ctx : ForceTreeCtx) (p : ℤ) : Decidable (ctx.isPart p) :=
  inferInstanceAs (Decidable (_ ∧ _))

instance (ctx : ForceTreeCtx) (p : ℤ) : Decidable (ctx.isNode p) :=
  inferInstanceAs (Decidable (_ ∧ _))

/-- The 8 daughter slots of node `no`, in traversal order. -/
def sunsList (ctx : ForceTreeCtx) (no : ℤ) : List ℤ :=
  (List.finRange 8).map fun j => (ctx.Nodes no).suns j

/-- Contribution of one occupied daughter slot to the parent's
accumulators, with `m` the moment map after the daughter's own update:
an internal node contributes its computed moment mass-weighted, a pseudo
particle contributes nothing ("the mass of the pseudo-particle is still
zero"), a single particle contributes its own fields. -/
def sunContribution (ctx : ForceTreeCtx) (m : ℤ → NodeMoment) (p : ℤ) :
    NodeMoment :=
  if (ctx.MaxPart : ℤ) ≤ p then
    if p < (ctx.MaxPart : ℤ) + ctx.MaxNodes then
      { mass := (m p).mass,
        s := fun k => (m p).mass * (m p).s k,
        vs := fun k => (m p).mass * (m p).vs k,
        hmax := (m p).hmax, vmax := (m p).vmax, divVmax := (m p).divVmax }
    else mzero
  else
    { mass := (ctx.P p.toNat).Mass,
      s := fun k => (ctx.P p.toNat).Mass * (ctx.P p.toNat).Pos k,
      vs := fun k => (ctx.P p.toNat).Mass * (ctx.P p.toNat).Vel k,
      hmax := if (ctx.P p.toNat).Typ = 0 then (ctx.P p.toNat).Hsml else 0,
      vmax := max |(ctx.P p.toNat).Vel 0| (max |(ctx.P p.toNat).Vel 1| |(ctx.P p.toNat).Vel 2|),
      divVmax := if (ctx.P p.toNat).Typ = 0 then (ctx.P p.toNat).DivVel else 0 }

/-- Close-out of an internal node (`if(mass) { s[k] /= mass; ... } else
{ s[k] = center[k]; vs[k] = 0; }`). -/
def closeMoment (ctx : ForceTreeCtx) (no : ℤ) (acc : NodeMoment) : NodeMoment :=
  if acc.mass ≠ 0 then
    { acc with s := (fun k => acc.s k / acc.mass),
               vs := (fun k => acc.vs k / acc.mass) }
  else
    { acc with s := (ctx.Nodes no).center, vs := (fun _ => 0) }

mutual
/-- `force_update_node_recursive(no, sib, father)` (forcetree.c), acting
on the moment map: a particle or pseudo-particle leaves the map alone
(the source only splices the next-node list there); an internal node
recurses through its daughters and stores its closed-out moment. -/
def force_update_node_recursive (ctx : ForceTreeCtx) :
    ℕ → ℤ → (ℤ → NodeMoment) → (ℤ → NodeMoment)
  | 0, _, m => m
  | fuel + 1, no, m =>
    if ctx.isNode no then
      let r := force_update_children ctx fuel (sunsList ctx no) m
      Function.update r.1 no (closeMoment ctx no r.2)
    else m

/-- The `for(j = 0; j < 8; j++)` daughter loop: recurse into each
occupied slot, then fold its contribution into the accumulators. -/
def force_update_children (ctx : ForceTreeCtx) :
    ℕ → List ℤ → (ℤ → NodeMoment) → ((ℤ → NodeMoment) × NodeMoment)
  | _, [], m => (m, mzero)
  | fuel, p :: rest, m =>
    if 0 ≤ p then
      let m' := force_update_node_recursive ctx fuel p m
      let r := force_update_children ctx fuel rest m'
      (r.1, maddMoment (sunContribution ctx m' p) r.2)
    else
      force_update_children ctx fuel rest m
end

mutual
/-- The particles inserted below internal node `no`, in traversal
order. -/
def subtreeParts (ctx : ForceTreeCtx) : ℕ → ℤ → List ℕ
  | 0, _ => []
  | fuel + 1, no => subtreeChildren ctx fuel (sunsList ctx no)

/-- The particles reachable through a list of daughter slots. -/
def subtreeChildren (ctx : ForceTreeCtx) : ℕ → List ℤ → List ℕ
  | _, [] => []
  | fuel, p :: rest =>
    (if 0 ≤ p then
      if (ctx.MaxPart : ℤ) ≤ p then
        if p < (ctx.MaxPart : ℤ) + ctx.MaxNodes then subtreeParts ctx fuel p
        else []
      else [p.toNat]
     else []) ++ subtreeChildren ctx fuel rest
end

/-- Total mass of a particle list (`Σ m_i`). -/
def subMass (ctx : ForceTreeCtx) (l : List ℕ) : ℚ :=
  (l.map (fun p => (ctx.P p).Mass)).sum

/-- Mass-weighted sum of a particle attribute (`Σ m_i f_i`). -/
def subWeighted (ctx : ForceTreeCtx) (f : GravParticle → ℚ) (l : List ℕ) : ℚ :=
  (l.map (fun p => (ctx.P p).Mass * f (ctx.P p))).sum

/-- With non-negative masses, a zero-mass particle set has vanishing
weighted sums. -/
lemma subWeighted_of_subMass_zero (ctx : ForceTreeCtx)
    (hmass : ∀ p, 0 ≤ (ctx.P p).Mass) (f : GravParticle → ℚ) :
    ∀ l : List ℕ, subMass ctx l = 0 → subWeighted ctx f l = 0 := by
  intro l
  induction l with
  | nil => intro _; rfl
  | cons p rest ih =>
    intro h
    have hrest : 0 ≤ (rest.map (fun p => (ctx.P p).Mass)).sum :=
      List.sum_nonneg (by
        intro x hx
        obtain ⟨q, _, rfl⟩ := List.mem_map.mp hx
        exact hmass q)
    have hp := hmass p
    rw [subMass, List.map_cons, List.sum_cons] at h
    have hhead : (ctx.P p).Mass = 0 := by linarith
    have htail : (rest.map (fun p => (ctx.P p).Mass)).sum = 0 := by linarith
    rw [subWeighted, List.map_cons, List.sum_cons, hhead, zero_mul, zero_add]
    exact ih (by rw [subMass]; exact htail)

/-- The inductive content of the moment pass at one internal node: the
stored mass is the subtree's particle mass, the stored `s`/`vs` satisfy
`mass * s = Σ m x` (hence are the weighted averages when the mass is
non-zero), and a massless node is closed out with its geometric centre
and zero velocity. -/
def NodeSpec (ctx : ForceTreeCtx) (fuel : ℕ) (no : ℤ) (m : ℤ → NodeMoment) : Prop :=
  ((force_update_node_recursive ctx fuel no m) no).mass
      = subMass ctx (subtreeParts ctx fuel no) ∧
  (∀ k, ((force_update_node_recursive ctx fuel no m) no).mass
        * ((force_update_node_recursive ctx fuel no m) no).s k
      = subWeighted ctx (fun pa => pa.Pos k) (subtreeParts ctx fuel no)) ∧
  (∀ k, ((force_update_node_recursive ctx fuel no m) no).mass
        * ((force_update_node_recursive ctx fuel no m) no).vs k
      = subWeighted ctx (fun pa => pa.Vel k) (subtreeParts ctx fuel no)) ∧
  (((force_update_node_recursive ctx fuel no m) no).mass = 0 →
    (∀ k, ((force_update_node_recursive ctx fuel no m) no).s k
        = (ctx.Nodes no).center k) ∧
    (∀ k, ((force_update_node_recursive ctx fuel no m) no).vs k = 0))

lemma subMass_append (ctx : ForceTreeCtx) (l₁ l₂ : List ℕ) :
    subMass ctx (l₁ ++ l₂) = subMass ctx l₁ + subMass ctx l₂ := by
  simp [subMass]

lemma subWeighted_append (ctx : ForceTreeCtx) (f : GravParticle → ℚ)
    (l₁ l₂ : List ℕ) :
    subWeighted ctx f (l₁ ++ l₂) = subWeighted ctx f l₁ + subWeighted ctx f l₂ := by
  simp [subWeighted]

lemma subMass_single (ctx : ForceTreeCtx) (p : ℕ) :
    subMass ctx [p] = (ctx.P p).Mass := by
  simp [subMass]

lemma subWeighted_single (ctx : ForceTreeCtx) (f : GravParticle → ℚ) (p : ℕ) :
    subWeighted ctx f [p] = (ctx.P p).Mass * f (ctx.P p) := by
  simp [subWeighted]

/-- The daughter loop accumulates exactly the subtree sums, given the
node-level property at the current fuel. -/
lemma force_update_children_spec (ctx : ForceTreeCtx) (fuel : ℕ)
    (IH : ∀ no m, ctx.isNode no →
      ((ctx.MaxPart : ℤ) + ctx.MaxNodes - no ≤ fuel) → NodeSpec ctx fuel no m) :
    ∀ (l : List ℤ) (m : ℤ → NodeMoment),
    (∀ p ∈ l, ctx.isNode p → (ctx.MaxPart : ℤ) + ctx.MaxNodes - p ≤ fuel) →
    ((force_update_children ctx fuel l m).2.mass
        = subMass ctx (subtreeChildren ctx fuel l) ∧
     (∀ k, (force_update_children ctx fuel l m).2.s k
        = subWeighted ctx (fun pa => pa.Pos k) (subtreeChildren ctx fuel l)) ∧
     (∀ k, (force_update_children ctx fuel l m).2.vs k
        = subWeighted ctx (fun pa => pa.Vel k) (subtreeChildren ctx fuel l))) := by
  intro l
  induction l with
  | nil =>
    intro m _
    rw [force_update_children, subtreeChildren]
    exact ⟨rfl, fun k => rfl, fun k => rfl⟩
  | cons p rest ih =>
    intro m hl
    by_cases hp : (0 : ℤ) ≤ p
    · rw [force_update_children, if_pos hp]
      rw [subtreeChildren, if_pos hp]
      set m' := force_update_node_recursive ctx fuel p m with hm'
      have hrest := ih m' (fun q hq => hl q (by simp [hq]))
      by_cases hn : (ctx.MaxPart : ℤ) ≤ p
      · by_cases hinner : p < (ctx.MaxPart : ℤ) + ctx.MaxNodes
        · -- internal daughter: its computed moment enters mass-weighted
          rw [if_pos hn, if_pos hinner]
          have hnode := IH p m ⟨hn, hinner⟩ (hl p (by simp) ⟨hn, hinner⟩)
          obtain ⟨hm1, hm2, hm3, _⟩ := hnode
          rw [← hm'] at hm1 hm2 hm3
          refine ⟨?_, fun k => ?_, fun k => ?_⟩
          · show (sunContribution ctx m' p).mass + _ = _
            rw [sunContribution, if_pos hn, if_pos hinner, subMass_append,
              hrest.1, hm1]
          · show (sunContribution ctx m' p).s k + _ = _
            rw [sunContribution, if_pos hn, if_pos hinner]
            show (m' p).mass * (m' p).s k + _ = _
            rw [subWeighted_append, hrest.2.1 k, hm2 k]
          · show (sunContribution ctx m' p).vs k + _ = _
            rw [sunContribution, if_pos hn, if_pos hinner]
            show (m' p).mass * (m' p).vs k + _ = _
            rw [subWeighted_append, hrest.2.2 k, hm3 k]
        · -- pseudo particle: zero contribution
          rw [if_pos hn, if_neg hinner]
          refine ⟨?_, fun k => ?_, fun k => ?_⟩
          · show (sunContribution ctx m' p).mass + _ = _
            rw [sunContribution, if_pos hn, if_neg hinner]
            simpa [mzero] using hrest.1
          · show (sunContribution ctx m' p).s k + _ = _
            rw [sunContribution, if_pos hn, if_neg hinner]
            simpa [mzero] using hrest.2.1 k
          · show (sunContribution ctx m' p).vs k + _ = _
            rw [sunContribution, if_pos hn, if_neg hinner]
            simpa [mzero] using hrest.2.2 k
      · -- single particle
        rw [if_neg hn]
        refine ⟨?_, fun k => ?_, fun k => ?_⟩
        · show (sunContribution ctx m' p).mass + _ = _
          rw [sunContribution, if_neg hn, subMass_append, subMass_single,
            hrest.1]
        · show (sunContribution ctx m' p).s k + _ = _
          rw [sunContribution, if_neg hn]
          show (ctx.P p.toNat).Mass * (ctx.P p.toNat).Pos k + _ = _
          rw [subWeighted_append, subWeighted_single, hrest.2.1 k]
        · show (sunContribution ctx m' p).vs k + _ = _
          rw [sunContribution, if_neg hn]
          show (ctx.P p.toNat).Mass * (ctx.P p.toNat).Vel k + _ = _
          rw [subWeighted_append, subWeighted_single, hrest.2.2 k]
    · rw [force_update_children, if_neg hp]
      rw [subtreeChildren, if_neg hp]
      simpa using ih m (fun q hq => hl q (by simp [hq]))

/-- Node-level property, by induction on the fuel.  `hchild`: every
internal daughter has a strictly larger node index than its parent (the
build allocates nodes in creation order). -/
lemma force_update_node_spec (ctx : ForceTreeCtx)
    (hmass : ∀ p, 0 ≤ (ctx.P p).Mass)
    (hchild : ∀ no : ℤ, ctx.isNode no → ∀ j : Fin 8,
      ctx.isNode ((ctx.Nodes no).suns j) → no < (ctx.Nodes no).suns j) :
    ∀ (fuel : ℕ) (no : ℤ) (m : ℤ → NodeMoment), ctx.isNode no →
    ((ctx.MaxPart : ℤ) + ctx.MaxNodes - no ≤ fuel) → NodeSpec ctx fuel no m := by
  intro fuel
  induction fuel with
  | zero =>
    intro no m hno hfuel
    exfalso
    obtain ⟨h1, h2⟩ := hno
    simp only [Nat.cast_zero] at hfuel
    omega
  | succ fuel ih =>
    intro no m hno hfuel
    have hl : ∀ p ∈ sunsList ctx no, ctx.isNode p →
        (ctx.MaxPart : ℤ) + ctx.MaxNodes - p ≤ fuel := by
      intro p hpmem hpn
      obtain ⟨j, _, hj⟩ := List.mem_map.mp hpmem
      have := hchild no hno j (by rw [hj]; exact hpn)
      rw [hj] at this
      omega
    have hacc := force_update_children_spec ctx fuel ih (sunsList ctx no) m hl
    have heq : force_update_node_recursive ctx (fuel + 1) no m
        = Function.update (force_update_children ctx fuel (sunsList ctx no) m).1 no
            (closeMoment ctx no (force_update_children ctx fuel (sunsList ctx no) m).2) := by
      rw [force_update_node_recursive, if_pos hno]
    have hparts : subtreeParts ctx (fuel + 1) no
        = subtreeChildren ctx fuel (sunsList ctx no) := by
      rw [subtreeParts]
    set acc := (force_update_children ctx fuel (sunsList ctx no) m).2 with haccdef
    have hread : (force_update_node_recursive ctx (fuel + 1) no m) no
        = closeMoment ctx no acc := by
      rw [heq, Function.update_same]
    obtain ⟨ha1, ha2, ha3⟩ := hacc
    rw [NodeSpec, hread, hparts]
    by_cases hzero : acc.mass = 0
    · have hclose : closeMoment ctx no acc
          = { acc with s := (ctx.Nodes no).center, vs := fun _ => 0 } := by
        rw [closeMoment, if_neg (by simpa using hzero)]
      rw [hclose]
      have hsub : subMass ctx (subtreeChildren ctx fuel (sunsList ctx no)) = 0 := by
        rw [← ha1, hzero]
      refine ⟨by simpa [hzero] using ha1, fun k => ?_, fun k => ?_, fun _ => ⟨fun k => rfl, fun k => rfl⟩⟩
      · show acc.mass * _ = _
        rw [hzero, zero_mul,
          subWeighted_of_subMass_zero ctx hmass _ _ hsub]
      · show acc.mass * _ = _
        rw [hzero, zero_mul,
          subWeighted_of_subMass_zero ctx hmass _ _ hsub]
    · have hclose : closeMoment ctx no acc
          = { acc with s := (fun k => acc.s k / acc.mass),
                       vs := (fun k => acc.vs k / acc.mass) } := by
        rw [closeMoment, if_pos (by simpa using hzero)]
      rw [hclose]
      refine ⟨ha1, fun k => ?_, fun k => ?_, fun hcon => absurd hcon hzero⟩
      · show acc.mass * (acc.s k / acc.mass) = _
        rw [mul_div_cancel₀ _ hzero]
        exact ha2 k
      · show acc.mass * (acc.vs k / acc.mass) = _
        rw [mul_div_cancel₀ _ hzero]
        exact ha3 k

/-- C4: for a tree over a fixed particle set with no contributing
pseudo-particles, after `force_update_node_recursive` the root's stored
mass equals the sum of the masses of all particles inserted below it,
its centre-of-mass `s` is the mass-weighted average of their positions
and its `vs` the mass-weighted average of their velocities (exactly, in
the rational model of the double arithmetic); a zero-mass root is closed
out with its geometric centre and zero `vs`. -/
theorem force_update_node_moments (ctx : ForceTreeCtx)
    (hmass : ∀ p, 0 ≤ (ctx.P p).Mass)
    (hchild : ∀ no : ℤ, ctx.isNode no → ∀ j : Fin 8,
      ctx.isNode ((ctx.Nodes no).suns j) → no < (ctx.Nodes no).suns j)
    (fuel : ℕ) (root : ℤ) (m0 : ℤ → NodeMoment) (hroot : ctx.isNode root)
    (hfuel : (ctx.MaxPart : ℤ) + ctx.MaxNodes - root ≤ fuel) :
    (((force_update_node_recursive ctx fuel root m0) root).mass
        = subMass ctx (subtreeParts ctx fuel root)) ∧
    (((force_update_node_recursive ctx fuel root m0) root).mass ≠ 0 →
      (∀ k, ((force_update_node_recursive ctx fuel root m0) root).s k
          = subWeighted ctx (fun pa => pa.Pos k) (subtreeParts ctx fuel root)
            / ((force_update_node_recursive ctx fuel root m0) root).mass) ∧
      (∀ k, ((force_update_node_recursive ctx fuel root m0) root).vs k
          = subWeighted ctx (fun pa => pa.Vel k) (subtreeParts ctx fuel root)
            / ((force_update_node_recursive ctx fuel root m0) root).mass)) ∧
    (((force_update_node_recursive ctx fuel root m0) root).mass = 0 →
      (∀ k, ((force_update_node_recursive ctx fuel root m0) root).s k
          = (ctx.Nodes root).center k) ∧
      (∀ k, ((force_update_node_recursive ctx fuel root m0) root).vs k = 0)) := by
  obtain ⟨h1, h2, h3, h4⟩ := force_update_node_spec ctx hmass hchild fuel root m0 hroot hfuel
  refine ⟨h1, fun hnz => ⟨fun k => ?_, fun k => ?_⟩, h4⟩
  · rw [← h2 k, mul_comm, mul_div_assoc, div_self hnz, mul_one]
  · rw [← h3 k, mul_comm, mul_div_assoc, div_self hnz, mul_one]

/-- Witness for C4: two particles (masses 1 and 3) below the single
internal node 2 of an arena with `MaxPart = 2`, `MaxNodes = 1`. -/
theorem force_update_node_moments_witness :
    (let ctx : ForceTreeCtx :=
      { MaxPart := 2, MaxNodes := 1,
        Nodes := fun _ =>
          { center := fun _ => 0, len := 1,
            suns := fun j => if j = 0 then 0 else if j = 1 then 1 else -1 },
        P := fun p =>
          if p = 0 then
            { Mass := 1, Pos := fun _ => 1, Vel := fun _ => 4,
              Hsml := 0, DivVel := 0, Typ := 1 }
          else
            { Mass := 3, Pos := fun _ => 5, Vel := fun _ => 0,
              Hsml := 0, DivVel := 0, Typ := 1 } }
     (((force_update_node_recursive ctx 1 2 (fun _ => mzero)) 2).mass
        = subMass ctx (subtreeParts ctx 1 2)) ∧
     (((force_update_node_recursive ctx 1 2 (fun _ => mzero)) 2).mass ≠ 0 →
       (∀ k, ((force_update_node_recursive ctx 1 2 (fun _ => mzero)) 2).s k
           = subWeighted ctx (fun pa => pa.Pos k) (subtreeParts ctx 1 2)
             / ((force_update_node_recursive ctx 1 2 (fun _ => mzero)) 2).mass) ∧
       (∀ k, ((force_update_node_recursive ctx 1 2 (fun _ => mzero)) 2).vs k
           = subWeighted ctx (fun pa => pa.Vel k) (subtreeParts ctx 1 2)
             / ((force_update_node_recursive ctx 1 2 (fun _ => mzero)) 2).mass)) ∧
     (((force_update_node_recursive ctx 1 2 (fun _ => mzero)) 2).mass = 0 →
       (∀ k, ((force_update_node_recursive ctx 1 2 (fun _ => mzero)) 2).s k
           = (ctx.Nodes 2).center k) ∧
       (∀ k, ((force_update_node_recursive ctx 1 2 (fun _ => mzero)) 2).vs k = 0))) := by
  refine force_update_node_moments _ ?_ ?_ 1 2 (fun _ => mzero) ⟨by norm_num, by norm_num⟩
    (by norm_num)
  · intro p
    by_cases h : p = 0 <;> simp [h]
  · intro no hno j hj
    exfalso
    fin_cases j <;> revert hj <;> simp [ForceTreeCtx.isNode]

/-! ## C5: `domain_check_for_local_refine`

The local top-tree refinement (domain.c).  A node whose key range `Size`
is below 8 is never refined; otherwise it is refined exactly when it is
over `countlimit`/`costlimit`, or has a parent of which it holds more
than 80% of the `Count` or `Cost`; wanting to refine with fewer than 8
free top-node slots returns the retryable status 1 without splitting.
On a split the node's `Daughter` is set to the old `NTopnodes`, 8
daughter records are initialised, the node's particles are distributed
over them by Peano key, and each daughter is checked recursively, any
non-zero status propagating as 1.  (`DENSITY_INDEPENDENT_SPH_DEBUG` is
not set in any shipped configuration; the `#ifndef` branch is embedded.)
The recursion depth is bounded by the key-range `Size` shrinking by 8
at each level; the `fuel` parameter makes that explicit. -/

/-- `struct local_topnode_data` fields used by the refinement (the
`Leaf` field is only written by `domain_walktoptree`). -/
structure TopnodeRec where
  Size : ℕ
  StartKey : ℕ
  Count : ℕ
  Cost : ℚ
  Daughter : ℤ
  Parent : ℤ
  PIndex : ℕ

/-- The arena `topNodes[0..MaxTopNodes)` with its fill level. -/
structure RefineState where
  topNodes : ℕ → TopnodeRec
  NTopnodes : ℕ
  MaxTopNodes : ℕ

/-- Write one arena slot. -/
def updateNode (st : RefineState) (n : ℕ) (rec : TopnodeRec) : RefineState :=
  { st with topNodes := Function.update st.topNodes n rec }

/-- The decision of `domain_check_for_local_refine` (with `Size >= 8`):
over the count/cost limit, or holding more than 80% of an existing
parent's count or cost. -/
def refineWanted (st : RefineState) (i : ℕ) (countlimit costlimit : ℚ) : Prop :=
  ¬ ((((st.topNodes i).Count : ℚ) ≤ countlimit ∧ (st.topNodes i).Cost ≤ costlimit) ∧
     ((st.topNodes i).Parent < 0 ∨
      (((st.topNodes i).Count : ℚ)
          ≤ (4 / 5) * ((st.topNodes ((st.topNodes i).Parent.toNat)).Count : ℚ) ∧
       (st.topNodes i).Cost
          ≤ (4 / 5) * (st.topNodes ((st.topNodes i).Parent.toNat)).Cost)))

instance (st : RefineState) (i : ℕ) (cl col : ℚ) :
    Decidable (refineWanted st i cl col) :=
  inferInstanceAs (Decidable (¬ _))

/-- The `while(topNodes[sub + j + 1].StartKey <= mp[p].key)` walk that
advances the daughter index `j` for particle `p`, recording `PIndex`;
`fj` dominates the at most `7 - j` steps. -/
def refine_subj (sub p key : ℕ) : RefineState → ℕ → ℕ → RefineState × ℕ
  | st, j, 0 => (st, j)
  | st, j, fj + 1 =>
    if (st.topNodes (sub + j + 1)).StartKey ≤ key then
      let st' := updateNode st (sub + j + 1)
        { st.topNodes (sub + j + 1) with PIndex := p }
      if j + 1 ≥ 7 then (st', j + 1)
      else refine_subj sub p key st' (j + 1) fj
    else (st, j)

/-- `for(p = PIndex; p < PIndex + Count; p++)`: distribute the node's
particles over the daughters, adding each particle's cost factor and a
unit of count to the daughter it falls into. -/
def refine_distribute (mp : ℕ → ℕ) (costf : ℕ → ℚ) (sub : ℕ) :
    ℕ → RefineState → ℕ → ℕ → RefineState
  | 0, st, _, _ => st
  | fuel + 1, st, p, j =>
    let r := if j < 7 then refine_subj sub p (mp p) st j (7 - j) else (st, j)
    let st2 := updateNode r.1 (sub + r.2)
      { r.1.topNodes (sub + r.2) with
        Cost := (r.1.topNodes (sub + r.2)).Cost + costf p,
        Count := (r.1.topNodes (sub + r.2)).Count + 1 }
    refine_distribute mp costf sub fuel st2 (p + 1) r.2

/-- Initialise the 8 fresh daughter records of node `i` at slots
`sub0 .. sub0+7`. -/
def initDaughters (st : RefineState) (i sub0 : ℕ) : RefineState :=
  (List.range 8).foldl
    (fun s j => updateNode s (sub0 + j)
      { Daughter := -1, Parent := (i : ℤ),
        Size := (s.topNodes i).Size / 8,
        StartKey := (s.topNodes i).StartKey + j * ((s.topNodes i).Size / 8),
        PIndex := (s.topNodes i).PIndex,
        Count := 0, Cost := 0 }) st

mutual
/-- `domain_check_for_local_refine(i, countlimit, costlimit, mp)`
(domain.c): status 0 = done, 1 = out of top-node storage (retryable).
At zero fuel the recursion cannot continue and reports storage pressure;
the claim theorems only use positive fuel at the node they speak about. -/
def domain_check_for_local_refine (mp : ℕ → ℕ) (costf : ℕ → ℚ)
    (countlimit costlimit : ℚ) : ℕ → RefineState → ℕ → ℕ × RefineState
  | 0, st, _ => (1, st)
  | fuel + 1, st, i =>
    if (st.topNodes i).Size < 8 then (0, st)
    else if ¬ refineWanted st i countlimit costlimit then (0, st)
    else if st.NTopnodes + 8 > st.MaxTopNodes then (1, st)
    else
      let sub0 := st.NTopnodes
      let st1 := { updateNode st i { st.topNodes i with Daughter := (sub0 : ℤ) } with
                    NTopnodes := st.NTopnodes + 8 }
      let st2 := initDaughters st1 i sub0
      let st3 := refine_distribute mp costf sub0 ((st.topNodes i).Count) st2
        ((st.topNodes i).PIndex) 0
      refine_daughters mp costf countlimit costlimit fuel st3
        ((List.range 8).map (fun j => sub0 + j))

/-- The final `for(j = 0; j < 8; j++)` loop: recursively refine each
daughter; a non-zero status aborts the loop and propagates as 1. -/
def refine_daughters (mp : ℕ → ℕ) (costf : ℕ → ℚ) (countlimit costlimit : ℚ)
    (fuel : ℕ) : RefineState → List ℕ → ℕ × RefineState
  | st, [] => (0, st)
  | st, sub :: rest =>
    let r := domain_check_for_local_refine mp costf countlimit costlimit fuel st sub
    if r.1 ≠ 0 then (1, r.2)
    else refine_daughters mp costf countlimit costlimit fuel r.2 rest
end

/-- Equality of all fields except `Daughter` (the only field of an
existing node the recursive refinement may change). -/
def sameExceptDaughter (a b : TopnodeRec) : Prop :=
  a.Size = b.Size ∧ a.StartKey = b.StartKey ∧ a.Count = b.Count ∧
  a.Cost = b.Cost ∧ a.Parent = b.Parent ∧ a.PIndex = b.PIndex

lemma sameExceptDaughter_refl (a : TopnodeRec) : sameExceptDaughter a a :=
  ⟨rfl, rfl, rfl, rfl, rfl, rfl⟩

lemma sameExceptDaughter_of_eq {a b : TopnodeRec} (h : a = b) :
    sameExceptDaughter a b := h ▸ sameExceptDaughter_refl a

lemma sameExceptDaughter_trans {a b c : TopnodeRec}
    (h1 : sameExceptDaughter a b) (h2 : sameExceptDaughter b c) :
    sameExceptDaughter a c :=
  ⟨h1.1.trans h2.1, h1.2.1.trans h2.2.1, h1.2.2.1.trans h2.2.2.1,
   h1.2.2.2.1.trans h2.2.2.2.1, h1.2.2.2.2.1.trans h2.2.2.2.2.1,
   h1.2.2.2.2.2.trans h2.2.2.2.2.2⟩

lemma updateNode_read_self (st : RefineState) (n : ℕ) (rec : TopnodeRec) :
    (updateNode st n rec).topNodes n = rec := by
  show Function.update st.topNodes n rec n = rec
  exact Function.update_same _ _ _

lemma updateNode_read_ne (st : RefineState) (n : ℕ) (rec : TopnodeRec)
    (m : ℕ) (h : m ≠ n) : (updateNode st n rec).topNodes m = st.topNodes m := by
  show Function.update st.topNodes n rec m = st.topNodes m
  exact Function.update_noteq h _ _

lemma updateNode_NTopnodes (st : RefineState) (n : ℕ) (rec : TopnodeRec) :
    (updateNode st n rec).NTopnodes = st.NTopnodes := rfl

lemma updateNode_MaxTopNodes (st : RefineState) (n : ℕ) (rec : TopnodeRec) :
    (updateNode st n rec).MaxTopNodes = st.MaxTopNodes := rfl

/-- The `j`-advance only writes `PIndex` of slots `sub+1 .. sub+7` and
never moves `j` past 7. -/
lemma refine_subj_frame (sub p key : ℕ) :
    ∀ (fj : ℕ) (st : RefineState) (j : ℕ), j < 7 →
    ((∀ n, n < sub + 1 ∨ sub + 7 < n →
        (refine_subj sub p key st j fj).1.topNodes n = st.topNodes n) ∧
     (∀ n, (refine_subj sub p key st j fj).1.topNodes n
        = st.topNodes n ∨
        (refine_subj sub p key st j fj).1.topNodes n
        = { st.topNodes n with PIndex := p }) ∧
     (refine_subj sub p key st j fj).1.NTopnodes = st.NTopnodes ∧
     (refine_subj sub p key st j fj).1.MaxTopNodes = st.MaxTopNodes ∧
     (refine_subj sub p key st j fj).2 ≤ 7) := by
  intro fj
  induction fj with
  | zero =>
    intro st j hj
    refine ⟨fun n _ => rfl, fun n => Or.inl rfl, rfl, rfl, ?_⟩
    show j ≤ 7
    omega
  | succ fj ih =>
    intro st j hj
    rw [refine_subj]
    by_cases hk : (st.topNodes (sub + j + 1)).StartKey ≤ key
    · rw [if_pos hk]
      set st' := updateNode st (sub + j + 1)
        { st.topNodes (sub + j + 1) with PIndex := p } with hst'
      have hframe' : ∀ n, n < sub + 1 ∨ sub + 7 < n →
          st'.topNodes n = st.topNodes n := by
        intro n hn
        rw [hst']
        exact updateNode_read_ne _ _ _ _ (by omega)
      have hany' : ∀ n, st'.topNodes n = st.topNodes n ∨
          st'.topNodes n = { st.topNodes n with PIndex := p } := by
        intro n
        by_cases hc : n = sub + j + 1
        · subst hc
          right
          rw [hst']
          exact updateNode_read_self _ _ _
        · left
          rw [hst']
          exact updateNode_read_ne _ _ _ _ hc
      by_cases h7 : j + 1 ≥ 7
      · rw [if_pos h7]
        exact ⟨hframe', hany', rfl, rfl, by omega⟩
      · rw [if_neg h7]
        have := ih st' (j + 1) (by omega)
        refine ⟨fun n hn => (this.1 n hn).trans (hframe' n hn), ?_, ?_, ?_, this.2.2.2.2⟩
        · intro n
          rcases this.2.1 n with h | h
          · rcases hany' n with h' | h'
            · exact Or.inl (h.trans h')
            · exact Or.inr (h.trans h')
          · rcases hany' n with h' | h'
            · exact Or.inr (by rw [h, h'])
            · exact Or.inr (by rw [h, h'])
        · rw [this.2.2.1, hst']; rfl
        · rw [this.2.2.2.1, hst']; rfl
    · rw [if_neg hk]
      exact ⟨fun n _ => rfl, fun n => Or.inl rfl, rfl, rfl, by omega⟩

/-- Fields `Size`, `StartKey`, `Daughter`, `Parent` of every slot
survive the particle distribution, which writes only `Count`, `Cost`
and `PIndex` of the daughter slots `sub .. sub+7`. -/
lemma refine_distribute_frame (mp : ℕ → ℕ) (costf : ℕ → ℚ) (sub : ℕ) :
    ∀ (fuel : ℕ) (st : RefineState) (p j : ℕ), j ≤ 7 →
    ((∀ n, n < sub ∨ sub + 7 < n →
        (refine_distribute mp costf sub fuel st p j).topNodes n = st.topNodes n) ∧
     (∀ n, ((refine_distribute mp costf sub fuel st p j).topNodes n).Size
          = (st.topNodes n).Size ∧
        ((refine_distribute mp costf sub fuel st p j).topNodes n).StartKey
          = (st.topNodes n).StartKey ∧
        ((refine_distribute mp costf sub fuel st p j).topNodes n).Daughter
          = (st.topNodes n).Daughter ∧
        ((refine_distribute mp costf sub fuel st p j).topNodes n).Parent
          = (st.topNodes n).Parent) ∧
     (refine_distribute mp costf sub fuel st p j).NTopnodes = st.NTopnodes ∧
     (refine_distribute mp costf sub fuel st p j).MaxTopNodes = st.MaxTopNodes) := by
  intro fuel
  induction fuel with
  | zero =>
    intro st p j hj
    exact ⟨fun n _ => rfl, fun n => ⟨rfl, rfl, rfl, rfl⟩, rfl, rfl⟩
  | succ fuel ih =>
    intro st p j hj
    rw [refine_distribute]
    by_cases hjlt : j < 7
    · rw [if_pos hjlt]
      have hsubj := refine_subj_frame sub p (mp p) (7 - j) st j hjlt
      set r := refine_subj sub p (mp p) st j (7 - j) with hr
      set st2 := updateNode r.1 (sub + r.2)
        { r.1.topNodes (sub + r.2) with
          Cost := (r.1.topNodes (sub + r.2)).Cost + costf p,
          Count := (r.1.topNodes (sub + r.2)).Count + 1 } with hst2
      have hst2frame : ∀ n, n < sub ∨ sub + 7 < n →
          st2.topNodes n = r.1.topNodes n := by
        intro n hn
        rw [hst2]
        exact updateNode_read_ne _ _ _ _ (by omega)
      have hst2psd : ∀ n, (st2.topNodes n).Size = (r.1.topNodes n).Size ∧
          (st2.topNodes n).StartKey = (r.1.topNodes n).StartKey ∧
          (st2.topNodes n).Daughter = (r.1.topNodes n).Daughter ∧
          (st2.topNodes n).Parent = (r.1.topNodes n).Parent := by
        intro n
        by_cases hc : n = sub + r.2
        · subst hc
          have hv : st2.topNodes (sub + r.2)
              = { r.1.topNodes (sub + r.2) with
                  Cost := (r.1.topNodes (sub + r.2)).Cost + costf p,
                  Count := (r.1.topNodes (sub + r.2)).Count + 1 } := by
            rw [hst2]
            exact updateNode_read_self _ _ _
          rw [hv]
          exact ⟨rfl, rfl, rfl, rfl⟩
        · rw [hst2, updateNode_read_ne _ _ _ _ hc]
          exact ⟨rfl, rfl, rfl, rfl⟩
      have hrpsd : ∀ n, (r.1.topNodes n).Size = (st.topNodes n).Size ∧
          (r.1.topNodes n).StartKey = (st.topNodes n).StartKey ∧
          (r.1.topNodes n).Daughter = (st.topNodes n).Daughter ∧
          (r.1.topNodes n).Parent = (st.topNodes n).Parent := by
        intro n
        rcases hsubj.2.1 n with h | h <;> rw [h] <;> exact ⟨rfl, rfl, rfl, rfl⟩
      have hrec := ih st2 (p + 1) r.2 hsubj.2.2.2.2
      refine ⟨?_, ?_, ?_, ?_⟩
      · intro n hn
        rw [hrec.1 n hn, hst2frame n hn, hsubj.1 n (by omega)]
      · intro n
        obtain ⟨a1, a2, a3, a4⟩ := hrec.2.1 n
        obtain ⟨b1, b2, b3, b4⟩ := hst2psd n
        obtain ⟨c1, c2, c3, c4⟩ := hrpsd n
        exact ⟨a1.trans (b1.trans c1), a2.trans (b2.trans c2),
          a3.trans (b3.trans c3), a4.trans (b4.trans c4)⟩
      · rw [hrec.2.2.1, hst2]
        show r.1.NTopnodes = st.NTopnodes
        exact hsubj.2.2.1
      · rw [hrec.2.2.2, hst2]
        show r.1.MaxTopNodes = st.MaxTopNodes
        exact hsubj.2.2.2.1
    · rw [if_neg hjlt]
      set st2 := updateNode st (sub + j)
        { st.topNodes (sub + j) with
          Cost := (st.topNodes (sub + j)).Cost + costf p,
          Count := (st.topNodes (sub + j)).Count + 1 } with hst2
      have hst2frame : ∀ n, n < sub ∨ sub + 7 < n →
          st2.topNodes n = st.topNodes n := by
        intro n hn
        rw [hst2]
        exact updateNode_read_ne _ _ _ _ (by omega)
      have hst2psd : ∀ n, (st2.topNodes n).Size = (st.topNodes n).Size ∧
          (st2.topNodes n).StartKey = (st.topNodes n).StartKey ∧
          (st2.topNodes n).Daughter = (st.topNodes n).Daughter ∧
          (st2.topNodes n).Parent = (st.topNodes n).Parent := by
        intro n
        by_cases hc : n = sub + j
        · subst hc
          rw [hst2, updateNode_read_self]
          exact ⟨rfl, rfl, rfl, rfl⟩
        · rw [hst2, updateNode_read_ne _ _ _ _ hc]
          exact ⟨rfl, rfl, rfl, rfl⟩
      have hrec := ih st2 (p + 1) j hj
      refine ⟨?_, ?_, ?_, ?_⟩
      · intro n hn
        rw [hrec.1 n hn, hst2frame n hn]
      · intro n
        obtain ⟨a1, a2, a3, a4⟩ := hrec.2.1 n
        obtain ⟨b1, b2, b3, b4⟩ := hst2psd n
        exact ⟨a1.trans b1, a2.trans b2, a3.trans b3, a4.trans b4⟩
      · rw [hrec.2.2.1, hst2]; rfl
      · rw [hrec.2.2.2, hst2]; rfl

/-- The daughter-initialisation fold only writes slots `sub0 + j`,
`j ∈ l`. -/
lemma initDaughters_fold_preserves (i sub0 : ℕ) :
    ∀ (l : List ℕ) (st : RefineState) (n : ℕ), (∀ j ∈ l, n ≠ sub0 + j) →
    ((l.foldl
      (fun s j => updateNode s (sub0 + j)
        { Daughter := -1, Parent := (i : ℤ),
          Size := (s.topNodes i).Size / 8,
          StartKey := (s.topNodes i).StartKey + j * ((s.topNodes i).Size / 8),
          PIndex := (s.topNodes i).PIndex,
          Count := 0, Cost := 0 }) st).topNodes n = st.topNodes n) := by
  intro l
  induction l with
  | nil => intro st n _; rfl
  | cons j0 rest ih =>
    intro st n hn
    rw [List.foldl_cons]
    rw [ih _ n (fun j hj => hn j (by simp [hj]))]
    exact updateNode_read_ne _ _ _ _ (hn j0 (by simp))

/-- `NTopnodes`/`MaxTopNodes` are untouched by the initialisation fold. -/
lemma initDaughters_fold_counts (i sub0 : ℕ) :
    ∀ (l : List ℕ) (st : RefineState),
    ((l.foldl
      (fun s j => updateNode s (sub0 + j)
        { Daughter := -1, Parent := (i : ℤ),
          Size := (s.topNodes i).Size / 8,
          StartKey := (s.topNodes i).StartKey + j * ((s.topNodes i).Size / 8),
          PIndex := (s.topNodes i).PIndex,
          Count := 0, Cost := 0 }) st).NTopnodes = st.NTopnodes ∧
     (l.foldl
      (fun s j => updateNode s (sub0 + j)
        { Daughter := -1, Parent := (i : ℤ),
          Size := (s.topNodes i).Size / 8,
          StartKey := (s.topNodes i).StartKey + j * ((s.topNodes i).Size / 8),
          PIndex := (s.topNodes i).PIndex,
          Count := 0, Cost := 0 }) st).MaxTopNodes = st.MaxTopNodes) := by
  intro l
  induction l with
  | nil => intro st; exact ⟨rfl, rfl⟩
  | cons j0 rest ih =>
    intro st
    rw [List.foldl_cons]
    exact ih _

/-- The record written for daughter `k` (for distinct fold indices and
`i` outside the written range, so that the reads of node `i` are
stable). -/
lemma initDaughters_fold_value (i sub0 : ℕ) (hi : i < sub0) :
    ∀ (l : List ℕ) (st : RefineState) (k : ℕ), k ∈ l → l.Nodup →
    ((l.foldl
      (fun s j => updateNode s (sub0 + j)
        { Daughter := -1, Parent := (i : ℤ),
          Size := (s.topNodes i).Size / 8,
          StartKey := (s.topNodes i).StartKey + j * ((s.topNodes i).Size / 8),
          PIndex := (s.topNodes i).PIndex,
          Count := 0, Cost := 0 }) st).topNodes (sub0 + k))
      = { Daughter := -1, Parent := (i : ℤ),
          Size := (st.topNodes i).Size / 8,
          StartKey := (st.topNodes i).StartKey + k * ((st.topNodes i).Size / 8),
          PIndex := (st.topNodes i).PIndex,
          Count := 0, Cost := 0 } := by
  intro l
  induction l with
  | nil => intro st k hk; exact absurd hk (by simp)
  | cons j0 rest ih =>
    intro st k hk hnd
    rw [List.foldl_cons]
    have hstable : ∀ st' : RefineState,
        (updateNode st' (sub0 + j0)
          { Daughter := -1, Parent := (i : ℤ),
            Size := (st'.topNodes i).Size / 8,
            StartKey := (st'.topNodes i).StartKey + j0 * ((st'.topNodes i).Size / 8),
            PIndex := (st'.topNodes i).PIndex,
            Count := 0, Cost := 0 }).topNodes i = st'.topNodes i :=
      fun st' => updateNode_read_ne _ _ _ _ (by omega)
    rcases List.mem_cons.mp hk with hk0 | hkrest
    · subst hk0
      have hnotin : k ∉ rest := (List.nodup_cons.mp hnd).1
      rw [initDaughters_fold_preserves i sub0 rest _ (sub0 + k)
        (fun j hj => by
          intro hcon
          have : j = k := by omega
          exact hnotin (this ▸ hj))]
      rw [updateNode_read_self]
    · rw [ih _ k hkrest (List.nodup_cons.mp hnd).2]
      rw [hstable st]

/-- Footprint of one refinement call at node `i`: the ceiling is fixed,
`NTopnodes` only grows, nodes other than `i` that already existed are
untouched, and node `i` itself can change only in its `Daughter` link. -/
def MainFrame (mp : ℕ → ℕ) (costf : ℕ → ℚ) (cl col : ℚ) (fuel : ℕ) : Prop :=
  ∀ (st : RefineState) (i : ℕ), i < st.NTopnodes →
    ((domain_check_for_local_refine mp costf cl col fuel st i).2.MaxTopNodes
        = st.MaxTopNodes ∧
     st.NTopnodes ≤ (domain_check_for_local_refine mp costf cl col fuel st i).2.NTopnodes ∧
     (∀ n, n < st.NTopnodes → n ≠ i →
       (domain_check_for_local_refine mp costf cl col fuel st i).2.topNodes n
          = st.topNodes n) ∧
     sameExceptDaughter
       ((domain_check_for_local_refine mp costf cl col fuel st i).2.topNodes i)
       (st.topNodes i))

/-- Footprint of the daughter loop over a list of existing nodes. -/
def ListFrame (mp : ℕ → ℕ) (costf : ℕ → ℚ) (cl col : ℚ) (fuel : ℕ) : Prop :=
  ∀ (st : RefineState) (subs : List ℕ), (∀ s ∈ subs, s < st.NTopnodes) →
    ((refine_daughters mp costf cl col fuel st subs).2.MaxTopNodes
        = st.MaxTopNodes ∧
     st.NTopnodes ≤ (refine_daughters mp costf cl col fuel st subs).2.NTopnodes ∧
     (∀ n, n < st.NTopnodes → n ∉ subs →
       (refine_daughters mp costf cl col fuel st subs).2.topNodes n
          = st.topNodes n) ∧
     (∀ s ∈ subs, sameExceptDaughter
       ((refine_daughters mp costf cl col fuel st subs).2.topNodes s)
       (st.topNodes s)))

/-- The daughter loop's footprint follows from the single-node one. -/
lemma refine_daughters_frame (mp : ℕ → ℕ) (costf : ℕ → ℚ) (cl col : ℚ)
    (fuel : ℕ) (hmain : MainFrame mp costf cl col fuel) :
    ListFrame mp costf cl col fuel := by
  intro st subs
  induction subs generalizing st with
  | nil =>
    intro _
    rw [refine_daughters]
    exact ⟨rfl, le_rfl, fun n _ _ => rfl, fun s hs => absurd hs (by simp)⟩
  | cons s0 rest ih =>
    intro hsubs
    rw [refine_daughters]
    have hm := hmain st s0 (hsubs s0 (by simp))
    set r := domain_check_for_local_refine mp costf cl col fuel st s0 with hr
    by_cases hstop : r.1 ≠ 0
    · rw [if_pos hstop]
      refine ⟨hm.1, hm.2.1, fun n hn hns => hm.2.2.1 n hn ?_, fun s hs => ?_⟩
      · intro hcon
        exact hns (by simp [hcon])
      · rcases List.mem_cons.mp hs with h0 | hrest
        · exact h0 ▸ hm.2.2.2
        · by_cases hc : s = s0
          · exact hc ▸ hm.2.2.2
          · exact sameExceptDaughter_of_eq
              (hm.2.2.1 s (hsubs s hs) hc)
    · rw [if_neg hstop]
      have hrest := ih r.2 (fun s hs => lt_of_lt_of_le (hsubs s (by simp [hs])) hm.2.1)
      refine ⟨hrest.1.trans hm.1, hm.2.1.trans hrest.2.1, ?_, ?_⟩
      · intro n hn hns
        rw [hrest.2.2.1 n (lt_of_lt_of_le hn hm.2.1) (fun h => hns (by simp [h]))]
        exact hm.2.2.1 n hn (fun h => hns (by simp [h]))
      · intro s hs
        rcases List.mem_cons.mp hs with h0 | hrestmem
        · subst h0
          by_cases hc : s ∈ rest
          · exact sameExceptDaughter_trans (hrest.2.2.2 s hc) hm.2.2.2
          · refine sameExceptDaughter_trans
              (sameExceptDaughter_of_eq (hrest.2.2.1 s
                (lt_of_lt_of_le (hsubs s (by simp)) hm.2.1) hc)) hm.2.2.2
        · by_cases hc : s = s0
          · subst hc
            by_cases hc2 : s ∈ rest
            · exact sameExceptDaughter_trans (hrest.2.2.2 s hc2) hm.2.2.2
            · exact sameExceptDaughter_trans
                (sameExceptDaughter_of_eq (hrest.2.2.1 s
                  (lt_of_lt_of_le (hsubs s (by simp)) hm.2.1) hc2)) hm.2.2.2
          · exact sameExceptDaughter_trans (hrest.2.2.2 s hrestmem)
              (sameExceptDaughter_of_eq (hm.2.2.1 s (hsubs s hs) hc))

/-- The single-node footprint, by induction on the fuel. -/
lemma refine_main_frame (mp : ℕ → ℕ) (costf : ℕ → ℚ) (cl col : ℚ) :
    ∀ fuel : ℕ, MainFrame mp costf cl col fuel := by
  intro fuel
  induction fuel with
  | zero =>
    intro st i _
    rw [domain_check_for_local_refine]
    exact ⟨rfl, le_rfl, fun n _ _ => rfl, sameExceptDaughter_refl _⟩
  | succ fuel ih =>
    intro st i hi
    by_cases h1 : (st.topNodes i).Size < 8
    · rw [domain_check_for_local_refine, if_pos h1]
      exact ⟨rfl, le_rfl, fun n _ _ => rfl, sameExceptDaughter_refl _⟩
    · by_cases h2 : ¬ refineWanted st i cl col
      · rw [domain_check_for_local_refine, if_neg h1, if_pos h2]
        exact ⟨rfl, le_rfl, fun n _ _ => rfl, sameExceptDaughter_refl _⟩
      · by_cases h3 : st.NTopnodes + 8 > st.MaxTopNodes
        · rw [domain_check_for_local_refine, if_neg h1, if_neg h2, if_pos h3]
          exact ⟨rfl, le_rfl, fun n _ _ => rfl, sameExceptDaughter_refl _⟩
        · set sub0 := st.NTopnodes with hsub0
          set st1 := { updateNode st i { st.topNodes i with Daughter := (sub0 : ℤ) } with
                        NTopnodes := st.NTopnodes + 8 } with hst1
          set st2 := initDaughters st1 i sub0 with hst2
          set st3 := refine_distribute mp costf sub0 ((st.topNodes i).Count) st2
            ((st.topNodes i).PIndex) 0 with hst3
          have heq : domain_check_for_local_refine mp costf cl col (fuel + 1) st i
              = refine_daughters mp costf cl col fuel st3
                  ((List.range 8).map (fun j => sub0 + j)) := by
            rw [domain_check_for_local_refine, if_neg h1, if_neg h2, if_neg h3]
          have hinit := initDaughters_fold_counts i sub0 (List.range 8) st1
          have hdist := refine_distribute_frame mp costf sub0
            ((st.topNodes i).Count) st2 ((st.topNodes i).PIndex) 0 (by omega)
          have hst2top : st2.NTopnodes = st.NTopnodes + 8 := by
            rw [hst2, initDaughters]
            exact hinit.1
          have hst2max : st2.MaxTopNodes = st.MaxTopNodes := by
            rw [hst2, initDaughters]
            exact hinit.2
          have hst3top : st3.NTopnodes = st.NTopnodes + 8 := by
            rw [hst3, hdist.2.2.1, hst2top]
          have hst3max : st3.MaxTopNodes = st.MaxTopNodes := by
            rw [hst3, hdist.2.2.2, hst2max]
          have hsubs : ∀ s ∈ (List.range 8).map (fun j => sub0 + j),
              s < st3.NTopnodes := by
            intro s hs
            obtain ⟨j, hj, rfl⟩ := List.mem_map.mp hs
            have : j < 8 := List.mem_range.mp hj
            omega
          have hlist := refine_daughters_frame mp costf cl col fuel ih st3
            ((List.range 8).map (fun j => sub0 + j)) hsubs
          -- preservation of an old node n ≤ max(i) through st1, st2, st3
          have hpres : ∀ n, n < st.NTopnodes → n ≠ i →
              st3.topNodes n = st.topNodes n := by
            intro n hn hni
            have e1 : st1.topNodes n = st.topNodes n := by
              rw [hst1]
              exact updateNode_read_ne _ _ _ _ hni
            have e2 : st2.topNodes n = st1.topNodes n := by
              rw [hst2, initDaughters]
              exact initDaughters_fold_preserves i sub0 (List.range 8) st1 n
                (fun j hj => by omega)
            have e3 : st3.topNodes n = st2.topNodes n := by
              rw [hst3]
              exact hdist.1 n (by omega)
            rw [e3, e2, e1]
          have hpresi : st3.topNodes i
              = { st.topNodes i with Daughter := (sub0 : ℤ) } := by
            have e1 : st1.topNodes i
                = { st.topNodes i with Daughter := (sub0 : ℤ) } := by
              rw [hst1]
              exact updateNode_read_self _ _ _
            have e2 : st2.topNodes i = st1.topNodes i := by
              rw [hst2, initDaughters]
              exact initDaughters_fold_preserves i sub0 (List.range 8) st1 i
                (fun j hj => by omega)
            have e3 : st3.topNodes i = st2.topNodes i := by
              rw [hst3]
              exact hdist.1 i (by omega)
            rw [e3, e2, e1]
          rw [heq]
          refine ⟨hlist.1.trans hst3max, ?_, ?_, ?_⟩
          · calc st.NTopnodes ≤ st3.NTopnodes := by omega
            _ ≤ _ := hlist.2.1
          · intro n hn hni
            rw [hlist.2.2.1 n (by omega) (by
              intro hcon
              obtain ⟨j, hj, hjeq⟩ := List.mem_map.mp hcon
              omega)]
            exact hpres n hn hni
          · have := hlist.2.2.1 i (by omega) (by
              intro hcon
              obtain ⟨j, hj, hjeq⟩ := List.mem_map.mp hcon
              omega)
            rw [this, hpresi]
            exact ⟨rfl, rfl, rfl, rfl, rfl, rfl⟩

/-- The refinement condition in the form the specification states it:
count over the count limit, cost over the cost limit, or an existing
parent more than 80% of whose count or cost this node holds. -/
def specRefineCondition (st : RefineState) (i : ℕ) (cl col : ℚ) : Prop :=
  cl < ((st.topNodes i).Count : ℚ) ∨ col < (st.topNodes i).Cost ∨
  (0 ≤ (st.topNodes i).Parent ∧
   ((4 / 5) * ((st.topNodes ((st.topNodes i).Parent.toNat)).Count : ℚ)
       < ((st.topNodes i).Count : ℚ) ∨
    (4 / 5) * (st.topNodes ((st.topNodes i).Parent.toNat)).Cost
       < (st.topNodes i).Cost))

instance (st : RefineState) (i : ℕ) (cl col : ℚ) :
    Decidable (specRefineCondition st i cl col) :=
  inferInstanceAs (Decidable (_ ∨ _))

/-- The negated guard of the source agrees with the specification's
positive disjunction. -/
lemma refineWanted_iff (st : RefineState) (i : ℕ) (cl col : ℚ) :
    refineWanted st i cl col ↔ specRefineCondition st i cl col := by
  unfold refineWanted specRefineCondition
  constructor
  · intro h
    by_contra hc
    push_neg at hc
    apply h
    refine ⟨⟨hc.1, hc.2.1⟩, ?_⟩
    by_cases hp : (st.topNodes i).Parent < 0
    · exact Or.inl hp
    · exact Or.inr (hc.2.2 (not_lt.mp hp))
  · intro h hcon
    rcases h with h | h | ⟨hp, h⟩
    · exact absurd hcon.1.1 (not_le.mpr h)
    · exact absurd hcon.1.2 (not_le.mpr h)
    · rcases hcon.2 with hneg | ⟨hc1, hc2⟩
      · exact absurd hp (not_le.mpr hneg)
      · rcases h with h | h
        · exact absurd hc1 (not_le.mpr h)
        · exact absurd hc2 (not_le.mpr h)

/-- C5: during the local top-tree build, a node is refined into 8
daughters iff its key-range size is at least 8 and either its count
exceeds the count limit, or its cost exceeds the cost limit, or it has
a parent and holds more than 80% of that parent's count or cost; a
wanted refinement that would exceed `MaxTopNodes` instead returns the
retryable status 1 without touching the state, and a node that does not
want refinement is returned unchanged with status 0.  When the node is
split, its `Daughter` link points at the 8 fresh slots, whose records
carry `Parent = i`, an eightfold-shortened key range, and the
consecutive start keys. -/
theorem local_refine_decision (mp : ℕ → ℕ) (costf : ℕ → ℚ) (cl col : ℚ)
    (fuel : ℕ) (st : RefineState) (i : ℕ) (hi : i < st.NTopnodes) :
    (((st.topNodes i).Size < 8 ∨ ¬ specRefineCondition st i cl col →
      domain_check_for_local_refine mp costf cl col (fuel + 1) st i = (0, st)) ∧
     (8 ≤ (st.topNodes i).Size → specRefineCondition st i cl col →
      st.MaxTopNodes < st.NTopnodes + 8 →
      domain_check_for_local_refine mp costf cl col (fuel + 1) st i = (1, st)) ∧
     (8 ≤ (st.topNodes i).Size → specRefineCondition st i cl col →
      st.NTopnodes + 8 ≤ st.MaxTopNodes →
      (((domain_check_for_local_refine mp costf cl col (fuel + 1) st i).2.topNodes
          i).Daughter = (st.NTopnodes : ℤ) ∧
       st.NTopnodes + 8
         ≤ (domain_check_for_local_refine mp costf cl col (fuel + 1) st i).2.NTopnodes ∧
       ∀ j, j < 8 →
         (((domain_check_for_local_refine mp costf cl col (fuel + 1) st i).2.topNodes
             (st.NTopnodes + j)).Parent = (i : ℤ) ∧
          ((domain_check_for_local_refine mp costf cl col (fuel + 1) st i).2.topNodes
             (st.NTopnodes + j)).Size = (st.topNodes i).Size / 8 ∧
          ((domain_check_for_local_refine mp costf cl col (fuel + 1) st i).2.topNodes
             (st.NTopnodes + j)).StartKey
            = (st.topNodes i).StartKey + j * ((st.topNodes i).Size / 8))))) := by
  refine ⟨?_, ?_, ?_⟩
  · intro h
    by_cases h1 : (st.topNodes i).Size < 8
    · rw [domain_check_for_local_refine, if_pos h1]
    · have hns : ¬ specRefineCondition st i cl col := by
        rcases h with h | h
        · exact absurd h h1
        · exact h
      have h2 : ¬ refineWanted st i cl col := fun hw =>
        hns ((refineWanted_iff st i cl col).mp hw)
      rw [domain_check_for_local_refine, if_neg h1, if_pos h2]
  · intro hsize hspec hcap
    have h1 : ¬ (st.topNodes i).Size < 8 := by omega
    have hw : refineWanted st i cl col := (refineWanted_iff st i cl col).mpr hspec
    rw [domain_check_for_local_refine, if_neg h1, if_neg (not_not_intro hw),
      if_pos hcap]
  · intro hsize hspec hcap
    have h1 : ¬ (st.topNodes i).Size < 8 := by omega
    have hw : refineWanted st i cl col := (refineWanted_iff st i cl col).mpr hspec
    have h3 : ¬ st.NTopnodes + 8 > st.MaxTopNodes := by omega
    set sub0 := st.NTopnodes with hsub0
    set st1 := { updateNode st i { st.topNodes i with Daughter := (sub0 : ℤ) } with
                  NTopnodes := st.NTopnodes + 8 } with hst1
    set st2 := initDaughters st1 i sub0 with hst2
    set st3 := refine_distribute mp costf sub0 ((st.topNodes i).Count) st2
      ((st.topNodes i).PIndex) 0 with hst3
    have heq : domain_check_for_local_refine mp costf cl col (fuel + 1) st i
        = refine_daughters mp costf cl col fuel st3
            ((List.range 8).map (fun j => sub0 + j)) := by
      rw [domain_check_for_local_refine, if_neg h1, if_neg (not_not_intro hw),
        if_neg h3]
    have hinit := initDaughters_fold_counts i sub0 (List.range 8) st1
    have hdist := refine_distribute_frame mp costf sub0
      ((st.topNodes i).Count) st2 ((st.topNodes i).PIndex) 0 (by omega)
    have hst2top : st2.NTopnodes = st.NTopnodes + 8 := by
      rw [hst2, initDaughters]
      exact hinit.1
    have hst3top : st3.NTopnodes = st.NTopnodes + 8 := by
      rw [hst3, hdist.2.2.1, hst2top]
    have hsubs : ∀ s ∈ (List.range 8).map (fun j => sub0 + j),
        s < st3.NTopnodes := by
      intro s hs
      obtain ⟨j, hj, rfl⟩ := List.mem_map.mp hs
      have : j < 8 := List.mem_range.mp hj
      omega
    have hlist := refine_daughters_frame mp costf cl col fuel
      (refine_main_frame mp costf cl col fuel) st3
      ((List.range 8).map (fun j => sub0 + j)) hsubs
    have e1 : st1.topNodes i = { st.topNodes i with Daughter := (sub0 : ℤ) } := by
      rw [hst1]
      exact updateNode_read_self _ _ _
    have e2 : st2.topNodes i = st1.topNodes i := by
      rw [hst2, initDaughters]
      exact initDaughters_fold_preserves i sub0 (List.range 8) st1 i
        (fun j hj => by omega)
    have hfin_i : (refine_daughters mp costf cl col fuel st3
        ((List.range 8).map (fun j => sub0 + j))).2.topNodes i
        = st3.topNodes i := by
      refine hlist.2.2.1 i (by omega) ?_
      intro hcon
      obtain ⟨j, hj, hjeq⟩ := List.mem_map.mp hcon
      omega
    refine ⟨?_, ?_, ?_⟩
    · rw [heq, hfin_i, hst3, (hdist.2.1 i).2.2.1, e2, e1]
    · rw [heq]
      calc st.NTopnodes + 8 = st3.NTopnodes := hst3top.symm
      _ ≤ _ := hlist.2.1
    · intro j hj
      have hmem : sub0 + j ∈ (List.range 8).map (fun k => sub0 + k) :=
        List.mem_map.mpr ⟨j, List.mem_range.mpr hj, rfl⟩
      have hsame := hlist.2.2.2 (sub0 + j) hmem
      have hval : st2.topNodes (sub0 + j)
          = { Daughter := -1, Parent := (i : ℤ),
              Size := (st1.topNodes i).Size / 8,
              StartKey := (st1.topNodes i).StartKey
                + j * ((st1.topNodes i).Size / 8),
              PIndex := (st1.topNodes i).PIndex,
              Count := 0, Cost := 0 } := by
        rw [hst2, initDaughters]
        exact initDaughters_fold_value i sub0 (by omega) (List.range 8) st1 j
          (List.mem_range.mpr hj) (List.nodup_range 8)
      have hSz : (st1.topNodes i).Size = (st.topNodes i).Size := by
        rw [e1]
      have hSK : (st1.topNodes i).StartKey = (st.topNodes i).StartKey := by
        rw [e1]
      have hP : (st3.topNodes (sub0 + j)).Parent = (i : ℤ) := by
        rw [hst3, (hdist.2.1 (sub0 + j)).2.2.2, hval]
      have hS : (st3.topNodes (sub0 + j)).Size = (st.topNodes i).Size / 8 := by
        rw [hst3, (hdist.2.1 (sub0 + j)).1, hval]
        show (st1.topNodes i).Size / 8 = (st.topNodes i).Size / 8
        rw [hSz]
      have hK : (st3.topNodes (sub0 + j)).StartKey
          = (st.topNodes i).StartKey + j * ((st.topNodes i).Size / 8) := by
        rw [hst3, (hdist.2.1 (sub0 + j)).2.1, hval]
        show (st1.topNodes i).StartKey + j * ((st1.topNodes i).Size / 8)
          = (st.topNodes i).StartKey + j * ((st.topNodes i).Size / 8)
        rw [hSz, hSK]
      rw [heq]
      exact ⟨hsame.2.2.2.2.1.trans hP, hsame.1.trans hS, hsame.2.1.trans hK⟩

/-- A one-node arena with room for a split: 10 particles of total cost
10 in a node of key-range 64, limits 1 and 1, capacity 9. -/
def refineWitnessState : RefineState :=
  { topNodes := fun _ =>
      { Size := 64, StartKey := 0, Count := 10, Cost := 10,
        Daughter := -1, Parent := -1, PIndex := 0 },
    NTopnodes := 1, MaxTopNodes := 9 }

/-- A concrete refinement: the single node is over both limits and is
split into 8 daughters of key-range 8 with consecutive start keys. -/
theorem local_refine_decision_witness :
    0 < refineWitnessState.NTopnodes ∧
    8 ≤ (refineWitnessState.topNodes 0).Size ∧
    specRefineCondition refineWitnessState 0 1 1 ∧
    refineWitnessState.NTopnodes + 8 ≤ refineWitnessState.MaxTopNodes ∧
    (((domain_check_for_local_refine (fun _ => 0) (fun _ => 1) 1 1 (0 + 1)
        refineWitnessState 0).2.topNodes 0).Daughter
        = (refineWitnessState.NTopnodes : ℤ) ∧
     refineWitnessState.NTopnodes + 8
        ≤ (domain_check_for_local_refine (fun _ => 0) (fun _ => 1) 1 1 (0 + 1)
            refineWitnessState 0).2.NTopnodes ∧
     ∀ j, j < 8 →
       (((domain_check_for_local_refine (fun _ => 0) (fun _ => 1) 1 1 (0 + 1)
           refineWitnessState 0).2.topNodes
           (refineWitnessState.NTopnodes + j)).Parent = ((0 : ℕ) : ℤ) ∧
        ((domain_check_for_local_refine (fun _ => 0) (fun _ => 1) 1 1 (0 + 1)
           refineWitnessState 0).2.topNodes
           (refineWitnessState.NTopnodes + j)).Size
          = (refineWitnessState.topNodes 0).Size / 8 ∧
        ((domain_check_for_local_refine (fun _ => 0) (fun _ => 1) 1 1 (0 + 1)
           refineWitnessState 0).2.topNodes
           (refineWitnessState.NTopnodes + j)).StartKey
          = (refineWitnessState.topNodes 0).StartKey
            + j * ((refineWitnessState.topNodes 0).Size / 8))) :=
  ⟨by norm_num [refineWitnessState],
   by norm_num [refineWitnessState],
   by unfold specRefineCondition; exact Or.inl (by norm_num [refineWitnessState]),
   by norm_num [refineWitnessState],
   (local_refine_decision (fun _ => 0) (fun _ => 1) 1 1 0 refineWitnessState 0
       (by norm_num [refineWitnessState])).2.2
     (by norm_num [refineWitnessState])
     (by unfold specRefineCondition
         exact Or.inl (by norm_num [refineWitnessState]))
     (by norm_num [refineWitnessState])⟩

/-! ## C3: `domain_bh_garbage_collection` / `domain_garbage_collection`

The black-hole auxiliary array `BhP` (struct `bh_particle_data`): only
the fields the collection reads or writes are modelled.  The model is
the single-task instance: `MPI_Allreduce(...MPI_SUM...)` of `N_bh` is
`N_bh` itself. -/

/-- The fields of `struct bh_particle_data` used by the collection. -/
structure bh_particle_data where
  ID : ℕ
  ReverseLink : ℤ
  deriving Repr, DecidableEq, Inhabited

/-- `getD` after `set` at the written slot (generic element type). -/
lemma getD_set_self_g {α : Type} [Inhabited α] (l : List α) (i : ℕ) (x : α)
    (h : i < l.length) : (l.set i x).getD i default = x := by
  rw [List.getD_eq_getElem _ _ (by simpa using h)]
  exact List.getElem_set_self (by simpa using h)

/-- `getD` after `set` at a different slot (generic element type). -/
lemma getD_set_ne_g {α : Type} [Inhabited α] (l : List α) (i j : ℕ) (x : α)
    (hne : i ≠ j) : (l.set i x).getD j default = l.getD j default := by
  by_cases hj : j < l.length
  · rw [List.getD_eq_getElem _ _ (by simpa using hj),
      List.getD_eq_getElem _ _ hj]
    exact List.getElem_set_ne hne _
  · rw [List.getD_eq_default _ _ (by simpa using hj),
      List.getD_eq_default _ _ (by omega)]

/-- `bh_cmp_reverse_link(b1, b2) <= 0`: entries with `ReverseLink == -1`
sort after everything, the rest by `ReverseLink`.  The C `qsort` is not
stable; among the used entries the keys are distinct (each particle
index is written to at most one slot), and no theorem here depends on
the order of the `-1` ties. -/
def bh_cmp_reverse_link_le (b1 b2 : bh_particle_data) : Prop :=
  b2.ReverseLink = -1 ∨ (b1.ReverseLink ≠ -1 ∧ b1.ReverseLink ≤ b2.ReverseLink)

instance (b1 b2 : bh_particle_data) : Decidable (bh_cmp_reverse_link_le b1 b2) :=
  inferInstanceAs (Decidable (_ ∨ _))

/-- The marking loop `for(i = 0; i < NumPart; i++)`: for each black hole
write its index into `BhP[P[i].PI].ReverseLink`, aborting the run if
`PI` is out of range or the back-referenced ID disagrees. -/
def bh_mark : ℕ → List ParticleData → List bh_particle_data → ℕ →
    Except Unit (List bh_particle_data)
  | _, [], bhp, _ => .ok bhp
  | i, p :: rest, bhp, nbh =>
    if p.Typ = 5 then
      if nbh ≤ p.PI then .error ()
      else if (bhp.getD p.PI default).ID ≠ p.ID then .error ()
      else bh_mark (i + 1) rest
        (bhp.set p.PI { bhp.getD p.PI default with ReverseLink := (i : ℤ) }) nbh
    else bh_mark (i + 1) rest bhp nbh

/-- `qsort(BhP, N_bh, ...)`: only the first `N_bh` entries are sorted. -/
def bh_sorted (bhp : List bh_particle_data) (nbh : ℕ) : List bh_particle_data :=
  (bhp.take nbh).insertionSort (fun a b => bh_cmp_reverse_link_le a b)
    ++ bhp.drop nbh

/-- `while(N_bh > 0 && BhP[N_bh - 1].ReverseLink == -1) N_bh--`. -/
def bh_shrink (bhp : List bh_particle_data) : ℕ → ℕ
  | 0 => 0
  | n + 1 => if (bhp.getD n default).ReverseLink = -1 then bh_shrink bhp n
             else n + 1

/-- `for(i = 0; i < N_bh; i++) P[BhP[i].ReverseLink].PI = i`. -/
def bh_relink (bhp : List bh_particle_data) (nbh : ℕ)
    (P : List ParticleData) : List ParticleData :=
  (List.range nbh).foldl (fun ps i =>
    ps.set ((bhp.getD i default).ReverseLink).toNat
      { ps.getD ((bhp.getD i default).ReverseLink).toNat default with PI := i }) P

/-- `for(i = 0; i < N_bh; i++) BhP[i].ReverseLink = -1`. -/
def bh_invalidate (bhp : List bh_particle_data) (nbh : ℕ) :
    List bh_particle_data :=
  (List.range nbh).foldl (fun b i =>
    b.set i { b.getD i default with ReverseLink := (-1 : ℤ) }) bhp

/-- The final consistency sweep: every black hole must have `PI` inside
the compacted range and a matching back-referenced ID; the count of
black holes is returned and compared against `N_bh` by the caller. -/
def bh_verify (bhp : List bh_particle_data) (nbh : ℕ) :
    List ParticleData → Except Unit ℕ
  | [] => .ok 0
  | p :: rest =>
    if p.Typ = 5 then
      if nbh ≤ p.PI then .error ()
      else if (bhp.getD p.PI default).ID ≠ p.ID then .error ()
      else match bh_verify bhp nbh rest with
        | .error e => .error e
        | .ok j => .ok (j + 1)
    else bh_verify bhp nbh rest

/-- `domain_bh_garbage_collection` (domain.c): mark, sort used entries
to the front by their particle index, shrink `N_bh`, rewrite the `PI`
links, invalidate the marks, and verify; returns the new particle
array, auxiliary array and `N_bh`. -/
def domain_bh_garbage_collection (P : List ParticleData)
    (BhP : List bh_particle_data) (N_bh : ℕ) :
    Except Unit (List ParticleData × List bh_particle_data × ℕ) :=
  if N_bh = 0 then .ok (P, BhP, N_bh)
  else
    match bh_mark 0 P (BhP.map (fun b => { b with ReverseLink := (-1 : ℤ) }))
        N_bh with
    | .error e => .error e
    | .ok bhp2 =>
      match bh_verify
          (bh_invalidate (bh_sorted bhp2 N_bh)
            (bh_shrink (bh_sorted bhp2 N_bh) N_bh))
          (bh_shrink (bh_sorted bhp2 N_bh) N_bh)
          (bh_relink (bh_sorted bhp2 N_bh)
            (bh_shrink (bh_sorted bhp2 N_bh) N_bh) P) with
      | .error e => .error e
      | .ok j =>
        if j = bh_shrink (bh_sorted bhp2 N_bh) N_bh then
          .ok (bh_relink (bh_sorted bhp2 N_bh)
                 (bh_shrink (bh_sorted bhp2 N_bh) N_bh) P,
               bh_invalidate (bh_sorted bhp2 N_bh)
                 (bh_shrink (bh_sorted bhp2 N_bh) N_bh),
               bh_shrink (bh_sorted bhp2 N_bh) N_bh)
        else .error ()

/-- The species recount of `domain_garbage_collection`. -/
def countType (t : ℕ) (P : List ParticleData) : ℕ :=
  P.countP (fun p => p.Typ == t)

/-- `domain_garbage_collection` (domain.c): run the black-hole
collection, then recount the species; the result carries
`(P, BhP, N_bh, N_star, N_sph, N_dm)`. -/
def domain_garbage_collection (P : List ParticleData)
    (BhP : List bh_particle_data) (N_bh : ℕ) :
    Except Unit (List ParticleData × List bh_particle_data × ℕ × ℕ × ℕ × ℕ) :=
  match domain_bh_garbage_collection P BhP N_bh with
  | .error e => .error e
  | .ok r =>
    .ok (r.1, r.2.1, countType 5 r.1, countType 4 r.1, countType 0 r.1,
         countType 1 r.1)

/-- On success the verification sweep guarantees every black hole's
back reference, and returns the black-hole count. -/
lemma bh_verify_ok (bhp : List bh_particle_data) (nbh : ℕ) :
    ∀ (ps : List ParticleData) (j : ℕ), bh_verify bhp nbh ps = .ok j →
      ((∀ p ∈ ps, p.Typ = 5 →
          p.PI < nbh ∧ (bhp.getD p.PI default).ID = p.ID) ∧
       j = ps.countP (fun p => p.Typ == 5)) := by
  intro ps
  induction ps with
  | nil =>
    intro j h
    rw [bh_verify] at h
    simp only [Except.ok.injEq] at h
    exact ⟨fun p hp => absurd hp (by simp), by simp [h.symm]⟩
  | cons p rest ih =>
    intro j h
    rw [bh_verify] at h
    by_cases h5 : p.Typ = 5
    · rw [if_pos h5] at h
      by_cases hpi : nbh ≤ p.PI
      · rw [if_pos hpi] at h
        simp at h
      · rw [if_neg hpi] at h
        by_cases hid : (bhp.getD p.PI default).ID ≠ p.ID
        · rw [if_pos hid] at h
          simp at h
        · rw [if_neg hid] at h
          cases hv : bh_verify bhp nbh rest with
          | error e =>
            rw [hv] at h
            simp at h
          | ok j0 =>
            rw [hv] at h
            simp only [Except.ok.injEq] at h
            have hrest := ih j0 hv
            refine ⟨?_, ?_⟩
            · intro q hq hq5
              rcases List.mem_cons.mp hq with rfl | hmem
              · exact ⟨not_le.mp hpi, not_ne_iff.mp hid⟩
              · exact hrest.1 q hmem hq5
            · rw [List.countP_cons]
              simp only [h5, beq_self_eq_true, if_pos]
              omega
    · rw [if_neg h5] at h
      have hrest := ih j h
      refine ⟨?_, ?_⟩
      · intro q hq hq5
        rcases List.mem_cons.mp hq with rfl | hmem
        · exact absurd hq5 h5
        · exact hrest.1 q hmem hq5
      · rw [List.countP_cons]
        simp [h5, hrest.2]

/-- A `set` that only changes the `PI` of an existing entry preserves
length and every entry's `Typ`. -/
lemma set_PI_typ (P : List ParticleData) (idx v k : ℕ) :
    (((P.set idx { P.getD idx default with PI := v }).getD k default).Typ
      = (P.getD k default).Typ) ∧
    (P.set idx { P.getD idx default with PI := v }).length = P.length := by
  refine ⟨?_, by simp⟩
  by_cases hk : idx = k
  · subst hk
    by_cases hlen : idx < P.length
    · rw [getD_set_self _ _ _ hlen]
    · rw [List.set_eq_of_length_le (by omega)]
  · rw [getD_set_ne _ _ _ _ hk]

/-- The relink loop preserves length and every entry's `Typ`. -/
lemma bh_relink_typ (bhp : List bh_particle_data) :
    ∀ (idxs : List ℕ) (P : List ParticleData),
      ((∀ k, ((idxs.foldl (fun ps i =>
          ps.set ((bhp.getD i default).ReverseLink).toNat
            { ps.getD ((bhp.getD i default).ReverseLink).toNat default with
                PI := i }) P).getD k default).Typ = (P.getD k default).Typ) ∧
       (idxs.foldl (fun ps i =>
          ps.set ((bhp.getD i default).ReverseLink).toNat
            { ps.getD ((bhp.getD i default).ReverseLink).toNat default with
                PI := i }) P).length = P.length) := by
  intro idxs
  induction idxs with
  | nil => exact fun P => ⟨fun k => rfl, rfl⟩
  | cons i rest ih =>
    intro P
    rw [List.foldl_cons]
    refine ⟨?_, ?_⟩
    · intro k
      rw [(ih _).1 k, (set_PI_typ P _ i k).1]
    · rw [(ih _).2, (set_PI_typ P _ i 0).2]

/-- Two lists of equal length with pointwise equal `Typ` have the same
species counts. -/
lemma countP_congr_typ (t : ℕ) :
    ∀ (l₁ l₂ : List ParticleData), l₁.length = l₂.length →
      (∀ k, k < l₁.length →
        (l₁.getD k default).Typ = (l₂.getD k default).Typ) →
      l₁.countP (fun p => p.Typ == t) = l₂.countP (fun p => p.Typ == t) := by
  intro l₁
  induction l₁ with
  | nil =>
    intro l₂ hlen _
    cases l₂ with
    | nil => rfl
    | cons b l₂ => simp at hlen
  | cons a l₁ ih =>
    intro l₂ hlen htyp
    cases l₂ with
    | nil => simp at hlen
    | cons b l₂ =>
      rw [List.countP_cons, List.countP_cons,
        ih l₂ (by simpa using hlen) (fun k hk => by
          have := htyp (k + 1) (by simpa using hk)
          simpa using this)]
      have h0 := htyp 0 (by simp)
      simp only [List.getD_cons_zero] at h0
      rw [h0]

/-- If the gas particles form a prefix, then every index below the gas
count is a gas particle. -/
lemma gas_prefix_count (l : List ParticleData)
    (hpref : ∀ j, j < l.length → ∀ i, i ≤ j →
      (l.getD j default).Typ = 0 → (l.getD i default).Typ = 0) :
    ∀ i, i < l.countP (fun p => p.Typ == 0) → (l.getD i default).Typ = 0 := by
  intro i hi
  have hil : i < l.length := lt_of_lt_of_le hi (l.countP_le_length _)
  by_contra hne
  have hafter : ∀ a ∈ l.drop i, ¬ ((fun p => p.Typ == 0) a = true) := by
    intro a ha
    obtain ⟨k, hk, hak⟩ := List.mem_iff_getElem.mp ha
    have hlen : i + k < l.length := by
      have := hk
      simp only [List.length_drop] at this
      omega
    have hgetk : l[i + k] = a := by
      rw [← hak]
      exact (List.getElem_drop l).symm
    intro hq
    simp only [beq_iff_eq] at hq
    have hTyp : (l.getD (i + k) default).Typ = 0 := by
      rw [List.getD_eq_getElem _ _ hlen, hgetk, hq]
    exact hne (hpref (i + k) hlen i (by omega) hTyp)
  have hsplit : l.countP (fun p => p.Typ == 0)
      = (l.take i).countP (fun p => p.Typ == 0)
        + (l.drop i).countP (fun p => p.Typ == 0) := by
    conv_lhs => rw [← List.take_append_drop i l]
    rw [List.countP_append]
  rw [hsplit, List.countP_eq_zero.mpr hafter] at hi
  have : (l.take i).countP (fun p => p.Typ == 0) ≤ i := by
    calc (l.take i).countP (fun p => p.Typ == 0)
        ≤ (l.take i).length := List.countP_le_length _
    _ ≤ i := by simp
  omega

/-- The marking sweep aborts the run whenever some black hole has an
out-of-range `PI` or a mismatched back-referenced ID.  `idf` abstracts
the (never rewritten) ID column of the auxiliary array. -/
lemma bh_mark_err (idf : ℕ → ℕ) (nbh : ℕ) :
    ∀ (ps : List ParticleData) (i0 : ℕ) (bhp : List bh_particle_data),
      (∀ k, (bhp.getD k default).ID = idf k) →
      (∃ p ∈ ps, p.Typ = 5 ∧ (nbh ≤ p.PI ∨ idf p.PI ≠ p.ID)) →
      bh_mark i0 ps bhp nbh = .error () := by
  intro ps
  induction ps with
  | nil =>
    intro i0 bhp _ hbad
    obtain ⟨p, hp, _⟩ := hbad
    exact absurd hp (by simp)
  | cons p rest ih =>
    intro i0 bhp hid hbad
    rw [bh_mark]
    by_cases h5 : p.Typ = 5
    · rw [if_pos h5]
      by_cases hpi : nbh ≤ p.PI
      · rw [if_pos hpi]
      · rw [if_neg hpi]
        by_cases hmism : (bhp.getD p.PI default).ID ≠ p.ID
        · rw [if_pos hmism]
        · rw [if_neg hmism]
          have hpok : ¬ (p.Typ = 5 ∧ (nbh ≤ p.PI ∨ idf p.PI ≠ p.ID)) := by
            rintro ⟨_, hc | hc⟩
            · exact hpi hc
            · exact hc ((hid p.PI).symm.trans (not_ne_iff.mp hmism))
          have hbad2 : ∃ q ∈ rest, q.Typ = 5 ∧ (nbh ≤ q.PI ∨ idf q.PI ≠ q.ID) := by
            obtain ⟨q, hq, hqbad⟩ := hbad
            rcases List.mem_cons.mp hq with rfl | hmem
            · exact absurd hqbad hpok
            · exact ⟨q, hmem, hqbad⟩
          refine ih (i0 + 1) _ ?_ hbad2
          intro k
          by_cases hk : p.PI = k
          · subst hk
            by_cases hlen : p.PI < bhp.length
            · rw [getD_set_self_g _ _ _ hlen]
              exact hid p.PI
            · rw [List.set_eq_of_length_le (by omega)]
              exact hid p.PI
          · rw [getD_set_ne_g _ _ _ _ hk]
            exact hid k
    · rw [if_neg h5]
      have hbad2 : ∃ q ∈ rest, q.Typ = 5 ∧ (nbh ≤ q.PI ∨ idf q.PI ≠ q.ID) := by
        obtain ⟨q, hq, hqbad⟩ := hbad
        rcases List.mem_cons.mp hq with rfl | hmem
        · exact absurd hqbad.1 h5
        · exact ⟨q, hmem, hqbad⟩
      exact ih (i0 + 1) bhp hid hbad2

/-- Case analysis of a successful `domain_bh_garbage_collection`: the
particle array keeps its length and every entry's `Typ`; either the
early bail-out left everything unchanged, or the final sweep's
guarantees hold and the new `N_bh` is the black-hole count. -/
lemma bh_gc_ok (P : List ParticleData) (BhP : List bh_particle_data)
    (N_bh : ℕ) (P2 : List ParticleData) (bhp : List bh_particle_data)
    (nbh : ℕ)
    (h : domain_bh_garbage_collection P BhP N_bh = .ok (P2, bhp, nbh)) :
    ((∀ k, (P2.getD k default).Typ = (P.getD k default).Typ) ∧
     P2.length = P.length ∧
     ((N_bh = 0 ∧ P2 = P ∧ bhp = BhP ∧ nbh = 0) ∨
      ((∀ p ∈ P2, p.Typ = 5 →
          p.PI < nbh ∧ (bhp.getD p.PI default).ID = p.ID) ∧
       nbh = P2.countP (fun p => p.Typ == 5)))) := by
  rw [domain_bh_garbage_collection] at h
  by_cases hN : N_bh = 0
  · rw [if_pos hN] at h
    simp only [Except.ok.injEq, Prod.mk.injEq] at h
    obtain ⟨hP, hB, hn⟩ := h
    subst hP
    subst hB
    refine ⟨fun k => rfl, rfl, Or.inl ⟨hN, rfl, rfl, by omega⟩⟩
  · rw [if_neg hN] at h
    cases hm : bh_mark 0 P
        (BhP.map (fun b => { b with ReverseLink := (-1 : ℤ) })) N_bh with
    | error e =>
      rw [hm] at h
      simp at h
    | ok bhp2 =>
      rw [hm] at h
      dsimp only at h
      cases hv : bh_verify
          (bh_invalidate (bh_sorted bhp2 N_bh)
            (bh_shrink (bh_sorted bhp2 N_bh) N_bh))
          (bh_shrink (bh_sorted bhp2 N_bh) N_bh)
          (bh_relink (bh_sorted bhp2 N_bh)
            (bh_shrink (bh_sorted bhp2 N_bh) N_bh) P) with
      | error e =>
        rw [hv] at h
        simp at h
      | ok j =>
        rw [hv] at h
        dsimp only at h
        by_cases hj : j = bh_shrink (bh_sorted bhp2 N_bh) N_bh
        · rw [if_pos hj] at h
          simp only [Except.ok.injEq, Prod.mk.injEq] at h
          obtain ⟨hP, hB, hn⟩ := h
          have hrel := bh_relink_typ (bh_sorted bhp2 N_bh)
            (List.range (bh_shrink (bh_sorted bhp2 N_bh) N_bh)) P
          have hver := bh_verify_ok _ _ _ _ hv
          subst hP
          subst hB
          subst hn
          refine ⟨fun k => ?_, ?_, Or.inr ⟨?_, ?_⟩⟩
          · exact hrel.1 k
          · exact hrel.2
          · exact hver.1
          · omega
        · rw [if_neg hj] at h
          simp at h

/-- C3: after a successful garbage collection the particle array is
packed by species — every index below the recounted `N_sph` holds a gas
particle (given that gas particles occupy a prefix, as the exchange
maintains), and every black hole's `PI` lies in `[0, N_bh)` with
`BhP[PI].ID = P[i].ID`; a violated back reference terminates the run
(`.error`) instead of being silently corrected.  `hbh0` is the source's
stated premise for the early bail-out: with no black holes on record
there can be no black-hole garbage. -/
theorem garbage_collection_packed (P : List ParticleData)
    (BhP : List bh_particle_data) (N_bh : ℕ)
    (hpref : ∀ j, j < P.length → ∀ i, i ≤ j →
      (P.getD j default).Typ = 0 → (P.getD i default).Typ = 0)
    (hbh0 : N_bh = 0 → ∀ p ∈ P, p.Typ ≠ 5) :
    ((∀ P2 bhp2 nbh2 nstar nsph ndm,
       domain_garbage_collection P BhP N_bh
          = .ok (P2, bhp2, nbh2, nstar, nsph, ndm) →
       ((∀ i, i < nsph → (P2.getD i default).Typ = 0) ∧
        (∀ p ∈ P2, p.Typ = 5 →
           p.PI < nbh2 ∧ (bhp2.getD p.PI default).ID = p.ID))) ∧
     (N_bh ≠ 0 →
      (∃ i, i < P.length ∧ (P.getD i default).Typ = 5 ∧
         (N_bh ≤ (P.getD i default).PI ∨
          (BhP.getD (P.getD i default).PI default).ID
            ≠ (P.getD i default).ID)) →
      domain_garbage_collection P BhP N_bh = .error ())) := by
  constructor
  · intro P2 bhp2 nbh2 nstar nsph ndm h
    rw [domain_garbage_collection] at h
    cases hg : domain_bh_garbage_collection P BhP N_bh with
    | error e =>
      rw [hg] at h
      simp at h
    | ok r =>
      obtain ⟨P2', bhp', nbh'⟩ := r
      rw [hg] at h
      dsimp only at h
      simp only [Except.ok.injEq, Prod.mk.injEq] at h
      obtain ⟨hP2, hbhp, hnbh2, _, hnsph, _⟩ := h
      have hgc := bh_gc_ok P BhP N_bh P2' bhp' nbh' hg
      have hpref2 : ∀ j, j < P2'.length → ∀ i, i ≤ j →
          (P2'.getD j default).Typ = 0 → (P2'.getD i default).Typ = 0 := by
        intro j hj i hij hTyp
        rw [hgc.1 i]
        rw [hgc.1 j] at hTyp
        exact hpref j (by omega) i hij hTyp
      subst hP2
      subst hbhp
      constructor
      · intro i hi
        refine gas_prefix_count P2' hpref2 i ?_
        rw [← hnsph] at hi
        exact hi
      · intro p hp hp5
        rcases hgc.2.2 with ⟨hN0, hPP, _, _⟩ | ⟨hver, hcount⟩
        · subst hPP
          exact absurd hp5 (hbh0 hN0 p hp)
        · have hn2 : nbh2 = nbh' := by
            rw [← hnbh2, hcount]
            rfl
          rw [hn2]
          exact hver p hp hp5
  · intro hN hex
    have hid : ∀ k, ((BhP.map
        (fun b : bh_particle_data =>
          { b with ReverseLink := (-1 : ℤ) })).getD k default).ID
        = (BhP.getD k default).ID := by
      intro k
      by_cases hk : k < BhP.length
      · rw [List.getD_eq_getElem _ _ (by simpa using hk),
          List.getD_eq_getElem _ _ hk, List.getElem_map]
      · rw [List.getD_eq_default _ _ (by simpa using hk),
          List.getD_eq_default _ _ (by omega)]
    have hex2 : ∃ p ∈ P, p.Typ = 5 ∧
        (N_bh ≤ p.PI ∨ (BhP.getD p.PI default).ID ≠ p.ID) := by
      obtain ⟨i, hi, h5, hbad⟩ := hex
      refine ⟨P.getD i default, ?_, h5, hbad⟩
      rw [List.getD_eq_getElem _ _ hi]
      exact List.getElem_mem hi
    have hmark := bh_mark_err (fun k => (BhP.getD k default).ID) N_bh P 0
      (BhP.map (fun b => { b with ReverseLink := (-1 : ℤ) })) hid hex2
    have hg : domain_bh_garbage_collection P BhP N_bh = .error () := by
      rw [domain_bh_garbage_collection, if_neg hN, hmark]
    rw [domain_garbage_collection, hg]

/-- A two-particle array: one gas particle, then one black hole backed
by the single auxiliary slot. -/
def gcWitnessP : List ParticleData :=
  [{ Typ := 0, ID := 1, Generation := 0, Mass := 1, PI := 0,
     OnAnotherDomain := false, WillExport := false },
   { Typ := 5, ID := 7, Generation := 0, Mass := 1, PI := 0,
     OnAnotherDomain := false, WillExport := false }]

/-- The matching auxiliary array. -/
def gcWitnessBh : List bh_particle_data :=
  [{ ID := 7, ReverseLink := -1 }]

/-- A concrete garbage collection over one gas particle and one
consistent black hole. -/
theorem garbage_collection_packed_witness :
    (∀ j, j < gcWitnessP.length → ∀ i, i ≤ j →
       (gcWitnessP.getD j default).Typ = 0 →
       (gcWitnessP.getD i default).Typ = 0) ∧
    ((1 : ℕ) = 0 → ∀ p ∈ gcWitnessP, p.Typ ≠ 5) ∧
    (∃ t, domain_garbage_collection gcWitnessP gcWitnessBh 1 = .ok t) ∧
    ((∀ P2 bhp2 nbh2 nstar nsph ndm,
       domain_garbage_collection gcWitnessP gcWitnessBh 1
          = .ok (P2, bhp2, nbh2, nstar, nsph, ndm) →
       ((∀ i, i < nsph → (P2.getD i default).Typ = 0) ∧
        (∀ p ∈ P2, p.Typ = 5 →
           p.PI < nbh2 ∧ (bhp2.getD p.PI default).ID = p.ID))) ∧
     ((1 : ℕ) ≠ 0 →
      (∃ i, i < gcWitnessP.length ∧ (gcWitnessP.getD i default).Typ = 5 ∧
         (1 ≤ (gcWitnessP.getD i default).PI ∨
          (gcWitnessBh.getD (gcWitnessP.getD i default).PI default).ID
            ≠ (gcWitnessP.getD i default).ID)) →
      domain_garbage_collection gcWitnessP gcWitnessBh 1 = .error ())) :=
  ⟨by decide, by decide, ⟨_, rfl⟩,
   garbage_collection_packed gcWitnessP gcWitnessBh 1 (by decide) (by decide)⟩

/-! ## C7: the repair negotiation of `domain_countToGo`

Global model of the broadcast-synchronized negotiation (domain.c,
`domain_countToGo`): `toGo*[i][ta]` is sender `i`'s planned count for
destination `ta`; `toGet*[ta][i]` is the receive snapshot from the last
`MPI_Alltoall` (it is not refreshed while the negotiation runs).  Each
sweep recomputes `count_togo*` from the live send counters and
`count_toget*` from the snapshot, repairs each overflowing destination
by the round-robin decrement loop, and accumulates `flagsum`; more than
100 flagged sweeps call `endrun`. -/

/-- The constants of the negotiation: task count, the three capacity
limits, and the `MPI_Allgather`ed current populations. -/
structure CountEnv where
  NTask : ℕ
  MaxPart : ℕ
  MaxPartSph : ℕ
  MaxPartBh : ℕ
  list_NumPart : ℕ → ℕ
  list_N_sph : ℕ → ℕ
  list_N_bh : ℕ → ℕ

/-- The mutable counters: three live send matrices (sender × dest) and
the three stale receive snapshots (receiver × sender). -/
structure CountToGoState where
  toGo : ℕ → ℕ → ℕ
  toGoSph : ℕ → ℕ → ℕ
  toGoBh : ℕ → ℕ → ℕ
  toGet : ℕ → ℕ → ℕ
  toGetSph : ℕ → ℕ → ℕ
  toGetBh : ℕ → ℕ → ℕ

/-- Sum of a column prefix: what all senders `0 .. n-1` plan to send. -/
def colSum (col : ℕ → ℕ) (n : ℕ) : ℕ := ((List.range n).map col).sum

/-- Sum of row `r`'s prefix of length `n`. -/
def rowSum (M : ℕ → ℕ → ℕ) (r n : ℕ) : ℕ := ((List.range n).map (M r)).sum

/-- Replace column `ta` of a matrix. -/
def writeCol (M : ℕ → ℕ → ℕ) (ta : ℕ) (col : ℕ → ℕ) : ℕ → ℕ → ℕ :=
  fun i d => if d = ta then col i else M i d

/-- `list_N_sph[ta] + count_toget_sph - count_togo_sph - All.MaxPartSph`. -/
def overSph (env : CountEnv) (st : CountToGoState) (ta : ℕ) : ℤ :=
  (env.list_N_sph ta : ℤ) + (rowSum st.toGetSph ta env.NTask : ℤ)
    - (rowSum st.toGoSph ta env.NTask : ℤ) - (env.MaxPartSph : ℤ)

/-- `list_N_bh[ta] + count_toget_bh - count_togo_bh - All.MaxPartBh`. -/
def overBh (env : CountEnv) (st : CountToGoState) (ta : ℕ) : ℤ :=
  (env.list_N_bh ta : ℤ) + (rowSum st.toGetBh ta env.NTask : ℤ)
    - (rowSum st.toGoBh ta env.NTask : ℤ) - (env.MaxPartBh : ℤ)

/-- `list_NumPart[ta] + count_toget - count_togo - All.MaxPart`, where
`count_toget` carries the `d` decrements the sph/bh repairs already
applied to it at this destination. -/
def overAll (env : CountEnv) (st : CountToGoState) (ta : ℕ) (d : ℕ) : ℤ :=
  (env.list_NumPart ta : ℤ) + (rowSum st.toGet ta env.NTask : ℤ) - (d : ℤ)
    - (rowSum st.toGo ta env.NTask : ℤ) - (env.MaxPart : ℤ)

/-- The `while(ntoomany)` round-robin: at each step the current sender
decrements its counter for the overflowing destination if it can, then
the token advances (mod `NTask`); `false` signals exhausted fuel. -/
def repair_loop (NTask : ℕ) : ℕ → (ℕ → ℕ) → ℕ → ℕ → ((ℕ → ℕ) × Bool)
  | 0, col, _, _ => (col, false)
  | fuel + 1, col, i, n =>
    if n = 0 then (col, true)
    else if 0 < col i then
      repair_loop NTask fuel (Function.update col i (col i - 1))
        ((i + 1) % NTask) (n - 1)
    else repair_loop NTask fuel col ((i + 1) % NTask) n

/-- The SPH overflow check and repair for destination `ta`; returns the
new state, the number of receive-count decrements, and the flag. -/
def sweep_sph (env : CountEnv) (flagsum ta : ℕ) (st : CountToGoState) :
    Except Unit (CountToGoState × ℕ × Bool) :=
  if 0 < overSph env st ta then
    match repair_loop env.NTask
        (((overSph env st ta).toNat + 1) * (env.NTask + 1))
        (fun i => st.toGoSph i ta) (flagsum % env.NTask)
        (overSph env st ta).toNat with
    | (col, true) =>
      .ok ({ st with toGoSph := writeCol st.toGoSph ta col },
           (overSph env st ta).toNat, true)
    | (_, false) => .error ()
  else .ok (st, 0, false)

/-- The BH overflow check and repair for destination `ta`. -/
def sweep_bh (env : CountEnv) (flagsum ta : ℕ) (st : CountToGoState) :
    Except Unit (CountToGoState × ℕ × Bool) :=
  if 0 < overBh env st ta then
    match repair_loop env.NTask
        (((overBh env st ta).toNat + 1) * (env.NTask + 1))
        (fun i => st.toGoBh i ta) (flagsum % env.NTask)
        (overBh env st ta).toNat with
    | (col, true) =>
      .ok ({ st with toGoBh := writeCol st.toGoBh ta col },
           (overBh env st ta).toNat, true)
    | (_, false) => .error ()
  else .ok (st, 0, false)

/-- The total-particle overflow check and repair for destination `ta`,
with `d` receive-count decrements already applied at this `ta`. -/
def sweep_all (env : CountEnv) (flagsum ta : ℕ) (st : CountToGoState)
    (d : ℕ) : Except Unit (CountToGoState × Bool) :=
  if 0 < overAll env st ta d then
    match repair_loop env.NTask
        (((overAll env st ta d).toNat + 1) * (env.NTask + 1))
        (fun i => st.toGo i ta) (flagsum % env.NTask)
        (overAll env st ta d).toNat with
    | (col, true) =>
      .ok ({ st with toGo := writeCol st.toGo ta col }, true)
    | (_, false) => .error ()
  else .ok (st, false)

/-- The body of `for(ta = 0; ta < NTask; ta++)`: check and repair the
three categories at destination `ta`, in source order. -/
def sweep_ta (env : CountEnv) (flagsum ta : ℕ) (st : CountToGoState) :
    Except Unit (CountToGoState × Bool) :=
  match sweep_sph env flagsum ta st with
  | .error e => .error e
  | .ok (st1, d1, f1) =>
    match sweep_bh env flagsum ta st1 with
    | .error e => .error e
    | .ok (st2, d2, f2) =>
      match sweep_all env flagsum ta st2 (d1 + d2) with
      | .error e => .error e
      | .ok (st3, f3) => .ok (st3, f1 || f2 || f3)

/-- One full sweep over all destinations, accumulating the flag. -/
def sweep_go (env : CountEnv) (flagsum : ℕ) :
    List ℕ → CountToGoState → Bool → Except Unit (CountToGoState × Bool)
  | [], st, fl => .ok (st, fl)
  | ta :: rest, st, fl =>
    match sweep_ta env flagsum ta st with
    | .error e => .error e
    | .ok (st1, f) => sweep_go env flagsum rest st1 (fl || f)

/-- One iteration of the inner `do { ... } while(flag)` body. -/
def sweep (env : CountEnv) (flagsum : ℕ) (st : CountToGoState) :
    Except Unit (CountToGoState × Bool) :=
  sweep_go env flagsum (List.range env.NTask) st false

/-- The inner `do { flag = 0; ...; flagsum += flag; if(flagsum > 100)
endrun(1013, ...); } while(flag)` loop. -/
def repair_inner (env : CountEnv) :
    ℕ → ℕ → CountToGoState → Except Unit (CountToGoState × ℕ)
  | 0, _, _ => .error ()
  | fuel + 1, flagsum, st =>
    match sweep env flagsum st with
    | .error e => .error e
    | .ok (st1, false) => .ok (st1, flagsum)
    | .ok (st1, true) =>
      if 100 < flagsum + 1 then .error ()
      else repair_inner env fuel (flagsum + 1) st1

lemma colSum_succ (col : ℕ → ℕ) (n : ℕ) :
    colSum col (n + 1) = colSum col n + col n := by
  simp [colSum, List.range_succ]

lemma colSum_congr (f g : ℕ → ℕ) :
    ∀ n, (∀ k, k < n → f k = g k) → colSum f n = colSum g n := by
  intro n
  induction n with
  | zero => intro _; rfl
  | succ n ih =>
    intro h
    rw [colSum_succ, colSum_succ, ih (fun k hk => h k (by omega)),
      h n (by omega)]

lemma colSum_update_add (col : ℕ → ℕ) (j v : ℕ) :
    ∀ n, j < n →
      colSum (Function.update col j v) n + col j = colSum col n + v := by
  intro n
  induction n with
  | zero => intro h; omega
  | succ n ih =>
    intro hj
    by_cases h : j = n
    · subst h
      rw [colSum_succ, colSum_succ,
        colSum_congr (Function.update col j v) col j
          (fun k hk => Function.update_noteq (by omega) _ _),
        Function.update_same]
      omega
    · rw [colSum_succ, colSum_succ,
        Function.update_noteq (Ne.symm h) _ _]
      have := ih (by omega)
      omega

lemma colSum_pos (col : ℕ → ℕ) :
    ∀ n, 0 < colSum col n → ∃ j, j < n ∧ 0 < col j := by
  intro n
  induction n with
  | zero => intro h; simp [colSum] at h
  | succ n ih =>
    intro h
    by_cases hc : 0 < col n
    · exact ⟨n, by omega, hc⟩
    · rw [colSum_succ] at h
      obtain ⟨j, hj, hcj⟩ := ih (by omega)
      exact ⟨j, by omega, hcj⟩

/-- From any starting token there is a first sender (in round-robin
order) with something left to give. -/
lemma exists_first_pos (NTask : ℕ) (col : ℕ → ℕ) (i : ℕ) (hi : i < NTask)
    (hpos : 0 < colSum col NTask) :
    ∃ d, d < NTask ∧ 0 < col ((i + d) % NTask) ∧
      ∀ e, e < d → col ((i + e) % NTask) = 0 := by
  obtain ⟨j, hj, hcj⟩ := colSum_pos col NTask hpos
  have hNT : 0 < NTask := by omega
  have key : ∀ x, (i + x % NTask) % NTask = (i + x) % NTask := by
    intro x
    conv_rhs => rw [Nat.add_mod]
    rw [Nat.mod_eq_of_lt hi]
  have hd0 : 0 < col ((i + (j + NTask - i) % NTask) % NTask) := by
    rw [key]
    have h1 : i + (j + NTask - i) = j + NTask := by omega
    rw [h1, Nat.add_mod_right, Nat.mod_eq_of_lt hj]
    exact hcj
  have hQ : ∃ d, 0 < col ((i + d) % NTask) := ⟨_, hd0⟩
  refine ⟨Nat.find hQ, ?_, Nat.find_spec hQ, ?_⟩
  · calc Nat.find hQ ≤ (j + NTask - i) % NTask := Nat.find_min' hQ hd0
    _ < NTask := Nat.mod_lt _ hNT
  · intro e he
    have := Nat.find_min hQ he
    omega

/-- Core of the round-robin repair: with `d` the distance to the first
nonempty sender and fuel at least `n*(NTask+1) + d + 1`, the loop
removes exactly `n` units, never increments anything, and reports
success. -/
lemma repair_loop_go (NTask : ℕ) :
    ∀ (fuel : ℕ) (col : ℕ → ℕ) (i n d : ℕ),
      i < NTask → n ≤ colSum col NTask →
      (0 < n → (d < NTask ∧ 0 < col ((i + d) % NTask) ∧
        ∀ e, e < d → col ((i + e) % NTask) = 0)) →
      n * (NTask + 1) + d + 1 ≤ fuel →
      ((repair_loop NTask fuel col i n).2 = true ∧
       colSum (repair_loop NTask fuel col i n).1 NTask + n
         = colSum col NTask ∧
       ∀ k, (repair_loop NTask fuel col i n).1 k ≤ col k) := by
  intro fuel
  induction fuel with
  | zero =>
    intro col i n d hi hn hd hb
    omega
  | succ fuel ih =>
    intro col i n d hi hn hd hbudget
    rw [repair_loop]
    by_cases hn0 : n = 0
    · rw [if_pos hn0]
      refine ⟨rfl, ?_, fun k => le_rfl⟩
      show colSum col NTask + n = colSum col NTask
      omega
    · rw [if_neg hn0]
      obtain ⟨hdNT, hdpos, hdzero⟩ := hd (by omega)
      by_cases hci : 0 < col i
      · rw [if_pos hci]
        have hsum := colSum_update_add col i (col i - 1) NTask hi
        have hle : ∀ k, Function.update col i (col i - 1) k ≤ col k := by
          intro k
          by_cases hk : k = i
          · subst hk
            rw [Function.update_same]
            omega
          · rw [Function.update_noteq hk]
        have hi2 : (i + 1) % NTask < NTask := Nat.mod_lt _ (by omega)
        have hmul : NTask + 1 ≤ n * (NTask + 1) :=
          Nat.le_mul_of_pos_left _ (by omega)
        have hsplit : (n - 1) * (NTask + 1) + (NTask + 1) = n * (NTask + 1) := by
          have h3 : n = (n - 1) + 1 := by omega
          calc (n - 1) * (NTask + 1) + (NTask + 1)
              = ((n - 1) + 1) * (NTask + 1) := by ring
          _ = n * (NTask + 1) := by rw [← h3]
        by_cases hn1 : n - 1 = 0
        · obtain ⟨hr1, hr2, hr3⟩ := ih (Function.update col i (col i - 1))
            ((i + 1) % NTask) (n - 1) 0 hi2 (by omega)
            (fun hc => absurd hn1 (by omega)) (by rw [hn1]; omega)
          refine ⟨hr1, ?_, fun k => le_trans (hr3 k) (hle k)⟩
          omega
        · have hpos2 : 0 < colSum (Function.update col i (col i - 1)) NTask := by
            omega
          obtain ⟨d2, hd2NT, hd2pos, hd2zero⟩ := exists_first_pos NTask
            (Function.update col i (col i - 1)) ((i + 1) % NTask) hi2 hpos2
          obtain ⟨hr1, hr2, hr3⟩ := ih (Function.update col i (col i - 1))
            ((i + 1) % NTask) (n - 1) d2 hi2 (by omega)
            (fun _ => ⟨hd2NT, hd2pos, hd2zero⟩) (by omega)
          refine ⟨hr1, ?_, fun k => le_trans (hr3 k) (hle k)⟩
          omega
      · rw [if_neg hci]
        have hd0 : d ≠ 0 := by
          intro hc
          subst hc
          rw [Nat.add_zero, Nat.mod_eq_of_lt hi] at hdpos
          omega
        have hi2 : (i + 1) % NTask < NTask := Nat.mod_lt _ (by omega)
        have hshift : ∀ e, ((i + 1) % NTask + e) % NTask = (i + (e + 1)) % NTask := by
          intro e
          rw [Nat.mod_add_mod]
          congr 1
          omega
        have hres := ih col ((i + 1) % NTask) n (d - 1) hi2 hn
          (fun _ => ⟨by omega, by
              rw [hshift]
              have : d - 1 + 1 = d := by omega
              rw [this]
              exact hdpos, by
              intro e he
              rw [hshift]
              exact hdzero (e + 1) (by omega)⟩)
          (by omega)
        exact hres

lemma sweep_sph_noflag (env : CountEnv) (flagsum ta : ℕ)
    (st st1 : CountToGoState) (d : ℕ)
    (h : sweep_sph env flagsum ta st = .ok (st1, d, false)) :
    st1 = st ∧ d = 0 ∧ overSph env st ta ≤ 0 := by
  rw [sweep_sph] at h
  by_cases hover : 0 < overSph env st ta
  · rw [if_pos hover] at h
    rcases hrl : repair_loop env.NTask
        (((overSph env st ta).toNat + 1) * (env.NTask + 1))
        (fun i => st.toGoSph i ta) (flagsum % env.NTask)
        (overSph env st ta).toNat with ⟨col, b⟩
    rw [hrl] at h
    cases b
    · simp at h
    · simp at h
  · rw [if_neg hover] at h
    simp only [Except.ok.injEq, Prod.mk.injEq] at h
    exact ⟨h.1.symm, h.2.1.symm, not_lt.mp hover⟩

lemma sweep_bh_noflag (env : CountEnv) (flagsum ta : ℕ)
    (st st1 : CountToGoState) (d : ℕ)
    (h : sweep_bh env flagsum ta st = .ok (st1, d, false)) :
    st1 = st ∧ d = 0 ∧ overBh env st ta ≤ 0 := by
  rw [sweep_bh] at h
  by_cases hover : 0 < overBh env st ta
  · rw [if_pos hover] at h
    rcases hrl : repair_loop env.NTask
        (((overBh env st ta).toNat + 1) * (env.NTask + 1))
        (fun i => st.toGoBh i ta) (flagsum % env.NTask)
        (overBh env st ta).toNat with ⟨col, b⟩
    rw [hrl] at h
    cases b
    · simp at h
    · simp at h
  · rw [if_neg hover] at h
    simp only [Except.ok.injEq, Prod.mk.injEq] at h
    exact ⟨h.1.symm, h.2.1.symm, not_lt.mp hover⟩

lemma sweep_all_noflag (env : CountEnv) (flagsum ta : ℕ)
    (st st1 : CountToGoState) (d : ℕ)
    (h : sweep_all env flagsum ta st d = .ok (st1, false)) :
    st1 = st ∧ overAll env st ta d ≤ 0 := by
  rw [sweep_all] at h
  by_cases hover : 0 < overAll env st ta d
  · rw [if_pos hover] at h
    rcases hrl : repair_loop env.NTask
        (((overAll env st ta d).toNat + 1) * (env.NTask + 1))
        (fun i => st.toGo i ta) (flagsum % env.NTask)
        (overAll env st ta d).toNat with ⟨col, b⟩
    rw [hrl] at h
    cases b
    · simp at h
    · simp at h
  · rw [if_neg hover] at h
    simp only [Except.ok.injEq, Prod.mk.injEq] at h
    exact ⟨h.1.symm, not_lt.mp hover⟩

/-- An unflagged destination visit leaves the state untouched and
certifies that all three categories fit there. -/
lemma sweep_ta_noflag (env : CountEnv) (flagsum ta : ℕ)
    (st st1 : CountToGoState)
    (h : sweep_ta env flagsum ta st = .ok (st1, false)) :
    st1 = st ∧ overSph env st ta ≤ 0 ∧ overBh env st ta ≤ 0 ∧
      overAll env st ta 0 ≤ 0 := by
  rw [sweep_ta] at h
  cases hs : sweep_sph env flagsum ta st with
  | error e =>
    rw [hs] at h
    simp at h
  | ok r1 =>
    obtain ⟨st1s, d1, f1⟩ := r1
    rw [hs] at h
    dsimp only at h
    cases hb : sweep_bh env flagsum ta st1s with
    | error e =>
      rw [hb] at h
      simp at h
    | ok r2 =>
      obtain ⟨st2s, d2, f2⟩ := r2
      rw [hb] at h
      dsimp only at h
      cases ha : sweep_all env flagsum ta st2s (d1 + d2) with
      | error e =>
        rw [ha] at h
        simp at h
      | ok r3 =>
        obtain ⟨st3s, f3⟩ := r3
        rw [ha] at h
        dsimp only at h
        simp only [Except.ok.injEq, Prod.mk.injEq] at h
        obtain ⟨h3, hf⟩ := h
        have hf1 : f1 = false := by
          cases f1 <;> simp at hf ⊢
        have hf2 : f2 = false := by
          cases f2 <;> cases f1 <;> simp at hf ⊢
        have hf3 : f3 = false := by
          cases f3 <;> cases f2 <;> cases f1 <;> simp at hf ⊢
        subst hf1
        subst hf2
        subst hf3
        obtain ⟨he1, hd1, hosph⟩ := sweep_sph_noflag env flagsum ta st st1s d1 hs
        rw [he1] at hb
        obtain ⟨he2, hd2, hobh⟩ := sweep_bh_noflag env flagsum ta st st2s d2 hb
        rw [he2] at ha
        obtain ⟨he3, hoall⟩ := sweep_all_noflag env flagsum ta st st3s
          (d1 + d2) ha
        refine ⟨by rw [← h3, he3], hosph, hobh, ?_⟩
        rw [hd1, hd2] at hoall
        exact hoall

/-- An unflagged sweep leaves the state untouched and certifies every
visited destination. -/
lemma sweep_go_noflag (env : CountEnv) (flagsum : ℕ) :
    ∀ (tas : List ℕ) (st st1 : CountToGoState) (fl : Bool),
      sweep_go env flagsum tas st fl = .ok (st1, false) →
      (st1 = st ∧ fl = false ∧ ∀ ta ∈ tas,
        overSph env st ta ≤ 0 ∧ overBh env st ta ≤ 0 ∧
        overAll env st ta 0 ≤ 0) := by
  intro tas
  induction tas with
  | nil =>
    intro st st1 fl h
    rw [sweep_go] at h
    simp only [Except.ok.injEq, Prod.mk.injEq] at h
    exact ⟨h.1.symm, h.2, fun ta hta => absurd hta (by simp)⟩
  | cons ta rest ih =>
    intro st st1 fl h
    rw [sweep_go] at h
    cases hs : sweep_ta env flagsum ta st with
    | error e =>
      rw [hs] at h
      simp at h
    | ok r =>
      obtain ⟨sts, f⟩ := r
      rw [hs] at h
      dsimp only at h
      obtain ⟨he, hflf, hrest⟩ := ih sts st1 (fl || f) h
      have hfl : fl = false ∧ f = false := by
        cases fl <;> cases f <;> simp at hflf ⊢
      obtain ⟨hfl1, hfl2⟩ := hfl
      subst hfl2
      obtain ⟨hes, hsph, hbh, hall⟩ := sweep_ta_noflag env flagsum ta st sts hs
      subst hes
      subst he
      refine ⟨rfl, hfl1, ?_⟩
      intro t ht
      rcases List.mem_cons.mp ht with rfl | hmem
      · exact ⟨hsph, hbh, hall⟩
      · exact hrest t hmem

/-- A normal exit of the inner negotiation loop keeps `flagsum` within
its bound and leaves a state in which every destination fits. -/
lemma repair_inner_ok (env : CountEnv) :
    ∀ (fuel flagsum : ℕ) (st st1 : CountToGoState) (fs1 : ℕ),
      flagsum ≤ 100 →
      repair_inner env fuel flagsum st = .ok (st1, fs1) →
      (fs1 ≤ 100 ∧ ∀ ta, ta < env.NTask →
        (overSph env st1 ta ≤ 0 ∧ overBh env st1 ta ≤ 0 ∧
         overAll env st1 ta 0 ≤ 0)) := by
  intro fuel
  induction fuel with
  | zero =>
    intro flagsum st st1 fs1 hfs h
    rw [repair_inner] at h
    simp at h
  | succ fuel ih =>
    intro flagsum st st1 fs1 hfs h
    rw [repair_inner] at h
    cases hs : sweep env flagsum st with
    | error e =>
      rw [hs] at h
      simp at h
    | ok r =>
      obtain ⟨sts, f⟩ := r
      rw [hs] at h
      cases f with
      | false =>
        dsimp only at h
        simp only [Except.ok.injEq, Prod.mk.injEq] at h
        obtain ⟨h1, h2⟩ := h
        obtain ⟨he, _, hfit⟩ := sweep_go_noflag env flagsum
          (List.range env.NTask) st sts false hs
        subst h1
        refine ⟨by omega, ?_⟩
        intro ta hta
        rw [he]
        exact hfit ta (List.mem_range.mpr hta)
      | true =>
        dsimp only at h
        by_cases hcap : 100 < flagsum + 1
        · rw [if_pos hcap] at h
          simp at h
        · rw [if_neg hcap] at h
          exact ih (flagsum + 1) sts st1 fs1 (by omega) h

/-- With the bound already reached, one more flagged sweep aborts the
run. -/
lemma repair_inner_fatal (env : CountEnv) (fuel flagsum : ℕ)
    (st : CountToGoState) (hfs : 100 ≤ flagsum)
    (h : ∃ st1, sweep env flagsum st = .ok (st1, true)) :
    repair_inner env (fuel + 1) flagsum st = .error () := by
  obtain ⟨st1, hs⟩ := h
  rw [repair_inner, hs]
  dsimp only
  rw [if_pos (by omega)]

/-- C7: the repair negotiation of `domain_countToGo`.  (i) The
round-robin loop removes exactly the computed excess from the offending
senders, one unit at a time, only ever decrementing, whenever the
senders jointly have that much to give (and the stated fuel dominates
the walk).  (ii) On a normal exit of the negotiation, `flagsum` stayed
within its bound and the final state fits every destination in all
three categories — the very checks `list_N* + count_toget* -
count_togo* <= All.MaxPart*` of the source.  (iii) Once `flagsum` has
reached 100, a further flagged sweep terminates the run
(`endrun(1013)`) instead of negotiating on. -/
theorem countToGo_repair (env : CountEnv) :
    ((∀ (col : ℕ → ℕ) (i n fuel : ℕ), i < env.NTask →
        n ≤ colSum col env.NTask →
        n * (env.NTask + 1) + env.NTask + 1 ≤ fuel →
        ((repair_loop env.NTask fuel col i n).2 = true ∧
         colSum (repair_loop env.NTask fuel col i n).1 env.NTask + n
           = colSum col env.NTask ∧
         ∀ k, (repair_loop env.NTask fuel col i n).1 k ≤ col k)) ∧
     (∀ (fuel flagsum : ℕ) (st st1 : CountToGoState) (fs1 : ℕ),
        flagsum ≤ 100 →
        repair_inner env fuel flagsum st = .ok (st1, fs1) →
        (fs1 ≤ 100 ∧ ∀ ta, ta < env.NTask →
          (overSph env st1 ta ≤ 0 ∧ overBh env st1 ta ≤ 0 ∧
           overAll env st1 ta 0 ≤ 0))) ∧
     (∀ (fuel flagsum : ℕ) (st : CountToGoState), 100 ≤ flagsum →
        (∃ st1, sweep env flagsum st = .ok (st1, true)) →
        repair_inner env (fuel + 1) flagsum st = .error ())) := by
  refine ⟨?_, ?_, ?_⟩
  · intro col i n fuel hi hn hfuel
    by_cases hn0 : n = 0
    · exact repair_loop_go env.NTask fuel col i n 0 hi hn
        (fun hc => absurd hn0 (by omega)) (by rw [hn0]; omega)
    · obtain ⟨d, hdNT, hdpos, hdzero⟩ := exists_first_pos env.NTask col i hi
        (by omega)
      exact repair_loop_go env.NTask fuel col i n d hi hn
        (fun _ => ⟨hdNT, hdpos, hdzero⟩) (by omega)
  · intro fuel flagsum st st1 fs1 hfs h
    exact repair_inner_ok env fuel flagsum st st1 fs1 hfs h
  · intro fuel flagsum st hfs h
    exact repair_inner_fatal env fuel flagsum st hfs h

/-- A column with two units at sender 1 and nothing at sender 0. -/
def countColW : ℕ → ℕ := fun i => if i = 1 then 2 else 0

/-- Two tasks, capacities 2/1/1, one particle (a gas one) per task. -/
def countEnvW : CountEnv :=
  { NTask := 2, MaxPart := 2, MaxPartSph := 1, MaxPartBh := 1,
    list_NumPart := fun _ => 1, list_N_sph := fun _ => 1,
    list_N_bh := fun _ => 0 }

/-- The empty transfer plan. -/
def countStZero : CountToGoState :=
  { toGo := fun _ _ => 0, toGoSph := fun _ _ => 0, toGoBh := fun _ _ => 0,
    toGet := fun _ _ => 0, toGetSph := fun _ _ => 0,
    toGetBh := fun _ _ => 0 }

/-- A plan whose two SPH transfers from task 0 overflow destination 1. -/
def countStOver : CountToGoState :=
  { toGo := fun i d => if i = 0 ∧ d = 1 then 2 else 0,
    toGoSph := fun i d => if i = 0 ∧ d = 1 then 2 else 0,
    toGoBh := fun _ _ => 0,
    toGet := fun r s => if r = 1 ∧ s = 0 then 2 else 0,
    toGetSph := fun r s => if r = 1 ∧ s = 0 then 2 else 0,
    toGetBh := fun _ _ => 0 }

/-- Concrete instances of the three parts: a 1-unit round-robin repair
that must skip the empty sender, an immediately-fitting negotiation,
and a flagged sweep at the `flagsum` bound. -/
theorem countToGo_repair_witness :
    ((0 : ℕ) < countEnvW.NTask ∧ 1 ≤ colSum countColW countEnvW.NTask ∧
     1 * (countEnvW.NTask + 1) + countEnvW.NTask + 1 ≤ 6 ∧
     ((repair_loop countEnvW.NTask 6 countColW 0 1).2 = true ∧
      colSum (repair_loop countEnvW.NTask 6 countColW 0 1).1 countEnvW.NTask + 1
        = colSum countColW countEnvW.NTask ∧
      ∀ k, (repair_loop countEnvW.NTask 6 countColW 0 1).1 k ≤ countColW k)) ∧
    (repair_inner countEnvW 1 0 countStZero = .ok (countStZero, 0) ∧
     ((0 : ℕ) ≤ 100 ∧ ∀ ta, ta < countEnvW.NTask →
        (overSph countEnvW countStZero ta ≤ 0 ∧
         overBh countEnvW countStZero ta ≤ 0 ∧
         overAll countEnvW countStZero ta 0 ≤ 0))) ∧
    repair_inner countEnvW (0 + 1) 100 countStOver = .error () :=
  ⟨⟨by decide, by decide, by decide,
    (countToGo_repair countEnvW).1 countColW 0 1 6 (by decide) (by decide)
      (by decide)⟩,
   ⟨rfl, (countToGo_repair countEnvW).2.1 1 0 countStZero countStZero 0
      (by decide) rfl⟩,
   (countToGo_repair countEnvW).2.2 0 100 countStOver (by decide) ⟨_, rfl⟩⟩

end MPGadget
